import Mathlib

/-! Verification of tsh, a tiny shell with job control.

A shallow embedding of `tsh_BACKUP.c`: the job table (`clearjob`, `initjobs`,
`freejid`, `addjob`, `deletejob`, `fgpid`, `getjobpid`, `getjobjid`, `pid2jid`),
the tokenizer `parseline`, the builtins (`builtin_cmd`, `do_bgfg`), the
child-state handler `sigchld_handler`, and `eval` with the code its forked
child runs (operator validation, operator marking, the stage loop).

Conventions.
* C `int` and `pid_t` values are `Int`; no arithmetic in the modelled code can
  overflow, except the conversion done by `atol`, which is made explicit.
* C strings are `String` (no NUL inside); a `char *` that may be `NULL` is an
  `Option String`.
* The array `jobs[MAXJOBS]` is a `List job_t`; a loop `for (i = 0; i < MAXJOBS; i++)`
  over it is a recursion over the list, so a table is a list of length `MAXJOBS`.
* Behaviour that C leaves undefined (a write outside a local array, `strcpy`
  past the end of `cmdline[MAXLINE]`, dereferencing `NULL`) is the result `none`
  (or a `crash` outcome): the model says nothing about what happens then.
* `printf` calls are recorded as values of `Out`; the `if (verbose)` diagnostics
  are not recorded (they change no state).
-/

namespace Tsh

/-! ## Constants -/

/-- Constant `#define MAXLINE 1024` -/
def MAXLINE : Nat := 1024
/-- Constant `#define MAXARGS 128` -/
def MAXARGS : Nat := 128
/-- Constant `#define MAXJOBS 16` -/
def MAXJOBS : Nat := 16

/-- Constant `#define UNDEF 0` -/
def UNDEF : Int := 0
/-- Constant `#define FG 1` -/
def FG : Int := 1
/-- Constant `#define BG 2` -/
def BG : Int := 2
/-- Constant `#define ST 3` -/
def ST : Int := 3

/-- Source `struct job_t`: per-job data. -/
structure job_t where
  pid : Int
  jid : Int
  state : Int
  cmdline : String
deriving DecidableEq, Repr

/-- What the shell (or a process it forked) writes with `printf`/`perror`. -/
inductive Out where
  /-- Prints `Invalid commandline\n` -/
  | invalidCommandline
  /-- Prints `Invalid commandline: an input redirector "<" cannot appear after a pipe "|"\n` -/
  | invalidInAfterPipe
  /-- Prints `Invalid commandline: a pipe operator "|" cannot appear after an output redirector ">"\n` -/
  | invalidPipeAfterOut
  /-- Prints `Tried to create too many jobs\n` -/
  | tooManyJobs
  /-- Prints `[%d] (%d) %s` with a job id, a pid and a command line -/
  | jobStarted (jid pid : Int) (cmdline : String)
  /-- Prints `bg command requires PID or %jid argument\n` (or the same for `fg`) -/
  | requiresArgument (cmd : String)
  /-- Prints `bg: argument must be a PID or %jid\n` (or the same for `fg`) -/
  | mustBePidOrJid (cmd : String)
  /-- Prints `%s: No such job\n` -/
  | noSuchJob (arg : String)
  /-- Prints `(%d): No such process\n` -/
  | noSuchProcess (pid : Int)
  /-- one line of `listjobs`: `[%d] (%d) <state> %s` -/
  | jobLine (jid pid state : Int) (cmdline : String)
  /-- Prints `Job [%d] (%d) terminated by signal %d\n` -/
  | terminatedBySignal (jid pid sig : Int)
  /-- Prints `Job [%d] (%d) stopped by signal %d\n` -/
  | stoppedBySignal (jid pid sig : Int)
  /-- Output of `perror("fork")` -/
  | perrorFork
  /-- Output of `perror("pipe")` -/
  | perrorPipe
deriving DecidableEq, Repr

/-! ## The job table -/

/-- Function `clearjob`: clear the entries in a job struct. -/
def clearjob (_job : job_t) : job_t :=
  { pid := 0, jid := 0, state := UNDEF, cmdline := "" }

/-- Function `initjobs`: `clearjob` on each of the `MAXJOBS` slots. -/
def initjobs : List job_t :=
  List.replicate MAXJOBS (clearjob { pid := 0, jid := 0, state := 0, cmdline := "" })

/-- First loop of `freejid`: `if (jobs[i].jid != 0) taken[jobs[i].jid] = 1;`.
`taken` has `MAXJOBS + 1` cells; an index outside it is undefined behaviour. -/
def markTaken : List job_t → List Bool → Option (List Bool)
  | [], taken => some taken
  | j :: js, taken =>
    if j.jid ≠ 0 then
      if 0 ≤ j.jid ∧ j.jid ≤ (MAXJOBS : Int) then
        markTaken js (taken.set j.jid.toNat true)
      else none
    else markTaken js taken

/-- Second loop of `freejid`: `for (i = 1; i <= MAXJOBS; i++) if (!taken[i]) return i;`
followed by `return 0`. `n` counts the iterations that remain. -/
def firstFree (taken : List Bool) : Nat → Nat → Int
  | 0, _ => 0
  | n + 1, i => if taken.getD i false = false then (i : Int) else firstFree taken n (i + 1)

/-- Function `freejid`: returns the smallest free job id, 0 if there is none. -/
def freejid (jobs : List job_t) : Option Int :=
  (markTaken jobs (List.replicate (MAXJOBS + 1) false)).map
    (fun taken => firstFree taken MAXJOBS 1)

/-- The slot loop of `addjob`: the first slot with `pid == 0` receives the new
entry; `none` when no slot has `pid == 0`. -/
def addjobLoop (pid state free : Int) (cmdline : String) : List job_t → Option (List job_t)
  | [] => none
  | j :: js =>
    if j.pid = 0 then
      some ({ pid := pid, jid := free, state := state, cmdline := cmdline } :: js)
    else (addjobLoop pid state free cmdline js).map (fun js' => j :: js')

/-- Function `addjob`: add a job to the job list. The result is the returned `int`, the
table afterwards and what was printed; `none` is undefined behaviour
(in `freejid`, or `strcpy` of a line that does not fit `cmdline[MAXLINE]`). -/
def addjob (jobs : List job_t) (pid state : Int) (cmdline : String) :
    Option (Int × List job_t × List Out) :=
  if pid < 1 then some (0, jobs, [])
  else
    match freejid jobs with
    | none => none
    | some free =>
      if free = 0 then some (0, jobs, [Out.tooManyJobs])
      else
        match addjobLoop pid state free cmdline jobs with
        | some jobs' => if cmdline.length < MAXLINE then some (1, jobs', []) else none
        | none => some (0, jobs, [])

/-- Function `deletejob`, the loop: the first slot whose pid is `pid` is cleared. -/
def deletejobLoop (pid : Int) : List job_t → Int × List job_t
  | [] => (0, [])
  | j :: js =>
    if j.pid = pid then (1, clearjob j :: js)
    else ((deletejobLoop pid js).1, j :: (deletejobLoop pid js).2)

/-- Function `deletejob`: delete a job whose PID is `pid` from the job list. -/
def deletejob (jobs : List job_t) (pid : Int) : Int × List job_t :=
  if pid < 1 then (0, jobs) else deletejobLoop pid jobs

/-- Function `fgpid`: PID of the current foreground job, 0 if there is none. -/
def fgpid : List job_t → Int
  | [] => 0
  | j :: js => if j.state = FG then j.pid else fgpid js

/-- The loop `for (i = 0; i < MAXJOBS; i++) if (...) return &jobs[i];` of
`getjobpid` and `getjobjid`: the index of the first slot that passes the test. -/
def findSlot (test : job_t → Bool) : List job_t → Option Nat
  | [] => none
  | j :: js => if test j then some 0 else (findSlot test js).map (fun i => i + 1)

/-- Function `getjobpid`: find a job by PID; the result is the index of its slot. -/
def getjobpid (jobs : List job_t) (pid : Int) : Option Nat :=
  if pid < 1 then none else findSlot (fun j => j.pid = pid) jobs

/-- Function `getjobjid`: find a job by job id; the result is the index of its slot. -/
def getjobjid (jobs : List job_t) (jid : Int) : Option Nat :=
  if jid < 1 then none else findSlot (fun j => j.jid = jid) jobs

/-- Function `pid2jid`: map a process id to a job id, 0 if no slot holds the pid. -/
def pid2jid (jobs : List job_t) (pid : Int) : Int :=
  if pid < 1 then 0
  else match jobs.find? (fun j => j.pid = pid) with
    | some j => j.jid
    | none => 0

/-- Function `listjobs`: one line per slot with `pid != 0`. -/
def listjobs (jobs : List job_t) : List Out :=
  (jobs.filter (fun j => j.pid ≠ 0)).map (fun j => Out.jobLine j.jid j.pid j.state j.cmdline)

/-! ## The tokenizer -/

/-- The single-quote character. -/
def quoteChar : Char := Char.ofNat 39

/-- Source `strchr(buf, c)`: the characters before the first `c` and those after it;
`none` (a `NULL` result) when `c` does not occur. -/
def strchr (c : Char) : List Char → Option (List Char × List Char)
  | [] => none
  | x :: xs =>
    if x = c then some ([], xs)
    else (strchr c xs).map (fun r => (x :: r.1, r.2))

/-- Source `while (*buf && (*buf == ' ')) buf++;` -/
def skipSpaces : List Char → List Char
  | [] => []
  | x :: xs => if x = ' ' then skipSpaces xs else x :: xs

/-- The choice of delimiter in `parseline`: after an opening quote the next
quote, otherwise the next space. The result is the token and what follows the
delimiter. -/
def findDelim : List Char → Option (List Char × List Char)
  | [] => none
  | x :: xs => if x = quoteChar then strchr quoteChar xs else strchr ' ' (x :: xs)

/-- Source `while (delim) { argv[argc++] = buf; *delim = 0; buf = delim + 1; ... }`.
Every iteration consumes at least the delimiter, so `buf.length` iterations are
enough; the first argument bounds the iterations. -/
def parseLoop : Nat → List Char → List String
  | 0, _ => []
  | fuel + 1, buf =>
    match findDelim buf with
    | none => []
    | some (tok, rest) => String.mk tok :: parseLoop fuel (skipSpaces rest)

/-- The tokens `parseline` stores in `argv[0 .. argc-1]`, for a line that fits
the buffers. -/
def parseTokens (cmdline : List Char) : List String :=
  parseLoop (cmdline.length + 1) (skipSpaces (cmdline.dropLast ++ [' ']))

/-- Function `parseline`: parse the command line and build the argv array. The result is
the token list (`argc` is its length, `argv[argc]` is `NULL`). `none` is
undefined behaviour: an empty line (`buf[strlen(buf)-1]`), a line that does not
fit `array[MAXLINE]`, or more tokens than `argv[MAXARGS]` holds with its
terminator. -/
def parseline (cmdline : String) : Option (List String) :=
  if cmdline.data = [] then none
  else if MAXLINE ≤ cmdline.length then none
  else if MAXARGS ≤ (parseTokens cmdline.data).length then none
  else some (parseTokens cmdline.data)

/-! ## Signals, traces -/

/-- The signals the shell names. -/
inductive Sig where
  | SIGINT | SIGTSTP | SIGCONT | SIGCHLD | SIGUSR1
deriving DecidableEq, Repr

/-- What the shell process does that is visible outside the job table. -/
inductive Ev where
  /-- a `printf` or `perror` -/
  | print (o : Out)
  /-- Source `kill(pid, sig)` -/
  | kill (pid : Int) (sig : Sig)
  /-- Source `sigprocmask(SIG_BLOCK, &blockmask, &oldmask)` -/
  | blockSignals (sigs : List Sig)
  /-- Source `sigprocmask(SIG_SETMASK, &oldmask, NULL)` -/
  | restoreSignals
  /-- Source `fork()`, with the value it returned -/
  | fork (result : Int)
  /-- Source `while (!ready);` -/
  | waitReady
deriving DecidableEq, Repr

/-! ## Builtins -/

/-- The decimal value of the leading digits of a string. -/
def digitsValue : List Char → Nat → Nat
  | [], acc => acc
  | c :: cs, acc => if c.isDigit then digitsValue cs (acc * 10 + (c.toNat - 48)) else acc

/-- Function `atol` on a string whose first character is a digit (the only way `do_bgfg`
calls it): the value of the leading digits, at most `LONG_MAX`. -/
def atol (s : List Char) : Int :=
  min (digitsValue s 0 : Int) (2 ^ 63 - 1)

/-- The conversion of a `long` to `int` (or `pid_t`) in an assignment. -/
def toInt32 (v : Int) : Int :=
  (v + 2 ^ 31) % 2 ^ 32 - 2 ^ 31

/-- Source `job->state = state` for the slot with index `idx`. -/
def setState (state : Int) : Nat → List job_t → List job_t
  | _, [] => []
  | 0, j :: js => { j with state := state } :: js
  | idx + 1, j :: js => j :: setState state idx js

/-- Result of a builtin: the table, the trace, and the pid `waitfg` is then
called with (the builtin blocks in `waitfg` as its last action). -/
structure BuiltinResult where
  jobs : List job_t
  evs : List Ev
  waitfg : Option Int
deriving DecidableEq, Repr

/-- The body that the `bg` and the `fg` branch of `do_bgfg` share line for
line; `cmd` is `argv[0]`, which is `bg` or `fg`. Where the two differ, the `bg`
branch assigns `BG` and prints the job, the `fg` branch assigns `FG` and calls
`waitfg`. -/
def bgfgBranch (jobs : List job_t) (cmd : String) (argv : List String) : BuiltinResult :=
  if argv.length ≠ 2 then ⟨jobs, [Ev.print (Out.requiresArgument cmd)], none⟩
  else
    let arg := argv.getD 1 ""
    if arg.data.head? = some '%' then
      if (arg.data.getD 1 (Char.ofNat 0)).isDigit = false then
        ⟨jobs, [Ev.print (Out.noSuchJob arg)], none⟩
      else
        let jid := toInt32 (atol ((arg.data.drop 1).take (MAXARGS - 1)))
        match getjobjid jobs jid with
        | none => ⟨jobs, [Ev.print (Out.noSuchJob arg)], none⟩
        | some idx =>
          let job := jobs.getD idx (clearjob ⟨0, 0, 0, ""⟩)
          if cmd = "bg" then
            ⟨setState BG idx jobs,
              [Ev.kill (-job.pid) Sig.SIGCONT, Ev.print (Out.jobStarted jid job.pid job.cmdline)],
              none⟩
          else
            ⟨setState FG idx jobs, [Ev.kill (-job.pid) Sig.SIGCONT], some job.pid⟩
    else if (arg.data.getD 0 (Char.ofNat 0)).isDigit = false then
      ⟨jobs, [Ev.print (Out.mustBePidOrJid cmd)], none⟩
    else
      let pid := toInt32 (atol arg.data)
      match getjobpid jobs pid with
      | none => ⟨jobs, [Ev.print (Out.noSuchProcess pid)], none⟩
      | some idx =>
        let job := jobs.getD idx (clearjob ⟨0, 0, 0, ""⟩)
        if cmd = "bg" then
          ⟨setState BG idx jobs,
            [Ev.kill (-job.pid) Sig.SIGCONT, Ev.print (Out.jobStarted job.jid pid job.cmdline)],
            none⟩
        else
          ⟨setState FG idx jobs, [Ev.kill (-job.pid) Sig.SIGCONT], some pid⟩

/-- Function `do_bgfg`: execute the builtin bg and fg commands. `argv` is the token list
(up to the first `NULL`); with another first token nothing happens. -/
def do_bgfg (jobs : List job_t) (argv : List String) : BuiltinResult :=
  if argv.head? = some "bg" then bgfgBranch jobs "bg" argv
  else if argv.head? = some "fg" then bgfgBranch jobs "fg" argv
  else ⟨jobs, [], none⟩

/-- Outcome of `builtin_cmd`. -/
inductive BuiltinOutcome where
  /-- Crash: `argv[0]` is `NULL`: `strcmp` dereferences it -/
  | crash
  /-- Builtin `quit`: `exit(1)` -/
  | quit
  /-- returned 1 after running `jobs`, `bg` or `fg` -/
  | handled (r : BuiltinResult)
  /-- returned 0: not a builtin command -/
  | notBuiltin
deriving DecidableEq, Repr

/-- Function `builtin_cmd`: if the user has typed a built-in command then execute it
immediately. -/
def builtin_cmd (jobs : List job_t) (argv : List String) : BuiltinOutcome :=
  match argv.head? with
  | none => BuiltinOutcome.crash
  | some cmd =>
    if cmd = "quit" then BuiltinOutcome.quit
    else if cmd = "jobs" then
      BuiltinOutcome.handled ⟨jobs, (listjobs jobs).map Ev.print, none⟩
    else if cmd = "fg" ∨ cmd = "bg" then BuiltinOutcome.handled (do_bgfg jobs argv)
    else BuiltinOutcome.notBuiltin

/-! ## The child-state handler -/

/-- The status `waitpid(-1, &status, WNOHANG | WUNTRACED)` stores, as the
macros `WIFEXITED`, `WIFSIGNALED`, `WIFSTOPPED` read it. -/
inductive Status where
  | exited (code : Int)
  | signaled (sig : Int)
  | stopped (sig : Int)
  /-- none of the three macros holds -/
  | other
deriving DecidableEq, Repr

/-- One iteration of the `while` loop of `sigchld_handler`, for the child
`job_pid` that `waitpid` returned. `none`: `job->state = ST` through a `NULL`
`job`. -/
def sigchldOne (jobs : List job_t) (job_pid : Int) (status : Status) :
    Option (List job_t × List Ev) :=
  match status with
  | Status.exited _ => some ((deletejob jobs job_pid).2, [])
  | Status.signaled sig =>
    some ((deletejob jobs job_pid).2,
      [Ev.print (Out.terminatedBySignal (pid2jid jobs job_pid) job_pid sig)])
  | Status.stopped sig =>
    match getjobpid jobs job_pid with
    | none => none
    | some idx =>
      some (setState ST idx jobs,
        [Ev.print (Out.stoppedBySignal (pid2jid jobs job_pid) job_pid sig)])
  | Status.other => some (jobs, [])

/-- Function `sigchld_handler`: the loop over the state changes `waitpid` returns, in
order, until it returns a value that is not positive. -/
def sigchld_handler (jobs : List job_t) : List (Int × Status) → Option (List job_t × List Ev)
  | [] => some (jobs, [])
  | (job_pid, status) :: rest =>
    match sigchldOne jobs job_pid status with
    | none => none
    | some (jobs', evs) =>
      match sigchld_handler jobs' rest with
      | none => none
      | some (jobs'', evs') => some (jobs'', evs ++ evs')

/-! ## The forked child: validation, marking, the stage loop -/

/-- What a file descriptor 0 or 1 of a process refers to. -/
inductive Fd where
  /-- the standard input the shell itself has -/
  | shellStdin
  /-- the standard output the shell itself has -/
  | shellStdout
  /-- a file opened with `open(path, O_RDONLY)` or `open(path, O_WRONLY | O_CREAT, 0644)` -/
  | file (path : String) (forWriting : Bool)
  /-- Source `fds[k][0]` -/
  | pipeRead (k : Int)
  /-- Source `fds[k][1]` -/
  | pipeWrite (k : Int)
deriving DecidableEq, Repr

/-- The process group of a process. -/
inductive PGroup where
  /-- the group of the shell -/
  | ofShell
  /-- the group the forked leader made with `setpgid(0, 0)` -/
  | ofLeader
deriving DecidableEq, Repr

/-- A process created for a command line, at the moment it calls
`execve(argv_ptr[0], argv_ptr, environ)`. -/
structure Proc where
  pgid : PGroup
  stdin : Fd
  stdout : Fd
  /-- Source `argv_ptr[0]` -/
  path : Option String
  /-- the strings of `argv_ptr` up to its first `NULL` -/
  args : List String
deriving DecidableEq, Repr

/-- Which of the system calls made by the leader fail. -/
structure Sys where
  /-- Source `pipe(fds[k])` returns -1 -/
  pipeFails : Int → Bool
  /-- the `fork()` that follows `pipe(fds[k])` returns a negative value -/
  forkFails : Int → Bool
  /-- Source `open(path, ...)` returns -1 -/
  openFails : String → Bool

/-- Source `!strcmp(s, "<") || !strcmp(s, ">") || !strcmp(s, "|")` -/
def isOperator (s : String) : Bool :=
  s = "<" || s = ">" || s = "|"

/-- Source `argv[i + 1] == NULL || !strcmp(argv[i + 1], "<") || !strcmp(argv[i + 1], ">")
|| !strcmp(argv[i + 1], "|")`, where the list is `argv[i + 1], ...` up to the first
`NULL`. -/
def nextIsNullOrOperator : List String → Bool
  | [] => true
  | b :: _ => isOperator b

/-- The `ERROR CHECKS` loop, from index `i` on: the list is `argv[i], argv[i+1], ...`
up to the first `NULL`, `argv0` is `argv[0]`, the flags are `pipe_encountered`
and `out_redir_encountered`. The result is the message printed before
`exit(1)`, or `none` when the loop ends. -/
def validateLoop (argv0 : String) : List String → Bool → Bool → Option Out
  | [], _, _ => none
  | a :: rest, pipe_encountered, out_redir_encountered =>
    let pipe_encountered := pipe_encountered || a = "|"
    let out_redir_encountered := out_redir_encountered || a = ">"
    if isOperator argv0 then some Out.invalidCommandline
    else if isOperator a && nextIsNullOrOperator rest then some Out.invalidCommandline
    else if pipe_encountered && a = "<" then some Out.invalidInAfterPipe
    else if out_redir_encountered && a = "|" then some Out.invalidPipeAfterOut
    else validateLoop argv0 rest pipe_encountered out_redir_encountered

/-- The `ERROR CHECKS` loop of the child, on the tokens `argv[0], argv[1], ...`
up to the first `NULL`. -/
def validate (argv : List String) : Option Out :=
  validateLoop (argv.headD "") argv false false

/-- The marking loop: `argv[i] = NULL` where `argv[i]` is `|`, `<` or `>`. Cells
past the tokens (up to `argv[argc]`) are `NULL`; reading them is `getD _ none`. -/
def markArgv (argv : List String) : List (Option String) :=
  argv.map (fun a => if a = "|" then none else if a = "<" then none
    else if a = ">" then none else some a)

/-- The marking loop: `is_pipe[i] = 1` where `argv[i]` is `|`. -/
def markPipe (argv : List String) : List Bool :=
  argv.map (fun a => decide (a = "|"))

/-- The marking loop: `is_inredir[i] = 1` where `argv[i]` is `<`. -/
def markInredir (argv : List String) : List Bool :=
  argv.map (fun a => decide (a ≠ "|" ∧ a = "<"))

/-- The marking loop: `is_outredir[i] = 1` where `argv[i]` is `>`. -/
def markOutredir (argv : List String) : List Bool :=
  argv.map (fun a => decide (a ≠ "|" ∧ a ≠ "<" ∧ a = ">"))

/-- The marking loop: `pipe_count`. -/
def pipeCount (argv : List String) : Nat :=
  argv.count "|"

/-- The leader while it runs the stage loop. -/
structure Leader where
  /-- the array `argv`, which `argv_ptr` points to throughout -/
  argv : List (Option String)
  skip_this_iteration : Bool
  i_fd : Int
  pgid : PGroup
  stdin : Fd
  stdout : Fd
  /-- the sub-children forked so far, oldest first -/
  subs : List Proc
deriving DecidableEq, Repr

/-- Source `execve(argv_ptr[0], argv_ptr, environ)` as called by a process that has the
descriptors and the `argv` of `st`. -/
def execveCall (st : Leader) : Proc :=
  { pgid := st.pgid, stdin := st.stdin, stdout := st.stdout,
    path := st.argv.headD none,
    args := (st.argv.takeWhile Option.isSome).filterMap id }

/-- Source `open(path, ...)`: the descriptor, or `none` for -1 (always so for a `NULL` path). -/
def sysOpen (sys : Sys) (path : Option String) (forWriting : Bool) : Option Fd :=
  match path with
  | none => none
  | some p => if sys.openFails p then none else some (Fd.file p forWriting)

/-- Source `dup2(fd, target)`: the target refers to `fd` afterwards; with `fd = -1` the
call fails and the target is as before. -/
def dup2 (fd : Option Fd) (target : Fd) : Fd :=
  fd.getD target

/-- One iteration of the stage loop, for index `i`. An error is the `perror`
message before `exit(1)`, with the state reached. -/
def stageStep (sys : Sys) (is_pipe is_inredir is_outredir : List Bool) (st : Leader) (i : Nat) :
    Except (Out × Leader) Leader :=
  if st.skip_this_iteration then
    if is_pipe.getD (i - 1) false then
      Except.ok { st with argv := st.argv.set 0 (st.argv.getD i none),
                          skip_this_iteration := false }
    else Except.ok { st with skip_this_iteration := false }
  else if is_inredir.getD i false then
    Except.ok { st with skip_this_iteration := true,
                        stdin := dup2 (sysOpen sys (st.argv.getD (i + 1) none) false) st.stdin }
  else if is_outredir.getD i false then
    Except.ok { st with skip_this_iteration := true,
                        stdout := dup2 (sysOpen sys (st.argv.getD (i + 1) none) true) st.stdout }
  else if is_pipe.getD i false then
    let st1 := { st with skip_this_iteration := true, i_fd := st.i_fd + 1 }
    if sys.pipeFails st1.i_fd then Except.error (Out.perrorPipe, st1)
    else if sys.forkFails st1.i_fd then Except.error (Out.perrorFork, st1)
    else
      Except.ok { st1 with
        subs := st1.subs ++ [execveCall { st1 with stdout := Fd.pipeWrite st1.i_fd }],
        stdin := Fd.pipeRead st1.i_fd }
  else Except.ok st

/-- The stage loop `for (i = 0; i < argc; i++)`, from index `i` with `n`
iterations to go. -/
def stageLoop (sys : Sys) (is_pipe is_inredir is_outredir : List Bool) :
    Nat → Nat → Leader → Except (Out × Leader) Leader
  | 0, _, st => Except.ok st
  | n + 1, i, st =>
    match stageStep sys is_pipe is_inredir is_outredir st i with
    | Except.error e => Except.error e
    | Except.ok st' => stageLoop sys is_pipe is_inredir is_outredir n (i + 1) st'

/-- How the code run by the forked child ends. -/
inductive ChildOutcome where
  /-- validation failed: the message, then `exit(1)`; nothing was created -/
  | rejected (msg : Out)
  /-- Failure of `pipe` or `fork` in the stage loop: `perror`, then `exit(1)` -/
  | failed (msg : Out) (subs : List Proc) (pipes : Int)
  /-- the loop ended and the leader called `execve`: the sub-children, the
  leader, and the number of pipes created -/
  | launched (subs : List Proc) (leader : Proc) (pipes : Int)
deriving DecidableEq, Repr

/-- The `CHILD PROCESS` branch of `eval`: `argv` holds the tokens up to the
first `NULL`, `argc` is the value `parseline` returned. The leader has done
`setpgid(0, 0)` and forked sub-children inherit its group. -/
def evalChild (sys : Sys) (argv : List String) (argc : Nat) : ChildOutcome :=
  match validate argv with
  | some msg => ChildOutcome.rejected msg
  | none =>
    let st0 : Leader :=
      { argv := markArgv argv, skip_this_iteration := false, i_fd := -1,
        pgid := PGroup.ofLeader, stdin := Fd.shellStdin, stdout := Fd.shellStdout, subs := [] }
    match stageLoop sys (markPipe argv) (markInredir argv) (markOutredir argv) argc 0 st0 with
    | Except.error (msg, st) => ChildOutcome.failed msg st.subs (st.i_fd + 1)
    | Except.ok st => ChildOutcome.launched st.subs (execveCall st) (st.i_fd + 1)

/-! ## eval -/

/-- How a call of `eval` ends, in the process that called `fork`. -/
inductive EvalOutcome where
  /-- undefined behaviour in `parseline` or `addjob` -/
  | undefined
  /-- Crash: `builtin_cmd` dereferenced a `NULL` `argv[0]` -/
  | crash
  /-- the shell called `exit(status)` -/
  | exit (status : Int) (evs : List Ev)
  /-- Return: `eval` is done with the job table: the table, the trace, and the pid
  `waitfg` is called with as the last action before returning, if it is -/
  | ret (jobs : List job_t) (evs : List Ev) (waitfg : Option Int)
  /-- Child: `fork` returned 0: this is the child, which never returns from `eval` -/
  | inChild (c : ChildOutcome)
deriving DecidableEq, Repr

/-- Source `!strcmp(argv[argc - 1], "&")`: the last token is `&`. -/
def isBackground (toks : List String) : Bool :=
  toks.getLast? = some "&"

/-- The tokens `argv` holds up to its first `NULL` after
`if (!strcmp(argv[argc - 1], "&")) argv[argc - 1] = NULL;`. -/
def stripBackground (toks : List String) : List String :=
  if isBackground toks then toks.dropLast else toks

/-- The trace of the `PARENT PROCESS` branch of `eval`, from the
`sigprocmask` before `fork` on: `out` is what `addjob` printed, `jobs'` the
table after it. -/
def parentTrace (bg : Bool) (fork_pid : Int) (out : List Out) (jobs' : List job_t)
    (cmdline : String) : List Ev :=
  [Ev.blockSignals [Sig.SIGINT, Sig.SIGTSTP], Ev.fork fork_pid, Ev.waitReady] ++
    out.map Ev.print ++
    (if bg then
      [Ev.restoreSignals, Ev.print (Out.jobStarted (pid2jid jobs' fork_pid) fork_pid cmdline)]
    else [Ev.restoreSignals])

/-- Function `eval`: evaluate the command line that the user has just typed in.
`fork_pid` is the value `fork()` returns if it is called: negative for a
failure, 0 in the child, the pid of the child in the shell. -/
def eval (sys : Sys) (jobs : List job_t) (cmdline : String) (fork_pid : Int) : EvalOutcome :=
  match parseline cmdline with
  | none => EvalOutcome.undefined
  | some toks =>
    if toks = [] then EvalOutcome.ret jobs [] none
    else
      let bg := isBackground toks
      let argv := stripBackground toks
      match builtin_cmd jobs argv with
      | BuiltinOutcome.crash => EvalOutcome.crash
      | BuiltinOutcome.quit => EvalOutcome.exit 1 []
      | BuiltinOutcome.handled r => EvalOutcome.ret r.jobs r.evs r.waitfg
      | BuiltinOutcome.notBuiltin =>
        if fork_pid < 0 then
          EvalOutcome.exit 1 [Ev.blockSignals [Sig.SIGINT, Sig.SIGTSTP], Ev.fork fork_pid,
            Ev.print Out.perrorFork]
        else if fork_pid = 0 then EvalOutcome.inChild (evalChild sys argv toks.length)
        else
          match addjob jobs fork_pid (if bg then BG else FG) cmdline with
          | none => EvalOutcome.undefined
          | some (_, jobs', out) =>
            EvalOutcome.ret jobs' (parentTrace bg fork_pid out jobs' cmdline)
              (if bg then none else some fork_pid)

/-- The number of `fork()` calls in a trace. -/
def forkCount : List Ev → Nat
  | [] => 0
  | Ev.fork _ :: evs => forkCount evs + 1
  | _ :: evs => forkCount evs

/-! ## waitfg and the foreground entries -/

/-- The loop condition of `waitfg`: `pid == fgpid(jobs)`. -/
def waitfgBlocks (jobs : List job_t) (pid : Int) : Bool :=
  pid = fgpid jobs

/-- The number of job-table entries whose state is `FG`. -/
def countFG (jobs : List job_t) : Nat :=
  (jobs.filter (fun j => j.state = FG)).length

/-! ## Predicates of the specification -/

/-- A well-formed job table: `MAXJOBS` slots; occupied slots (`pid != 0`) carry
pairwise distinct job ids in `1..MAXJOBS`; empty slots carry job id 0. -/
def WellFormed (jobs : List job_t) : Prop :=
  jobs.length = MAXJOBS ∧
  (∀ j ∈ jobs, j.pid ≠ 0 → 1 ≤ j.jid ∧ j.jid ≤ (MAXJOBS : Int)) ∧
  (∀ j ∈ jobs, j.pid = 0 → j.jid = 0) ∧
  jobs.Pairwise (fun a b => a.pid ≠ 0 → b.pid ≠ 0 → a.jid ≠ b.jid)

instance (jobs : List job_t) : Decidable (WellFormed jobs) := by
  unfold WellFormed; infer_instance

/-- The table has a free slot. -/
def HasFreeSlot (jobs : List job_t) : Prop :=
  ∃ j ∈ jobs, j.pid = 0

instance (jobs : List job_t) : Decidable (HasFreeSlot jobs) := by
  unfold HasFreeSlot; infer_instance

/-- The job id `jid` is the smallest positive integer that is not the job id of
an active job of the table. -/
def SmallestUnused (jobs : List job_t) (jid : Int) : Prop :=
  0 < jid ∧ (∀ j ∈ jobs, j.pid ≠ 0 → j.jid ≠ jid) ∧
  ∀ n : Int, 0 < n → n < jid → ∃ j ∈ jobs, j.pid ≠ 0 ∧ j.jid = n

/-- The tables reached from `initjobs` by calls of `addjob` and `deletejob`. -/
inductive TableReachable : List job_t → Prop where
  | init : TableReachable initjobs
  | add (jobs : List job_t) (pid state : Int) (cmdline : String)
      (r : Int × List job_t × List Out) :
      TableReachable jobs → addjob jobs pid state cmdline = some r → TableReachable r.2.1
  | delete (jobs : List job_t) (pid : Int) :
      TableReachable jobs → TableReachable (deletejob jobs pid).2

/-- An empty slot, as `clearjob` leaves it. -/
def emptySlot : job_t :=
  { pid := 0, jid := 0, state := UNDEF, cmdline := "" }

/-- The table after a background job with pid 10 was added to the empty table. -/
def jobsOne : List job_t :=
  [⟨10, 1, BG, "a &\n"⟩] ++ List.replicate 15 emptySlot

/-- The table after background jobs with pids 10, 20 were added to the empty
table. -/
def jobsOneTwo : List job_t :=
  [⟨10, 1, BG, "a &\n"⟩, ⟨20, 2, BG, "b &\n"⟩] ++ List.replicate 14 emptySlot

/-- The table after three background jobs with pids 10, 20, 30 were added to
the empty table: they carry the job ids 1, 2, 3. -/
def jobsOneTwoThree : List job_t :=
  [⟨10, 1, BG, "a &\n"⟩, ⟨20, 2, BG, "b &\n"⟩, ⟨30, 3, BG, "c &\n"⟩] ++
    List.replicate 13 emptySlot

/-- Specification, first rejection rule: the first token is `|`, `<` or `>`. -/
def FirstIsOperator (argv : List String) : Prop :=
  argv ≠ [] ∧ isOperator (argv.getD 0 "") = true

/-- Specification, second rejection rule: an operator token is the last token
or is immediately followed by another operator token. -/
def OperatorLacksOperand (argv : List String) : Prop :=
  ∃ i, i < argv.length ∧ isOperator (argv.getD i "") = true ∧
    (i + 1 = argv.length ∨ isOperator (argv.getD (i + 1) "") = true)

/-- Specification, third rejection rule: a `<` occurs after a `|`. -/
def InputAfterPipe (argv : List String) : Prop :=
  ∃ j, j < argv.length ∧ argv.getD j "" = "<" ∧ ∃ i, i < j ∧ argv.getD i "" = "|"

/-- Specification, fourth rejection rule: a `|` occurs after a `>`. -/
def PipeAfterOutput (argv : List String) : Prop :=
  ∃ j, j < argv.length ∧ argv.getD j "" = "|" ∧ ∃ i, i < j ∧ argv.getD i "" = ">"

/-- Specification: the token sequence is rejected by one of the four rules. -/
def SpecRejects (argv : List String) : Prop :=
  FirstIsOperator argv ∨ OperatorLacksOperand argv ∨ InputAfterPipe argv ∨ PipeAfterOutput argv

instance (argv : List String) : Decidable (SpecRejects argv) := by
  unfold SpecRejects FirstIsOperator OperatorLacksOperand InputAfterPipe PipeAfterOutput
  infer_instance

/-- A token `x` occurs in the list at a place where the flag was set before the
list began or a token `y` came earlier in the list: the condition under which
the validation loop, entered with the flag, meets `x` with its flag set. -/
def OccursAfter (y x : String) (flag : Bool) (l : List String) : Prop :=
  ∃ j, j < l.length ∧ l.getD j "" = x ∧ (flag = true ∨ ∃ i, i < j ∧ l.getD i "" = y)

/-- The invariant that every job-table operation keeps when it runs without
being interrupted: at most one entry is in state `FG`, and an entry in state
`FG` is the job the main thread waits for in `waitfg` (so there is none when
the main thread is not in `waitfg`). -/
def FGInv (jobs : List job_t) (waiting : Option Int) : Prop :=
  countFG jobs ≤ 1 ∧ ∀ j ∈ jobs, j.state = FG → waiting = some j.pid

/-- Every `pipe`, `fork` and `open` of the leader succeeds. -/
def sysOk : Sys :=
  { pipeFails := fun _ => false, forkFails := fun _ => false, openFails := fun _ => false }

/-- The table after `sleep 5 &` was started in the background as pid 100 from
the empty table. -/
def jobsSleepBG : List job_t :=
  [⟨100, 1, BG, "sleep 5 &\n"⟩] ++ List.replicate 15 emptySlot

/-- The invariant of the stage loop, before the iteration for index `i`, on a
validated token sequence: a pending skip comes from an operator at `i - 1`; one
sub-child was forked and one pipe created for each `|` before `i`; every
process is in the group of the leader; sub-child `k` writes to pipe `k` and
reads from pipe `k - 1`; the leader reads from the pipe created last. -/
def StageInv (argv : List String) (i : Nat) (st : Leader) : Prop :=
  (st.skip_this_iteration = true →
    0 < i ∧ i - 1 < argv.length ∧ isOperator (argv.getD (i - 1) "") = true) ∧
  (st.subs.length : Int) = st.i_fd + 1 ∧
  st.subs.length = (argv.take i).count "|" ∧
  st.pgid = PGroup.ofLeader ∧
  (∀ p ∈ st.subs, p.pgid = PGroup.ofLeader) ∧
  (∀ (k : Nat) (p : Proc), st.subs[k]? = some p → p.stdout = Fd.pipeWrite (k : Int)) ∧
  (∀ (k : Nat) (p : Proc), st.subs[k + 1]? = some p → p.stdin = Fd.pipeRead (k : Int)) ∧
  (∀ k : Nat, st.subs.length = k + 1 → st.stdin = Fd.pipeRead (k : Int))

/-- Specification, pipeline builder: the `|`-delimited segments of a token
sequence, in order. -/
def specStages : List String → List (List String)
  | [] => [[]]
  | a :: rest =>
    if a = "|" then [] :: specStages rest
    else
      match specStages rest with
      | [] => [[a]]
      | seg :: segs => (a :: seg) :: segs

/-- Specification, pipeline builder: the argument vector of a stage, which is
its segment with every `<` and `>` token and the file-path token following it
removed. -/
def specStageArgs : List String → List String
  | [] => []
  | [a] => if a = "<" ∨ a = ">" then [] else [a]
  | a :: b :: rest =>
    if a = "<" ∨ a = ">" then specStageArgs rest else a :: specStageArgs (b :: rest)

/-- The signals that the `sigprocmask(SIG_BLOCK, ...)` calls of a trace add to
the signal mask. -/
def blockedSignals : List Ev → List Sig
  | [] => []
  | Ev.blockSignals sigs :: evs => sigs ++ blockedSignals evs
  | _ :: evs => blockedSignals evs

/-- The number of `kill` calls in a trace. -/
def killCount : List Ev → Nat
  | [] => 0
  | Ev.kill _ _ :: evs => killCount evs + 1
  | _ :: evs => killCount evs

/-- The trace of a call of `eval` that ended in the shell. -/
def evalTrace : EvalOutcome → List Ev
  | EvalOutcome.exit _ evs => evs
  | EvalOutcome.ret _ evs _ => evs
  | _ => []

/-- A full table: sixteen background jobs with the pids 101..116 and the job
ids 1..16. -/
def jobsFull : List job_t :=
  (List.range 16).map (fun i => ⟨101 + (i : Int), 1 + (i : Int), BG, "sleep 100 &\n"⟩)

/-- The newline character. -/
def newlineChar : Char := Char.ofNat 10

/-- The tab character. -/
def tabChar : Char := Char.ofNat 9

/-- Specification, background marker: the token sequence handed on and the
background flag, which are the sequence without its last token and `true` if
the last token is exactly `&`, and the sequence itself and `false` otherwise. -/
def specBackground (toks : List String) : List String × Bool :=
  match toks.reverse with
  | last :: before => if last = "&" then (before.reverse, true) else (toks, false)
  | [] => (toks, false)

/-- Specification, child-state handler: what one state change `(pid, status)`
does to an entry. The entry of a pid that exited or was terminated by a signal
is removed (its slot is empty afterwards); the entry of a pid that was stopped
has its state set to `ST`; every other entry is unchanged. -/
def specReapEntry (pid : Int) (status : Status) (j : job_t) : job_t :=
  if j.pid = pid then
    match status with
    | Status.exited _ => emptySlot
    | Status.signaled _ => emptySlot
    | Status.stopped _ => { j with state := ST }
    | Status.other => j
  else j

/-- Specification, child-state handler: the table after one state change. -/
def specReapOne (jobs : List job_t) (pid : Int) (status : Status) : List job_t :=
  jobs.map (specReapEntry pid status)

/-- Specification, child-state handler: the table after a sequence of state
changes, processed in order. -/
def specReap (jobs : List job_t) (reaped : List (Int × Status)) : List job_t :=
  reaped.foldl (fun t r => specReapOne t r.1 r.2) jobs

/-- No two entries of the table hold the same positive pid. -/
def PidsDistinct (jobs : List job_t) : Prop :=
  ∀ p : Int, 0 < p → (jobs.filter (fun j => decide (j.pid = p))).length ≤ 1

/-- Specification: the string is the decimal numeral of `n`, that is, it is not
empty, consists of digits, and its value is `n`. -/
def IsDecimal (s : List Char) (n : Nat) : Prop :=
  s ≠ [] ∧ (∀ c ∈ s, c.isDigit = true) ∧
    s.foldl (fun v c => v * 10 + (c.toNat - 48)) 0 = n

instance (s : List Char) (n : Nat) : Decidable (IsDecimal s n) := by
  unfold IsDecimal; infer_instance

/-- The `kill` calls of a trace, in order. -/
def killsOf : List Ev → List (Int × Sig)
  | [] => []
  | Ev.kill pid sig :: evs => (pid, sig) :: killsOf evs
  | _ :: evs => killsOf evs

/-- The tokens `parseline` finds in a buffer from a token boundary on: the loop
of `parseline` after the spaces were skipped, with the iterations the buffer
can need. -/
def tokensFrom (buf : List Char) : List String :=
  parseLoop buf.length (skipSpaces buf)

/-- A word as `parseline` delimits it outside quotes: not empty, without a
space, and not beginning with a single quote. -/
def PlainWord (w : List Char) : Prop :=
  w ≠ [] ∧ ' ' ∉ w ∧ w.head? ≠ some quoteChar

instance (w : List Char) : Decidable (PlainWord w) := by
  unfold PlainWord; infer_instance

/-- The prefix of a buffer ends at a token boundary, outside every quoted span:
it is made of spaces, of words each followed by its delimiting space, and of
quoted spans with both their quotes; the second argument lists the tokens of
the prefix. -/
inductive Aligned : List Char → List String → Prop where
  | start : Aligned [] []
  | space (pre : List Char) (toks : List String) :
      Aligned pre toks → Aligned (pre ++ [' ']) toks
  | word (pre : List Char) (toks : List String) (w : List Char) :
      Aligned pre toks → PlainWord w → Aligned (pre ++ w ++ [' ']) (toks ++ [String.mk w])
  | quoted (pre : List Char) (toks : List String) (q : List Char) :
      Aligned pre toks → quoteChar ∉ q →
      Aligned (pre ++ quoteChar :: q ++ [quoteChar]) (toks ++ [String.mk q])

/-- The table after `/bin/sleep 1 &` was started as pid 10 from the empty table. -/
def raceOne : List job_t :=
  [⟨10, 1, BG, "/bin/sleep 1 &\n"⟩] ++ List.replicate 15 emptySlot

/-- The table `raceOne` after `/bin/sleep 3 &` was started as pid 20. -/
def raceTwo : List job_t :=
  [⟨10, 1, BG, "/bin/sleep 1 &\n"⟩, ⟨20, 2, BG, "/bin/sleep 3 &\n"⟩] ++
    List.replicate 14 emptySlot

/-- The table `raceTwo` after the job with pid 10 was deleted. -/
def raceSecond : List job_t :=
  [emptySlot, ⟨20, 2, BG, "/bin/sleep 3 &\n"⟩] ++ List.replicate 14 emptySlot

/-- The empty table after `job->state = FG` was executed on its slot 1. -/
def raceStale : List job_t :=
  [emptySlot, ⟨0, 0, FG, ""⟩] ++ List.replicate 14 emptySlot

/-- The table `raceStale` after `/bin/sleep 5` was started in the foreground as
pid 30. -/
def raceTwoFG : List job_t :=
  [⟨30, 1, FG, "/bin/sleep 5\n"⟩, ⟨0, 0, FG, ""⟩] ++ List.replicate 14 emptySlot

/-- Every empty slot of the table is as `clearjob` leaves it. -/
def EmptySlotsClear (jobs : List job_t) : Prop :=
  ∀ e ∈ jobs, e.pid = 0 → e = emptySlot

instance (jobs : List job_t) : Decidable (EmptySlotsClear jobs) := by
  unfold EmptySlotsClear; infer_instance

/-- Specification, tokenizer: the maximal runs of non-space characters of a
line body, in order: the pieces between the spaces that are not empty. -/
def specWords (body : List Char) : List (List Char) :=
  (body.splitOn ' ').filter (fun w => decide (w ≠ []))

/-- The program paths of the stages as the stage loop stands before the
iteration for index `i`: the paths the sub-children forked so far were started
with, then the path of the stage in progress (what `argv_ptr[0]` holds, or,
while the skip after a `|` is pending, the first token of the segment that
begins at `i`), then the first tokens of the segments still to come. -/
def stagePaths (argv : List String) (i : Nat) (st : Leader) : List (Option String) :=
  st.subs.map Proc.path ++
    (if st.skip_this_iteration = true ∧ argv.getD (i - 1) "" = "|" then
        ((specStages (argv.drop i)).headD []).head?
      else st.argv.headD none) :: (specStages (argv.drop i)).tail.map List.head?

/-- The invariant of the stage loop for the program paths, before the
iteration for index `i`: only `argv[0]` was written to, and the paths of
`stagePaths` are the first tokens of the `|`-delimited segments. -/
def PathInv (argv : List String) (i : Nat) (st : Leader) : Prop :=
  st.argv.length = argv.length ∧
  (∀ j, 1 ≤ j → st.argv.getD j none = (markArgv argv).getD j none) ∧
  stagePaths argv i st = (specStages argv).map List.head?

/-! ## The job table: lemmas -/

theorem markTaken_spec (jobs : List job_t) :
    ∀ taken : List Bool, taken.length = MAXJOBS + 1 →
    (∀ j ∈ jobs, 0 ≤ j.jid ∧ j.jid ≤ (MAXJOBS : Int)) →
    ∃ taken', markTaken jobs taken = some taken' ∧ taken'.length = MAXJOBS + 1 ∧
      ∀ k : Nat, (taken'.getD k false = true ↔
        taken.getD k false = true ∨ ∃ j ∈ jobs, j.jid ≠ 0 ∧ j.jid = (k : Int)) := by
  induction jobs with
  | nil =>
    intro taken hlen _
    exact ⟨taken, rfl, hlen, fun k => by simp⟩
  | cons j js ih =>
    intro taken hlen hr
    have hj := hr j (List.mem_cons_self _ _)
    have hjs : ∀ x ∈ js, 0 ≤ x.jid ∧ x.jid ≤ (MAXJOBS : Int) :=
      fun x hx => hr x (List.mem_cons_of_mem _ hx)
    by_cases h0 : j.jid = 0
    · obtain ⟨t', h1, h2, h3⟩ := ih taken hlen hjs
      refine ⟨t', by simp [markTaken, h0, h1], h2, fun k => ?_⟩
      rw [h3 k]
      constructor
      · rintro (h | ⟨x, hx, hx0, hxk⟩)
        · exact Or.inl h
        · exact Or.inr ⟨x, List.mem_cons_of_mem _ hx, hx0, hxk⟩
      · rintro (h | ⟨x, hx, hx0, hxk⟩)
        · exact Or.inl h
        · rcases List.mem_cons.1 hx with rfl | hx
          · exact absurd h0 hx0
          · exact Or.inr ⟨x, hx, hx0, hxk⟩
    · obtain ⟨t', h1, h2, h3⟩ := ih (taken.set j.jid.toNat true) (by simp [hlen]) hjs
      refine ⟨t', by simp [markTaken, h0, hj, h1], h2, fun k => ?_⟩
      rw [h3 k]
      have hidx : j.jid.toNat < taken.length := by
        have := hj.2
        simp only [MAXJOBS] at this hlen ⊢
        omega
      have hset : ((taken.set j.jid.toNat true).getD k false = true ↔
          taken.getD k false = true ∨ j.jid = (k : Int)) := by
        simp only [List.getD_eq_getElem?_getD, List.getElem?_set, hidx, if_true]
        by_cases hk : j.jid.toNat = k
        · have : j.jid = (k : Int) := by omega
          simp [hk, this]
        · have : j.jid ≠ (k : Int) := by omega
          simp [hk, this]
      rw [hset]
      constructor
      · rintro ((h | h) | ⟨x, hx, hx0, hxk⟩)
        · exact Or.inl h
        · exact Or.inr ⟨j, List.mem_cons_self _ _, h0, h⟩
        · exact Or.inr ⟨x, List.mem_cons_of_mem _ hx, hx0, hxk⟩
      · rintro (h | ⟨x, hx, hx0, hxk⟩)
        · exact Or.inl (Or.inl h)
        · rcases List.mem_cons.1 hx with rfl | hx
          · exact Or.inl (Or.inr hxk)
          · exact Or.inr ⟨x, hx, hx0, hxk⟩

theorem firstFree_spec (taken : List Bool) :
    ∀ n i : Nat,
    (firstFree taken n i = 0 ∧ ∀ k, i ≤ k → k < i + n → taken.getD k false = true) ∨
    (∃ k, i ≤ k ∧ k < i + n ∧ firstFree taken n i = (k : Int) ∧ taken.getD k false = false ∧
      ∀ k', i ≤ k' → k' < k → taken.getD k' false = true) := by
  intro n
  induction n with
  | zero =>
    intro i
    exact Or.inl ⟨rfl, fun k h1 h2 => by omega⟩
  | succ n ih =>
    intro i
    by_cases h : taken.getD i false = false
    · exact Or.inr ⟨i, le_refl _, by omega, by unfold firstFree; rw [if_pos h], h,
        fun k' h1 h2 => by omega⟩
    · have ht : taken.getD i false = true := by simpa using h
      rcases ih (i + 1) with ⟨h1, h2⟩ | ⟨k, h1, h2, h3, h4, h5⟩
      · refine Or.inl ⟨by unfold firstFree; rw [if_neg h]; exact h1, fun k hk1 hk2 => ?_⟩
        rcases Nat.eq_or_lt_of_le hk1 with rfl | hlt
        · exact ht
        · exact h2 k hlt (by omega)
      · refine Or.inr ⟨k, by omega, by omega, by unfold firstFree; rw [if_neg h]; exact h3, h4,
          fun k' hk1 hk2 => ?_⟩
        rcases Nat.eq_or_lt_of_le hk1 with rfl | hlt
        · exact ht
        · exact h5 k' hlt hk2

theorem wellFormed_jid_range {jobs : List job_t} (hwf : WellFormed jobs) :
    ∀ j ∈ jobs, 0 ≤ j.jid ∧ j.jid ≤ (MAXJOBS : Int) := by
  intro j hj
  by_cases hp : j.pid = 0
  · have := hwf.2.2.1 j hj hp
    simp [this, MAXJOBS]
  · have := hwf.2.1 j hj hp
    omega

theorem wellFormed_inUse {jobs : List job_t} (hwf : WellFormed jobs) (k : Int) (hk : 0 < k) :
    (∃ j ∈ jobs, j.jid ≠ 0 ∧ j.jid = k) ↔ ∃ j ∈ jobs, j.pid ≠ 0 ∧ j.jid = k := by
  constructor
  · rintro ⟨j, hj, h0, h1⟩
    refine ⟨j, hj, fun hp => h0 (hwf.2.2.1 j hj hp), h1⟩
  · rintro ⟨j, hj, _, h1⟩
    exact ⟨j, hj, by omega, h1⟩

/-- Pigeonhole, one way: when every id of `1..MAXJOBS` is in use, no slot is free. -/
theorem full_of_all_used {jobs : List job_t} (hwf : WellFormed jobs)
    (hall : ∀ k : Int, 1 ≤ k → k ≤ (MAXJOBS : Int) → ∃ j ∈ jobs, j.pid ≠ 0 ∧ j.jid = k) :
    ¬ HasFreeSlot jobs := by
  rintro ⟨e, he, hep⟩
  have hsub : Finset.Icc (1 : Int) (MAXJOBS : Int) ⊆
      ((jobs.filter (fun j => decide (j.pid ≠ 0))).map (fun j => j.jid)).toFinset := by
    intro k hk
    rw [Finset.mem_Icc] at hk
    obtain ⟨j, hj, hp, hjk⟩ := hall k hk.1 hk.2
    rw [List.mem_toFinset, List.mem_map]
    exact ⟨j, List.mem_filter.2 ⟨hj, by simpa using hp⟩, hjk⟩
  have h1 := Finset.card_le_card hsub
  have h2 := List.toFinset_card_le
    ((jobs.filter (fun j => decide (j.pid ≠ 0))).map (fun j => j.jid))
  have h3 : (jobs.filter (fun j => decide (j.pid ≠ 0))).length < jobs.length :=
    List.length_filter_lt_length_iff_exists.2 ⟨e, he, by simpa using hep⟩
  have h5 : ((MAXJOBS : Int) + 1 - 1).toNat = 16 := by simp [MAXJOBS]
  rw [Int.card_Icc, h5] at h1
  rw [List.length_map] at h2
  have h4 := hwf.1
  simp only [MAXJOBS] at h4
  omega

/-- Pigeonhole, the other way: in a full table every id of `1..MAXJOBS` is in use. -/
theorem all_used_of_full {jobs : List job_t} (hwf : WellFormed jobs)
    (hfull : ¬ HasFreeSlot jobs) :
    ∀ k : Int, 1 ≤ k → k ≤ (MAXJOBS : Int) → ∃ j ∈ jobs, j.pid ≠ 0 ∧ j.jid = k := by
  have hocc : ∀ j ∈ jobs, j.pid ≠ 0 := fun j hj hp => hfull ⟨j, hj, hp⟩
  have hnodup : (jobs.map (fun j => j.jid)).Nodup := by
    rw [List.Nodup, List.pairwise_map]
    exact hwf.2.2.2.imp_of_mem (fun {a b} ha hb h => h (hocc a ha) (hocc b hb))
  have hsub : (jobs.map (fun j => j.jid)).toFinset ⊆ Finset.Icc (1 : Int) (MAXJOBS : Int) := by
    intro k hk
    rw [List.mem_toFinset, List.mem_map] at hk
    obtain ⟨j, hj, rfl⟩ := hk
    rw [Finset.mem_Icc]
    exact hwf.2.1 j hj (hocc j hj)
  have hcard : (Finset.Icc (1 : Int) (MAXJOBS : Int)).card ≤
      (jobs.map (fun j => j.jid)).toFinset.card := by
    rw [List.toFinset_card_of_nodup hnodup, List.length_map, hwf.1, Int.card_Icc]
    simp [MAXJOBS]
  have heq := Finset.eq_of_subset_of_card_le hsub hcard
  intro k hk1 hk2
  have hk : k ∈ (jobs.map (fun j => j.jid)).toFinset := by
    rw [heq, Finset.mem_Icc]
    exact ⟨hk1, hk2⟩
  rw [List.mem_toFinset, List.mem_map] at hk
  obtain ⟨j, hj, hjk⟩ := hk
  exact ⟨j, hj, hocc j hj, hjk⟩

/-- On a well-formed table `freejid` returns 0 when the table is full, and
otherwise the smallest positive integer that no active job has as its id. -/
theorem freejid_spec {jobs : List job_t} (hwf : WellFormed jobs) :
    (¬ HasFreeSlot jobs ∧ freejid jobs = some 0) ∨
    (HasFreeSlot jobs ∧ ∃ jid : Int, freejid jobs = some jid ∧ 1 ≤ jid ∧
      jid ≤ (MAXJOBS : Int) ∧ SmallestUnused jobs jid) := by
  obtain ⟨t, ht, _, hspec⟩ := markTaken_spec jobs (List.replicate (MAXJOBS + 1) false)
    (by simp) (wellFormed_jid_range hwf)
  have hrep : ∀ k : Nat, (List.replicate (MAXJOBS + 1) false).getD k false = false := by
    intro k
    rw [List.getD_eq_getElem?_getD, List.getElem?_replicate]
    split <;> rfl
  have hused : ∀ k : Nat, 0 < k →
      (t.getD k false = true ↔ ∃ j ∈ jobs, j.pid ≠ 0 ∧ j.jid = (k : Int)) := by
    intro k hk
    rw [hspec k, hrep k, ← wellFormed_inUse hwf (k : Int) (by exact_mod_cast hk)]
    simp
  have hfree : freejid jobs = some (firstFree t MAXJOBS 1) := by
    simp [freejid, ht]
  rcases firstFree_spec t MAXJOBS 1 with ⟨h0, hall⟩ | ⟨k, hk1, hk2, hk3, hk4, hk5⟩
  · left
    refine ⟨full_of_all_used hwf (fun k hk1 hk2 => ?_), by rw [hfree, h0]⟩
    obtain ⟨n, rfl⟩ := Int.eq_ofNat_of_zero_le (by omega : 0 ≤ k)
    have hn1 : 1 ≤ n := by exact_mod_cast hk1
    have hn2 : n ≤ MAXJOBS := by exact_mod_cast hk2
    exact (hused n hn1).1 (hall n hn1 (by omega))
  · right
    have hnot : ¬ ∃ j ∈ jobs, j.pid ≠ 0 ∧ j.jid = (k : Int) := by
      rw [← hused k hk1, hk4]
      simp
    have hsm : SmallestUnused jobs (k : Int) := by
      refine ⟨by exact_mod_cast hk1, fun j hj hp hjk => hnot ⟨j, hj, hp, hjk⟩, fun n hn1 hn2 => ?_⟩
      obtain ⟨m, rfl⟩ := Int.eq_ofNat_of_zero_le (by omega : 0 ≤ n)
      have hm1 : 1 ≤ m := by exact_mod_cast hn1
      have hm2 : m < k := by exact_mod_cast hn2
      exact (hused m hm1).1 (hk5 m hm1 hm2)
    refine ⟨?_, (k : Int), by rw [hfree, hk3], by exact_mod_cast hk1, ?_, hsm⟩
    · by_contra hfull
      exact hnot (all_used_of_full hwf hfull (k : Int) (by exact_mod_cast hk1)
        (by have : k ≤ MAXJOBS := by omega
            exact_mod_cast this))
    · have : k ≤ MAXJOBS := by omega
      exact_mod_cast this

theorem addjobLoop_spec (pid state free : Int) (cmdline : String) (jobs : List job_t) :
    (addjobLoop pid state free cmdline jobs = none ∧ ∀ j ∈ jobs, j.pid ≠ 0) ∨
    ∃ l1 e l2, jobs = l1 ++ e :: l2 ∧ (∀ j ∈ l1, j.pid ≠ 0) ∧ e.pid = 0 ∧
      addjobLoop pid state free cmdline jobs =
        some (l1 ++ { pid := pid, jid := free, state := state, cmdline := cmdline } :: l2) := by
  induction jobs with
  | nil => exact Or.inl ⟨rfl, fun j hj => by simp at hj⟩
  | cons j js ih =>
    by_cases hp : j.pid = 0
    · exact Or.inr ⟨[], j, js, rfl, fun x hx => by simp at hx, hp, by simp [addjobLoop, hp]⟩
    · rcases ih with ⟨h1, h2⟩ | ⟨l1, e, l2, h1, h2, h3, h4⟩
      · refine Or.inl ⟨by simp [addjobLoop, hp, h1], fun x hx => ?_⟩
        rcases List.mem_cons.1 hx with rfl | hx
        · exact hp
        · exact h2 x hx
      · refine Or.inr ⟨j :: l1, e, l2, by simp [h1], fun x hx => ?_, h3, by simp [addjobLoop, hp, h4]⟩
        rcases List.mem_cons.1 hx with rfl | hx
        · exact hp
        · exact h2 x hx

theorem deletejobLoop_spec (pid : Int) (jobs : List job_t) :
    (deletejobLoop pid jobs = (0, jobs) ∧ ∀ j ∈ jobs, j.pid ≠ pid) ∨
    ∃ l1 e l2, jobs = l1 ++ e :: l2 ∧ (∀ j ∈ l1, j.pid ≠ pid) ∧ e.pid = pid ∧
      deletejobLoop pid jobs = (1, l1 ++ clearjob e :: l2) := by
  induction jobs with
  | nil => exact Or.inl ⟨rfl, fun j hj => by simp at hj⟩
  | cons j js ih =>
    by_cases hp : j.pid = pid
    · exact Or.inr ⟨[], j, js, rfl, fun x hx => by simp at hx, hp, by simp [deletejobLoop, hp]⟩
    · rcases ih with ⟨h1, h2⟩ | ⟨l1, e, l2, h1, h2, h3, h4⟩
      · refine Or.inl ⟨by simp [deletejobLoop, hp, h1], fun x hx => ?_⟩
        rcases List.mem_cons.1 hx with rfl | hx
        · exact hp
        · exact h2 x hx
      · refine Or.inr ⟨j :: l1, e, l2, by simp [h1], fun x hx => ?_, h3,
          by simp [deletejobLoop, hp, h4]⟩
        rcases List.mem_cons.1 hx with rfl | hx
        · exact hp
        · exact h2 x hx

/-- What `addjob` does on a well-formed table. -/
theorem addjob_wf {jobs : List job_t} (hwf : WellFormed jobs) (pid state : Int)
    (cmdline : String) :
    ((pid < 1 ∨ ¬ HasFreeSlot jobs) →
      ∃ out, addjob jobs pid state cmdline = some (0, jobs, out)) ∧
    (1 ≤ pid → HasFreeSlot jobs →
      ∃ (jid : Int) (l1 : List job_t) (e : job_t) (l2 : List job_t),
        jobs = l1 ++ e :: l2 ∧ (∀ j ∈ l1, j.pid ≠ 0) ∧ e.pid = 0 ∧
        SmallestUnused jobs jid ∧ jid ≤ (MAXJOBS : Int) ∧ freejid jobs = some jid ∧
        addjob jobs pid state cmdline =
          if cmdline.length < MAXLINE then
            some (1, l1 ++ { pid := pid, jid := jid, state := state, cmdline := cmdline } :: l2, [])
          else none) := by
  constructor
  · intro h
    by_cases hp : pid < 1
    · exact ⟨[], by simp [addjob, hp]⟩
    · have hfull : ¬ HasFreeSlot jobs := h.resolve_left hp
      rcases freejid_spec hwf with ⟨_, h0⟩ | ⟨hf, _⟩
      · exact ⟨[Out.tooManyJobs], by simp [addjob, hp, h0]⟩
      · exact absurd hf hfull
  · intro hp hf
    rcases freejid_spec hwf with ⟨hfull, _⟩ | ⟨_, jid, h1, h2, h3, h4⟩
    · exact absurd hf hfull
    · rcases addjobLoop_spec pid state jid cmdline jobs with ⟨_, hocc⟩ | ⟨l1, e, l2, e1, e2, e3, e4⟩
      · obtain ⟨x, hx, hx0⟩ := hf
        exact absurd hx0 (hocc x hx)
      · refine ⟨jid, l1, e, l2, e1, e2, e3, h4, h3, h1, ?_⟩
        have hp' : ¬ pid < 1 := by omega
        have hj0 : jid ≠ 0 := by omega
        simp only [addjob, hp', if_false, h1, hj0, e4]

/-- Replacing a slot by an occupied entry with a fresh job id keeps the table
well formed. -/
theorem wellFormed_insert {l1 l2 : List job_t} {e new : job_t}
    (hwf : WellFormed (l1 ++ e :: l2)) (hpid : new.pid ≠ 0)
    (hjid : 1 ≤ new.jid ∧ new.jid ≤ (MAXJOBS : Int))
    (hfresh : ∀ j ∈ l1 ++ e :: l2, j.pid ≠ 0 → j.jid ≠ new.jid) :
    WellFormed (l1 ++ new :: l2) := by
  obtain ⟨h1, h2, h3, h4⟩ := hwf
  have hmem : ∀ j, j ∈ l1 ++ new :: l2 → j = new ∨ j ∈ l1 ++ e :: l2 := by
    intro j hj
    simp only [List.mem_append, List.mem_cons] at hj ⊢
    tauto
  refine ⟨by simpa using h1, fun j hj hp => ?_, fun j hj hp => ?_, ?_⟩
  · rcases hmem j hj with rfl | hj'
    · exact hjid
    · exact h2 j hj' hp
  · rcases hmem j hj with rfl | hj'
    · exact absurd hp hpid
    · exact h3 j hj' hp
  · rw [List.pairwise_append, List.pairwise_cons] at h4 ⊢
    obtain ⟨p1, ⟨_, p3⟩, p4⟩ := h4
    refine ⟨p1, ⟨fun b hb _ hbp => ?_, p3⟩, fun a ha b hb => ?_⟩
    · exact fun h => hfresh b (by simp [hb]) hbp h.symm
    · rcases List.mem_cons.1 hb with rfl | hb'
      · exact fun hap _ => hfresh a (by simp [ha]) hap
      · exact p4 a ha b (List.mem_cons_of_mem _ hb')

/-- Clearing a slot keeps the table well formed. -/
theorem wellFormed_clear {l1 l2 : List job_t} {e : job_t}
    (hwf : WellFormed (l1 ++ e :: l2)) : WellFormed (l1 ++ clearjob e :: l2) := by
  obtain ⟨h1, h2, h3, h4⟩ := hwf
  have hmem : ∀ j, j ∈ l1 ++ clearjob e :: l2 → j = clearjob e ∨ j ∈ l1 ++ e :: l2 := by
    intro j hj
    simp only [List.mem_append, List.mem_cons] at hj ⊢
    tauto
  refine ⟨by simpa using h1, fun j hj hp => ?_, fun j hj hp => ?_, ?_⟩
  · rcases hmem j hj with rfl | hj'
    · exact absurd rfl hp
    · exact h2 j hj' hp
  · rcases hmem j hj with rfl | hj'
    · rfl
    · exact h3 j hj' hp
  · rw [List.pairwise_append, List.pairwise_cons] at h4 ⊢
    obtain ⟨p1, ⟨_, p3⟩, p4⟩ := h4
    refine ⟨p1, ⟨fun b _ hp _ => absurd rfl hp, p3⟩, fun a ha b hb => ?_⟩
    rcases List.mem_cons.1 hb with rfl | hb'
    · exact fun _ hp => absurd rfl hp
    · exact p4 a ha b (List.mem_cons_of_mem _ hb')

theorem wellFormed_initjobs : WellFormed initjobs := by decide

/-- Function `addjob` keeps a table well formed. -/
theorem wellFormed_addjob {jobs : List job_t} (hwf : WellFormed jobs) (pid state : Int)
    (cmdline : String) (r : Int × List job_t × List Out)
    (h : addjob jobs pid state cmdline = some r) : WellFormed r.2.1 := by
  by_cases hc : pid < 1 ∨ ¬ HasFreeSlot jobs
  · obtain ⟨out, ho⟩ := (addjob_wf hwf pid state cmdline).1 hc
    rw [ho] at h
    cases h
    exact hwf
  · have hp : 1 ≤ pid := by
      have := not_or.1 hc
      omega
    have hf : HasFreeSlot jobs := not_not.1 (not_or.1 hc).2
    obtain ⟨jid, l1, e, l2, e1, _, _, hsm, hle, _, ha⟩ :=
      (addjob_wf hwf pid state cmdline).2 hp hf
    rw [ha] at h
    split at h
    · cases h
      subst e1
      exact wellFormed_insert hwf (by show pid ≠ 0; omega) ⟨by have := hsm.1; show 1 ≤ jid; omega, hle⟩
        (fun j hj hjp => hsm.2.1 j hj hjp)
    · cases h

/-- Function `deletejob` keeps a table well formed. -/
theorem wellFormed_deletejob {jobs : List job_t} (hwf : WellFormed jobs) (pid : Int) :
    WellFormed (deletejob jobs pid).2 := by
  unfold deletejob
  split
  · exact hwf
  · rcases deletejobLoop_spec pid jobs with ⟨h1, _⟩ | ⟨l1, e, l2, e1, _, _, e4⟩
    · rw [h1]; exact hwf
    · rw [e4]
      subst e1
      exact wellFormed_clear hwf

theorem wellFormed_of_reachable {jobs : List job_t} (h : TableReachable jobs) :
    WellFormed jobs := by
  induction h with
  | init => exact wellFormed_initjobs
  | add jobs pid state cmdline r _ hadd ih => exact wellFormed_addjob ih pid state cmdline r hadd
  | delete jobs pid _ ih => exact wellFormed_deletejob ih pid

/-! ## The job table: claims -/

/-- C3: on a well-formed job table that is not full, for a pid of at least 1
(and a command line that fits `cmdline[MAXLINE]`), `addjob` returns 1 and
stores the new entry in an empty slot with the job id `freejid` returns, which
is the smallest positive integer that is not the job id of an active job. In
particular, when jobs 1, 2, 3 exist (pids 10, 20, 30 added to the empty table)
and job 2 is removed, the next job added receives the id 2. -/
theorem addjob_assigns_smallest_unused (jobs : List job_t) (pid state : Int) (cmdline : String)
    (hwf : WellFormed jobs) (hfree : HasFreeSlot jobs) (hpid : 1 ≤ pid)
    (hlen : cmdline.length < MAXLINE) :
    (∃ (jid : Int) (l1 : List job_t) (e : job_t) (l2 : List job_t),
      jobs = l1 ++ e :: l2 ∧ e.pid = 0 ∧ freejid jobs = some jid ∧ SmallestUnused jobs jid ∧
      addjob jobs pid state cmdline =
        some (1, l1 ++ { pid := pid, jid := jid, state := state, cmdline := cmdline } :: l2, [])) ∧
    ((addjob initjobs 10 BG "a &\n").bind (fun r1 =>
        (addjob r1.2.1 20 BG "b &\n").bind (fun r2 =>
          addjob r2.2.1 30 BG "c &\n")) = some (1, jobsOneTwoThree, []) ∧
      deletejob jobsOneTwoThree 20 =
        (1, [⟨10, 1, BG, "a &\n"⟩, emptySlot, ⟨30, 3, BG, "c &\n"⟩] ++
          List.replicate 13 emptySlot) ∧
      addjob (deletejob jobsOneTwoThree 20).2 40 FG "d\n" =
        some (1, [⟨10, 1, BG, "a &\n"⟩, ⟨40, 2, FG, "d\n"⟩, ⟨30, 3, BG, "c &\n"⟩] ++
          List.replicate 13 emptySlot, [])) := by
  refine ⟨?_, by decide, by decide, by decide⟩
  obtain ⟨jid, l1, e, l2, e1, _, e3, hsm, _, hfj, ha⟩ :=
    (addjob_wf hwf pid state cmdline).2 hpid hfree
  exact ⟨jid, l1, e, l2, e1, e3, hfj, hsm, by rw [ha, if_pos hlen]⟩

/-- C3, at the empty table: the job added first receives the id 1. -/
theorem addjob_assigns_smallest_unused_witness :
    (∃ (jid : Int) (l1 : List job_t) (e : job_t) (l2 : List job_t),
      initjobs = l1 ++ e :: l2 ∧ e.pid = 0 ∧ freejid initjobs = some jid ∧
      SmallestUnused initjobs jid ∧
      addjob initjobs 10 BG "a &\n" =
        some (1, l1 ++ { pid := 10, jid := jid, state := BG, cmdline := "a &\n" } :: l2, [])) :=
  (addjob_assigns_smallest_unused initjobs 10 BG "a &\n" (by decide) (by decide) (by decide)
    (by decide)).1

/-- C4: in every job table reached from `initjobs` by calls of `addjob` and
`deletejob`, the job ids of the active entries (`pid != 0`) are pairwise
distinct and lie in `1..MAXJOBS`, and a slot has job id 0 exactly when it has
pid 0. -/
theorem reachable_jids_distinct_in_range (jobs : List job_t) (h : TableReachable jobs) :
    jobs.Pairwise (fun a b => a.pid ≠ 0 → b.pid ≠ 0 → a.jid ≠ b.jid) ∧
    (∀ j ∈ jobs, j.pid ≠ 0 → 1 ≤ j.jid ∧ j.jid ≤ (MAXJOBS : Int)) ∧
    (∀ j ∈ jobs, j.jid = 0 ↔ j.pid = 0) := by
  obtain ⟨_, h2, h3, h4⟩ := wellFormed_of_reachable h
  refine ⟨h4, h2, fun j hj => ⟨fun h0 => ?_, h3 j hj⟩⟩
  by_contra hp
  have := h2 j hj hp
  omega

/-- C4, at the table reached by adding the pids 10, 20, 30 and deleting 20. -/
theorem reachable_jids_distinct_in_range_witness :
    (deletejob jobsOneTwoThree 20).2.Pairwise
      (fun a b => a.pid ≠ 0 → b.pid ≠ 0 → a.jid ≠ b.jid) ∧
    (∀ j ∈ (deletejob jobsOneTwoThree 20).2, j.pid ≠ 0 → 1 ≤ j.jid ∧ j.jid ≤ (MAXJOBS : Int)) ∧
    (∀ j ∈ (deletejob jobsOneTwoThree 20).2, j.jid = 0 ↔ j.pid = 0) :=
  reachable_jids_distinct_in_range (deletejob jobsOneTwoThree 20).2
    (TableReachable.delete jobsOneTwoThree 20
      (TableReachable.add jobsOneTwo 30 BG "c &\n" (1, jobsOneTwoThree, [])
        (TableReachable.add jobsOne 20 BG "b &\n" (1, jobsOneTwo, [])
          (TableReachable.add initjobs 10 BG "a &\n" (1, jobsOne, []) TableReachable.init
            (by decide))
          (by decide))
        (by decide)))

/-- C5: on a well-formed job table, `addjob(pid, state, cmdline)` returns 0 and
leaves the table unchanged if `pid < 1` or all `MAXJOBS` slots are occupied;
otherwise (for a command line that fits `cmdline[MAXLINE]`) it returns 1 and
the table afterwards is the table before with one empty slot replaced by
(pid, smallest unused job id, state, cmdline), every other slot unchanged. -/
theorem addjob_returns (jobs : List job_t) (pid state : Int) (cmdline : String)
    (hwf : WellFormed jobs) :
    ((pid < 1 ∨ ∀ j ∈ jobs, j.pid ≠ 0) →
      ∃ out, addjob jobs pid state cmdline = some (0, jobs, out)) ∧
    (¬ (pid < 1 ∨ ∀ j ∈ jobs, j.pid ≠ 0) → cmdline.length < MAXLINE →
      ∃ (jid : Int) (l1 : List job_t) (e : job_t) (l2 : List job_t),
        jobs = l1 ++ e :: l2 ∧ e.pid = 0 ∧ SmallestUnused jobs jid ∧
        addjob jobs pid state cmdline =
          some (1, l1 ++ { pid := pid, jid := jid, state := state, cmdline := cmdline } :: l2,
            [])) := by
  constructor
  · intro h
    refine (addjob_wf hwf pid state cmdline).1 (h.imp id (fun hocc => ?_))
    rintro ⟨j, hj, hp⟩
    exact hocc j hj hp
  · intro h hlen
    have hp : 1 ≤ pid := by
      have := (not_or.1 h).1
      omega
    have hf : HasFreeSlot jobs := by
      have := (not_or.1 h).2
      push_neg at this
      exact this
    obtain ⟨jid, l1, e, l2, e1, _, e3, hsm, _, _, ha⟩ := (addjob_wf hwf pid state cmdline).2 hp hf
    exact ⟨jid, l1, e, l2, e1, e3, hsm, by rw [ha, if_pos hlen]⟩

/-- C5, at the table holding jobs 1, 2, 3: pid 0 is refused, pid 40 is stored. -/
theorem addjob_returns_witness :
    (∃ out, addjob jobsOneTwoThree 0 FG "d\n" = some (0, jobsOneTwoThree, out)) ∧
    (∃ (jid : Int) (l1 : List job_t) (e : job_t) (l2 : List job_t),
        jobsOneTwoThree = l1 ++ e :: l2 ∧ e.pid = 0 ∧ SmallestUnused jobsOneTwoThree jid ∧
        addjob jobsOneTwoThree 40 FG "d\n" =
          some (1, l1 ++ { pid := 40, jid := jid, state := FG, cmdline := "d\n" } :: l2, [])) :=
  ⟨(addjob_returns jobsOneTwoThree 0 FG "d\n" (by decide)).1 (Or.inl (by decide)),
   (addjob_returns jobsOneTwoThree 40 FG "d\n" (by decide)).2 (by decide) (by decide)⟩

/-- C6: for every job table and every group id that no entry of the table
holds, `deletejob` returns 0 and leaves every slot unchanged; so does a second
`deletejob` of a group id that at most one entry held before the first. -/
theorem deletejob_absent_noop (jobs : List job_t) (pid : Int) :
    ((∀ j ∈ jobs, j.pid ≠ pid) → deletejob jobs pid = (0, jobs)) ∧
    ((jobs.filter (fun j => decide (j.pid = pid))).length ≤ 1 →
      deletejob (deletejob jobs pid).2 pid = (0, (deletejob jobs pid).2)) := by
  have habs : ∀ l : List job_t, (∀ j ∈ l, j.pid ≠ pid) → deletejob l pid = (0, l) := by
    intro l h
    unfold deletejob
    split
    · rfl
    · rcases deletejobLoop_spec pid l with ⟨h1, _⟩ | ⟨l1, e, l2, e1, _, e3, _⟩
      · exact h1
      · exact absurd e3 (h e (by simp [e1]))
  refine ⟨habs jobs, fun hcount => ?_⟩
  by_cases hp : pid < 1
  · simp [deletejob, hp]
  · apply habs
    have hd : deletejob jobs pid = deletejobLoop pid jobs := by simp [deletejob, hp]
    rw [hd]
    rcases deletejobLoop_spec pid jobs with ⟨h1, h2⟩ | ⟨l1, e, l2, e1, e2, e3, e4⟩
    · rw [h1]; exact h2
    · rw [e4]
      intro j hj
      have hl2 : ∀ x ∈ l2, x.pid ≠ pid := by
        intro x hx hxp
        have hlen : (List.filter (fun j => decide (j.pid = pid)) l2).length = 0 := by
          rw [e1, List.filter_append, List.filter_cons] at hcount
          simp only [e3, decide_True, if_true, List.length_append, List.length_cons] at hcount
          omega
        have hmem : x ∈ List.filter (fun j => decide (j.pid = pid)) l2 :=
          List.mem_filter.2 ⟨hx, by simpa using hxp⟩
        rw [List.length_eq_zero] at hlen
        rw [hlen] at hmem
        simp at hmem
      simp only [List.mem_append, List.mem_cons] at hj
      rcases hj with hj | rfl | hj
      · exact e2 j hj
      · show (0 : Int) ≠ pid
        omega
      · exact hl2 j hj

/-- C6, at the table holding jobs 1, 2, 3: pid 99 is absent, and pid 20 is
absent after it was removed. -/
theorem deletejob_absent_noop_witness :
    deletejob jobsOneTwoThree 99 = (0, jobsOneTwoThree) ∧
    deletejob (deletejob jobsOneTwoThree 20).2 20 = (0, (deletejob jobsOneTwoThree 20).2) :=
  ⟨(deletejob_absent_noop jobsOneTwoThree 99).1 (by decide),
   (deletejob_absent_noop jobsOneTwoThree 20).2 (by decide)⟩

/-! ## Validation -/

/-- No operator of the list lacks its operand, with a flag-free recursion. -/
theorem lacksOperand_cons (a : String) (rest : List String) :
    OperatorLacksOperand (a :: rest) ↔
      (isOperator a = true ∧ (rest = [] ∨ isOperator (rest.getD 0 "") = true)) ∨
      OperatorLacksOperand rest := by
  constructor
  · rintro ⟨i, hi, hop, hnext⟩
    cases i with
    | zero =>
      left
      refine ⟨by simpa using hop, ?_⟩
      rcases hnext with h | h
      · left
        simp only [List.length_cons] at h
        exact List.length_eq_zero.1 (by omega)
      · right
        simpa using h
    | succ i =>
      right
      refine ⟨i, by simpa using hi, by simpa using hop, ?_⟩
      rcases hnext with h | h
      · left
        simp only [List.length_cons] at h
        omega
      · right
        simpa using h
  · rintro (⟨hop, hnext⟩ | ⟨i, hi, hop, hnext⟩)
    · refine ⟨0, by simp, by simpa using hop, ?_⟩
      rcases hnext with h | h
      · left
        simp [h]
      · right
        simpa using h
    · refine ⟨i + 1, by simpa using hi, by simpa using hop, ?_⟩
      rcases hnext with h | h
      · left
        simp only [List.length_cons]
        omega
      · right
        simpa using h

theorem occursAfter_cons (y x : String) (flag : Bool) (a : String) (rest : List String) :
    OccursAfter y x flag (a :: rest) ↔
      (a = x ∧ flag = true) ∨ OccursAfter y x (flag || decide (a = y)) rest := by
  constructor
  · rintro ⟨j, hj, hx, hflag⟩
    cases j with
    | zero =>
      left
      refine ⟨by simpa using hx, ?_⟩
      rcases hflag with h | ⟨i, hi, _⟩
      · exact h
      · omega
    | succ j =>
      right
      refine ⟨j, by simpa using hj, by simpa using hx, ?_⟩
      rcases hflag with h | ⟨i, hi, hy⟩
      · left
        simp [h]
      · cases i with
        | zero =>
          left
          have : a = y := by simpa using hy
          simp [this]
        | succ i =>
          right
          exact ⟨i, by omega, by simpa using hy⟩
  · rintro (⟨hx, hflag⟩ | ⟨j, hj, hx, hflag⟩)
    · exact ⟨0, by simp, by simpa using hx, Or.inl hflag⟩
    · refine ⟨j + 1, by simpa using hj, by simpa using hx, ?_⟩
      rcases hflag with h | ⟨i, hi, hy⟩
      · rcases Bool.or_eq_true _ _ ▸ h with h | h
        · exact Or.inl h
        · exact Or.inr ⟨0, by omega, by simpa using h⟩
      · exact Or.inr ⟨i + 1, by omega, by simpa using hy⟩

theorem validateLoop_none_iff (argv0 : String) (l : List String) :
    ∀ pe oe : Bool, validateLoop argv0 l pe oe = none ↔
      ((l = [] ∨ isOperator argv0 = false) ∧ ¬ OperatorLacksOperand l ∧
        ¬ OccursAfter "|" "<" pe l ∧ ¬ OccursAfter ">" "|" oe l) := by
  induction l with
  | nil =>
    intro pe oe
    simp [validateLoop, OperatorLacksOperand, OccursAfter]
  | cons a rest ih =>
    intro pe oe
    have hmatch : nextIsNullOrOperator rest = true ↔
        (rest = [] ∨ isOperator (rest.getD 0 "") = true) := by
      cases rest <;> simp [nextIsNullOrOperator]
    rw [lacksOperand_cons, occursAfter_cons, occursAfter_cons]
    unfold validateLoop
    simp only []
    by_cases h0 : isOperator argv0 = true
    · simp [h0]
    · rw [if_neg h0]
      have h0' : isOperator argv0 = false := by simpa using h0
      by_cases h1 : (isOperator a && nextIsNullOrOperator rest) = true
      · rw [if_pos h1]
        rw [Bool.and_eq_true, hmatch] at h1
        constructor
        · intro h
          cases h
        · rintro ⟨_, g1, _, _⟩
          exact absurd (Or.inl h1) g1
      · rw [if_neg h1]
        rw [Bool.and_eq_true, hmatch] at h1
        by_cases h2 : ((pe || decide (a = "|")) && decide (a = "<")) = true
        · rw [if_pos h2]
          rw [Bool.and_eq_true] at h2
          have ha : a = "<" := of_decide_eq_true h2.2
          have hpe : pe = true := by
            have := h2.1
            subst ha
            simpa using this
          constructor
          · intro h
            cases h
          · rintro ⟨_, _, g2, _⟩
            exact absurd (Or.inl ⟨ha, hpe⟩) g2
        · rw [if_neg h2]
          by_cases h3 : ((oe || decide (a = ">")) && decide (a = "|")) = true
          · rw [if_pos h3]
            rw [Bool.and_eq_true] at h3
            have ha : a = "|" := of_decide_eq_true h3.2
            have hoe : oe = true := by
              have := h3.1
              subst ha
              simpa using this
            constructor
            · intro h
              cases h
            · rintro ⟨_, _, _, g3⟩
              exact absurd (Or.inl ⟨ha, hoe⟩) g3
          · rw [if_neg h3, ih]
            have e2 : ¬ (a = "<" ∧ pe = true) := by
              rintro ⟨ha, hpe⟩
              exact h2 (by simp [ha, hpe])
            have e3 : ¬ (a = "|" ∧ oe = true) := by
              rintro ⟨ha, hoe⟩
              exact h3 (by simp [ha, hoe])
            constructor
            · rintro ⟨_, g1, g2, g3⟩
              exact ⟨Or.inr h0', fun h => h.elim h1 g1, fun h => h.elim e2 g2,
                fun h => h.elim e3 g3⟩
            · rintro ⟨_, g1, g2, g3⟩
              exact ⟨Or.inr h0', fun h => g1 (Or.inr h), fun h => g2 (Or.inr h),
                fun h => g3 (Or.inr h)⟩

theorem validateLoop_message (argv0 : String) (l : List String) :
    ∀ (pe oe : Bool) (msg : Out), validateLoop argv0 l pe oe = some msg →
      msg = Out.invalidCommandline ∨ msg = Out.invalidInAfterPipe ∨
        msg = Out.invalidPipeAfterOut := by
  induction l with
  | nil =>
    intro pe oe msg h
    simp [validateLoop] at h
  | cons a rest ih =>
    intro pe oe msg h
    unfold validateLoop at h
    simp only [] at h
    split at h
    · exact Or.inl (Option.some.inj h).symm
    · split at h
      · exact Or.inl (Option.some.inj h).symm
      · split at h
        · exact Or.inr (Or.inl (Option.some.inj h).symm)
        · split at h
          · exact Or.inr (Or.inr (Option.some.inj h).symm)
          · exact ih _ _ msg h

theorem validate_none_iff (argv : List String) (hne : argv ≠ []) :
    validate argv = none ↔ ¬ SpecRejects argv := by
  unfold validate
  rw [validateLoop_none_iff]
  have hhead : argv.headD "" = argv.getD 0 "" := by
    cases argv <;> simp
  have h1 : ∀ y x, OccursAfter y x false argv ↔
      ∃ j, j < argv.length ∧ argv.getD j "" = x ∧ ∃ i, i < j ∧ argv.getD i "" = y := by
    intro y x
    simp [OccursAfter]
  rw [h1, h1, hhead]
  unfold SpecRejects FirstIsOperator InputAfterPipe PipeAfterOutput
  constructor
  · rintro ⟨g0, g1, g2, g3⟩ (h | h | h | h)
    · rcases g0 with g0 | g0
      · exact hne g0
      · rw [g0] at h
        exact Bool.false_ne_true h.2
    · exact g1 h
    · exact g2 h
    · exact g3 h
  · intro h
    refine ⟨Or.inr ?_, fun g => h (Or.inr (Or.inl g)), fun g => h (Or.inr (Or.inr (Or.inl g))),
      fun g => h (Or.inr (Or.inr (Or.inr g)))⟩
    by_contra g
    exact h (Or.inl ⟨hne, by simpa using g⟩)

theorem evalChild_rejected_iff (sys : Sys) (argv : List String) (argc : Nat) (msg : Out) :
    evalChild sys argv argc = ChildOutcome.rejected msg ↔ validate argv = some msg := by
  unfold evalChild
  cases hv : validate argv with
  | some m => simp
  | none =>
    simp only []
    split <;> simp

/-- In an accepted sequence every operator token is followed by a token that
is not an operator. -/
theorem operator_followed_by_operand (argv : List String) (hne : argv ≠ [])
    (hval : validate argv = none) :
    ∀ i, i < argv.length → isOperator (argv.getD i "") = true →
      i + 1 < argv.length ∧ isOperator (argv.getD (i + 1) "") = false := by
  intro i hi hop
  have hacc := (validate_none_iff argv hne).1 hval
  have hno : ¬ OperatorLacksOperand argv := fun h => hacc (Or.inr (Or.inl h))
  by_contra hcon
  apply hno
  refine ⟨i, hi, hop, ?_⟩
  by_cases hlt : i + 1 < argv.length
  · right
    by_contra hf
    exact hcon ⟨hlt, by simpa using hf⟩
  · left
    omega

/-- C7: for every non-empty token sequence, the validation loop of the child
rejects it (one of the three `Invalid commandline` messages is printed and the
child calls `exit(1)`) whenever the first token is `|`, `<` or `>`, or an
operator token is the last token or is immediately followed by another
operator token, or a `<` occurs after a `|`, or a `|` occurs after a `>`; it
accepts every sequence in which none of them holds; and in every accepted
sequence each operator token is immediately followed by a non-operator token. -/
theorem validation_rejects_exactly (sys : Sys) (argv : List String) (argc : Nat)
    (hne : argv ≠ []) :
    (SpecRejects argv →
      ∃ msg, (msg = Out.invalidCommandline ∨ msg = Out.invalidInAfterPipe ∨
          msg = Out.invalidPipeAfterOut) ∧
        validate argv = some msg ∧ evalChild sys argv argc = ChildOutcome.rejected msg) ∧
    (¬ SpecRejects argv →
      validate argv = none ∧ ∀ msg, evalChild sys argv argc ≠ ChildOutcome.rejected msg) ∧
    (validate argv = none →
      ∀ i, i < argv.length → isOperator (argv.getD i "") = true →
        i + 1 < argv.length ∧ isOperator (argv.getD (i + 1) "") = false) := by
  refine ⟨fun hrej => ?_, fun hacc => ?_, fun hval i hi hop => ?_⟩
  · cases hv : validate argv with
    | none => exact absurd hrej ((validate_none_iff argv hne).1 hv)
    | some msg =>
      exact ⟨msg, validateLoop_message _ _ _ _ msg hv, rfl,
        (evalChild_rejected_iff sys argv argc msg).2 hv⟩
  · have hv := (validate_none_iff argv hne).2 hacc
    refine ⟨hv, fun msg h => ?_⟩
    rw [evalChild_rejected_iff, hv] at h
    cases h
  · exact operator_followed_by_operand argv hne hval i hi hop

/-- C7, at `ls | | grep x` (rejected) and at `ls | grep x` (accepted). -/
theorem validation_rejects_exactly_witness :
    (∃ msg, (msg = Out.invalidCommandline ∨ msg = Out.invalidInAfterPipe ∨
          msg = Out.invalidPipeAfterOut) ∧
        validate ["ls", "|", "|", "grep", "x"] = some msg ∧
        evalChild ⟨fun _ => false, fun _ => false, fun _ => false⟩
          ["ls", "|", "|", "grep", "x"] 5 = ChildOutcome.rejected msg) ∧
    (validate ["ls", "|", "grep", "x"] = none ∧
      ∀ msg, evalChild ⟨fun _ => false, fun _ => false, fun _ => false⟩
        ["ls", "|", "grep", "x"] 4 ≠ ChildOutcome.rejected msg) :=
  ⟨(validation_rejects_exactly _ ["ls", "|", "|", "grep", "x"] 5 (by decide)).1 (by decide),
   (validation_rejects_exactly _ ["ls", "|", "grep", "x"] 4 (by decide)).2.1 (by decide)⟩

/-! ## Foreground entries -/

theorem countFG_append_cons (l1 l2 : List job_t) (b : job_t) :
    countFG (l1 ++ b :: l2) = countFG l1 + (if b.state = FG then 1 else 0) + countFG l2 := by
  unfold countFG
  rw [List.filter_append, List.filter_cons, List.length_append]
  by_cases h : b.state = FG
  · simp [h]
    omega
  · simp [h]

theorem countFG_eq_zero {jobs : List job_t} (h : ∀ j ∈ jobs, j.state ≠ FG) : countFG jobs = 0 := by
  unfold countFG
  rw [List.length_eq_zero, List.filter_eq_nil_iff]
  intro j hj
  simpa using h j hj

/-- Replacing one slot by an entry that is not in state `FG` keeps the invariant. -/
theorem fgInv_replace_notFG {l1 l2 : List job_t} {a b : job_t} {w : Option Int}
    (h : FGInv (l1 ++ a :: l2) w) (hb : b.state ≠ FG) : FGInv (l1 ++ b :: l2) w := by
  obtain ⟨h1, h2⟩ := h
  constructor
  · rw [countFG_append_cons] at h1 ⊢
    rw [if_neg hb]
    split at h1 <;> omega
  · intro j hj hfg
    simp only [List.mem_append, List.mem_cons] at hj
    rcases hj with hj | rfl | hj
    · exact h2 j (by simp [hj]) hfg
    · exact absurd hfg hb
    · exact h2 j (by simp [hj]) hfg

/-- Replacing one slot of a table without `FG` entries gives a table whose only
possible `FG` entry is the new one. -/
theorem fgInv_replace_of_noFG {l1 l2 : List job_t} {a b : job_t}
    (h : ∀ j ∈ l1 ++ a :: l2, j.state ≠ FG) : FGInv (l1 ++ b :: l2) (some b.pid) := by
  have hl1 : ∀ j ∈ l1, j.state ≠ FG := fun j hj => h j (by simp [hj])
  have hl2 : ∀ j ∈ l2, j.state ≠ FG := fun j hj => h j (by simp [hj])
  constructor
  · rw [countFG_append_cons, countFG_eq_zero hl1, countFG_eq_zero hl2]
    split <;> omega
  · intro j hj hfg
    simp only [List.mem_append, List.mem_cons] at hj
    rcases hj with hj | rfl | hj
    · exact absurd hfg (hl1 j hj)
    · rfl
    · exact absurd hfg (hl2 j hj)

theorem fgInv_of_noFG {jobs : List job_t} (h : ∀ j ∈ jobs, j.state ≠ FG) (w : Option Int) :
    FGInv jobs w :=
  ⟨by rw [countFG_eq_zero h]; omega, fun j hj hfg => absurd hfg (h j hj)⟩

theorem noFG_of_fgInv_none {jobs : List job_t} (h : FGInv jobs none) :
    ∀ j ∈ jobs, j.state ≠ FG := by
  intro j hj hfg
  have := h.2 j hj hfg
  cases this

theorem findSlot_some (test : job_t → Bool) (jobs : List job_t) :
    ∀ idx, findSlot test jobs = some idx →
      ∃ l1 e l2, jobs = l1 ++ e :: l2 ∧ l1.length = idx ∧ test e = true ∧
        ∀ x ∈ l1, test x = false := by
  induction jobs with
  | nil =>
    intro idx h
    simp [findSlot] at h
  | cons j js ih =>
    intro idx h
    unfold findSlot at h
    by_cases ht : test j = true
    · rw [if_pos ht] at h
      cases h
      exact ⟨[], j, js, rfl, rfl, ht, fun x hx => by simp at hx⟩
    · rw [if_neg ht] at h
      cases hf : findSlot test js with
      | none => rw [hf] at h; cases h
      | some i =>
        rw [hf] at h
        cases h
        obtain ⟨l1, e, l2, e1, e2, e3, e4⟩ := ih i hf
        refine ⟨j :: l1, e, l2, by simp [e1], by simp [e2], e3, fun x hx => ?_⟩
        rcases List.mem_cons.1 hx with rfl | hx
        · simpa using ht
        · exact e4 x hx

theorem setState_append_cons (state : Int) (l1 l2 : List job_t) (e : job_t) :
    setState state l1.length (l1 ++ e :: l2) = l1 ++ { e with state := state } :: l2 := by
  induction l1 with
  | nil => rfl
  | cons x xs ih => simp [setState, ih]

theorem getD_append_cons (l1 l2 : List job_t) (e d : job_t) :
    (l1 ++ e :: l2).getD l1.length d = e := by
  induction l1 with
  | nil => rfl
  | cons x xs ih => simpa using ih

theorem fgpid_of_exists {jobs : List job_t} (h : ∃ j ∈ jobs, j.state = FG) :
    ∃ j ∈ jobs, j.state = FG ∧ fgpid jobs = j.pid := by
  induction jobs with
  | nil =>
    obtain ⟨j, hj, _⟩ := h
    simp at hj
  | cons x xs ih =>
    by_cases hx : x.state = FG
    · exact ⟨x, List.mem_cons_self _ _, hx, by simp [fgpid, hx]⟩
    · obtain ⟨j, hj, hfg⟩ := h
      rcases List.mem_cons.1 hj with rfl | hj
      · exact absurd hfg hx
      · obtain ⟨k, hk, hkfg, hkp⟩ := ih ⟨j, hj, hfg⟩
        exact ⟨k, List.mem_cons_of_mem _ hk, hkfg, by simp [fgpid, hx, hkp]⟩

/-- When `waitfg` returns, no entry is in state `FG`. -/
theorem fgInv_waitfg_returns {jobs : List job_t} {pid : Int} (h : FGInv jobs (some pid))
    (hret : waitfgBlocks jobs pid = false) : FGInv jobs none := by
  apply fgInv_of_noFG
  intro j hj hfg
  obtain ⟨k, hk, hkfg, hkp⟩ := fgpid_of_exists ⟨j, hj, hfg⟩
  have hpk : pid = k.pid := Option.some.inj (h.2 k hk hkfg)
  have : waitfgBlocks jobs pid = true := by
    simp [waitfgBlocks, hkp, hpk]
  rw [this] at hret
  cases hret

theorem fgInv_deletejob {jobs : List job_t} {w : Option Int} (h : FGInv jobs w) (pid : Int) :
    FGInv (deletejob jobs pid).2 w := by
  unfold deletejob
  split
  · exact h
  · rcases deletejobLoop_spec pid jobs with ⟨h1, _⟩ | ⟨l1, e, l2, e1, _, _, e4⟩
    · rw [h1]; exact h
    · rw [e4]
      subst e1
      exact fgInv_replace_notFG h (show (0 : Int) ≠ 1 by decide)

theorem fgInv_setState_slot {jobs : List job_t} {w : Option Int} (h : FGInv jobs w)
    (test : job_t → Bool) (idx : Nat) (hidx : findSlot test jobs = some idx) (state : Int)
    (hs : state ≠ FG) : FGInv (setState state idx jobs) w := by
  obtain ⟨l1, e, l2, e1, e2, _, _⟩ := findSlot_some test jobs idx hidx
  subst e1 e2
  rw [setState_append_cons]
  exact fgInv_replace_notFG h hs

theorem fgInv_sigchldOne {jobs jobs' : List job_t} {w : Option Int} (h : FGInv jobs w)
    (job_pid : Int) (status : Status) (evs : List Ev)
    (hs : sigchldOne jobs job_pid status = some (jobs', evs)) : FGInv jobs' w := by
  cases status with
  | exited c =>
    simp only [sigchldOne, Option.some.injEq, Prod.mk.injEq] at hs
    rw [← hs.1]
    exact fgInv_deletejob h job_pid
  | signaled sig =>
    simp only [sigchldOne, Option.some.injEq, Prod.mk.injEq] at hs
    rw [← hs.1]
    exact fgInv_deletejob h job_pid
  | stopped sig =>
    simp only [sigchldOne] at hs
    cases hg : getjobpid jobs job_pid with
    | none => rw [hg] at hs; cases hs
    | some idx =>
      rw [hg] at hs
      simp only [Option.some.injEq, Prod.mk.injEq] at hs
      rw [← hs.1]
      unfold getjobpid at hg
      split at hg
      · cases hg
      · exact fgInv_setState_slot h _ idx hg ST (by decide)
  | other =>
    simp only [sigchldOne, Option.some.injEq, Prod.mk.injEq] at hs
    rw [← hs.1]
    exact h

theorem fgInv_sigchld_handler (reaped : List (Int × Status)) :
    ∀ {jobs jobs' : List job_t} {w : Option Int} (evs : List Ev), FGInv jobs w →
      sigchld_handler jobs reaped = some (jobs', evs) → FGInv jobs' w := by
  induction reaped with
  | nil =>
    intro jobs jobs' w evs h hs
    simp only [sigchld_handler, Option.some.injEq, Prod.mk.injEq] at hs
    rw [← hs.1]
    exact h
  | cons r rest ih =>
    intro jobs jobs' w evs h hs
    obtain ⟨job_pid, status⟩ := r
    simp only [sigchld_handler] at hs
    cases h1 : sigchldOne jobs job_pid status with
    | none => rw [h1] at hs; cases hs
    | some r1 =>
      obtain ⟨jobs1, evs1⟩ := r1
      rw [h1] at hs
      simp only [] at hs
      cases h2 : sigchld_handler jobs1 rest with
      | none => rw [h2] at hs; cases hs
      | some r2 =>
        obtain ⟨jobs2, evs2⟩ := r2
        rw [h2] at hs
        simp only [Option.some.injEq, Prod.mk.injEq] at hs
        rw [← hs.1]
        exact ih evs2 (fgInv_sigchldOne h job_pid status evs1 h1) h2

/-- The two ways `do_bgfg` ends after it found the job in slot `idx`. -/
theorem fgInv_bgfg_found {jobs : List job_t} (hno : ∀ j ∈ jobs, j.state ≠ FG)
    (test : job_t → Bool) (idx : Nat) (hidx : findSlot test jobs = some idx)
    (cmd : String) (evs1 evs2 : List Ev) (p : Int)
    (hp : ∀ l1 e l2, jobs = l1 ++ e :: l2 → l1.length = idx → test e = true → p = e.pid) :
    FGInv (if cmd = "bg" then (⟨setState BG idx jobs, evs1, none⟩ : BuiltinResult)
        else ⟨setState FG idx jobs, evs2, some p⟩).jobs
      (if cmd = "bg" then (⟨setState BG idx jobs, evs1, none⟩ : BuiltinResult)
        else ⟨setState FG idx jobs, evs2, some p⟩).waitfg := by
  obtain ⟨l1, e, l2, e1, e2, e3, _⟩ := findSlot_some test jobs idx hidx
  have hpe := hp l1 e l2 e1 e2 e3
  subst e1 e2
  split
  · show FGInv (setState BG l1.length (l1 ++ e :: l2)) none
    rw [setState_append_cons]
    exact fgInv_replace_notFG (fgInv_of_noFG hno none) (show (2 : Int) ≠ 1 by decide)
  · show FGInv (setState FG l1.length (l1 ++ e :: l2)) (some p)
    rw [setState_append_cons, hpe]
    exact fgInv_replace_of_noFG (b := { e with state := FG }) hno

theorem fgInv_bgfgBranch {jobs : List job_t} (hno : ∀ j ∈ jobs, j.state ≠ FG)
    (cmd : String) (argv : List String) :
    FGInv (bgfgBranch jobs cmd argv).jobs (bgfgBranch jobs cmd argv).waitfg := by
  have base : ∀ evs : List Ev, FGInv (BuiltinResult.mk jobs evs none).jobs
      (BuiltinResult.mk jobs evs none).waitfg := fun _ => fgInv_of_noFG hno none
  unfold bgfgBranch
  simp only []
  split
  · exact base _
  · split
    · split
      · exact base _
      · split
        · exact base _
        · rename_i idx hidx
          unfold getjobjid at hidx
          split at hidx
          · cases hidx
          · apply fgInv_bgfg_found hno _ idx hidx
            intro l1 e l2 e1 e2 _
            subst e1 e2
            rw [getD_append_cons]
    · split
      · exact base _
      · split
        · exact base _
        · rename_i idx hidx
          unfold getjobpid at hidx
          split at hidx
          · cases hidx
          · apply fgInv_bgfg_found hno _ idx hidx
            intro l1 e l2 _ _ e3
            exact (of_decide_eq_true e3).symm

theorem fgInv_builtin_cmd {jobs : List job_t} (hno : ∀ j ∈ jobs, j.state ≠ FG)
    (argv : List String) (r : BuiltinResult)
    (h : builtin_cmd jobs argv = BuiltinOutcome.handled r) : FGInv r.jobs r.waitfg := by
  unfold builtin_cmd at h
  split at h
  · cases h
  · split at h
    · cases h
    · split at h
      · cases h
        exact fgInv_of_noFG hno none
      · split at h
        · cases h
          unfold do_bgfg
          split
          · exact fgInv_bgfgBranch hno _ _
          · split
            · exact fgInv_bgfgBranch hno _ _
            · exact fgInv_of_noFG hno none
        · cases h

/-- The slot `addjob` fills is the only one that can be in state `FG` afterwards. -/
theorem fgInv_addjob {jobs : List job_t} (hno : ∀ j ∈ jobs, j.state ≠ FG)
    (pid state : Int) (cmdline : String) (r : Int × List job_t × List Out)
    (h : addjob jobs pid state cmdline = some r) :
    FGInv r.2.1 (some pid) ∧ (state ≠ FG → FGInv r.2.1 none) := by
  have hsame : FGInv jobs (some pid) ∧ (state ≠ FG → FGInv jobs none) :=
    ⟨fgInv_of_noFG hno _, fun _ => fgInv_of_noFG hno _⟩
  unfold addjob at h
  split at h
  · cases h; exact hsame
  · split at h
    · cases h
    · split at h
      · cases h; exact hsame
      · rename_i free _ _
        rcases addjobLoop_spec pid state free cmdline jobs with ⟨h1, _⟩ | ⟨l1, e, l2, e1, _, _, e4⟩
        · rw [h1] at h
          cases h; exact hsame
        · rw [e4] at h
          simp only [] at h
          split at h
          · cases h
            subst e1
            exact ⟨fgInv_replace_of_noFG
                (b := { pid := pid, jid := free, state := state, cmdline := cmdline }) hno,
              fun hs => fgInv_replace_notFG (fgInv_of_noFG hno none) hs⟩
          · cases h

/-- A call of `eval` that starts without an `FG` entry ends with at most one,
which is the job it then waits for. -/
theorem fgInv_eval {jobs jobs' : List job_t} (hno : ∀ j ∈ jobs, j.state ≠ FG)
    (sys : Sys) (cmdline : String) (fork_pid : Int) (evs : List Ev) (w : Option Int)
    (h : eval sys jobs cmdline fork_pid = EvalOutcome.ret jobs' evs w) : FGInv jobs' w := by
  unfold eval at h
  split at h
  · cases h
  · split at h
    · cases h
      exact fgInv_of_noFG hno none
    · simp only [] at h
      split at h
      · cases h
      · cases h
      · rename_i r hr
        cases h
        exact fgInv_builtin_cmd hno _ r hr
      · split at h
        · cases h
        · split at h
          · cases h
          · split at h
            · cases h
            · rename_i ret jobs1 out hadd
              have hinv := fgInv_addjob hno _ _ _ _ hadd
              cases h
              cases hbg : isBackground _
              · simpa using hinv.1
              · simp only [hbg, if_true] at hinv
                simpa using hinv.2 (by decide)

/-- C1, the code at a run in which a child ends while `do_bgfg` is between
`getjobpid` and `job->state = FG`. The lines `/bin/sleep 1 &` (pid 10) and
`/bin/sleep 3 &` (pid 20) fill slots 0 and 1; child 10 ends and
`sigchld_handler` clears slot 0. The line `fg 20` reaches `do_bgfg`, where
`getjobpid(jobs, 20)` returns the address of slot 1; child 20 ends (`SIGCHLD`
is never blocked) and the handler clears slot 1; `do_bgfg` goes on with
`job->state = FG` in the cleared slot 1, and `waitfg(20)` returns at once,
since `fgpid` now gives the pid 0 of that slot. The foreground line
`/bin/sleep 5` (pid 30) is then added in slot 0 in state `FG`: while the shell
waits for it, two entries of the table are in state `FG`. -/
theorem foreground_race_two_entries :
    eval sysOk initjobs "/bin/sleep 1 &\n" 10 =
      EvalOutcome.ret raceOne (parentTrace true 10 [] raceOne "/bin/sleep 1 &\n") none ∧
    eval sysOk raceOne "/bin/sleep 3 &\n" 20 =
      EvalOutcome.ret raceTwo (parentTrace true 20 [] raceTwo "/bin/sleep 3 &\n") none ∧
    sigchld_handler raceTwo [(10, Status.exited 0)] = some (raceSecond, []) ∧
    parseline "fg 20\n" = some ["fg", "20"] ∧
    getjobpid raceSecond 20 = some 1 ∧
    sigchld_handler raceSecond [(20, Status.exited 0)] = some (initjobs, []) ∧
    setState FG 1 initjobs = raceStale ∧
    waitfgBlocks raceStale 20 = false ∧
    eval sysOk raceStale "/bin/sleep 5\n" 30 =
      EvalOutcome.ret raceTwoFG (parentTrace false 30 [] raceTwoFG "/bin/sleep 5\n") (some 30) ∧
    waitfgBlocks raceTwoFG 30 = true ∧
    countFG raceTwoFG = 2 := by
  refine ⟨by decide, by decide, by decide, by decide, by decide, by decide, by decide,
    by decide, by decide, by decide, by decide⟩

/-! ## eval: the launch of a command line that is not a builtin -/

theorem forkCount_append (a b : List Ev) : forkCount (a ++ b) = forkCount a + forkCount b := by
  induction a with
  | nil => simp [forkCount]
  | cons x xs ih =>
    cases x <;> simp [forkCount, ih]
    omega

theorem forkCount_print (out : List Out) : forkCount (out.map Ev.print) = 0 := by
  induction out with
  | nil => rfl
  | cons x xs ih => simpa [forkCount] using ih

theorem forkCount_parentTrace (bg : Bool) (fork_pid : Int) (out : List Out)
    (jobs' : List job_t) (cmdline : String) :
    forkCount (parentTrace bg fork_pid out jobs' cmdline) = 1 := by
  unfold parentTrace
  rw [forkCount_append, forkCount_append, forkCount_print]
  cases bg <;> simp [forkCount]

theorem parseline_length {cmdline : String} {toks : List String}
    (h : parseline cmdline = some toks) : cmdline.length < MAXLINE := by
  unfold parseline at h
  split at h
  · cases h
  · split at h
    · cases h
    · omega

/-- In the child (`fork` returned 0) `eval` runs the child branch on the tokens
without the trailing `&`. -/
theorem eval_in_child (sys : Sys) (jobs : List job_t) (cmdline : String) (toks : List String)
    (hparse : parseline cmdline = some toks) (hne : toks ≠ [])
    (hnb : builtin_cmd jobs (stripBackground toks) = BuiltinOutcome.notBuiltin) :
    eval sys jobs cmdline 0 =
      EvalOutcome.inChild (evalChild sys (stripBackground toks) toks.length) := by
  simp [eval, hparse, hne, hnb]

/-- In the shell (`fork` returned a pid) `eval` adds the job, whatever the child
does with the tokens. -/
theorem eval_in_parent (sys : Sys) (jobs : List job_t) (cmdline : String) (toks : List String)
    (fork_pid : Int) (hparse : parseline cmdline = some toks) (hne : toks ≠ [])
    (hnb : builtin_cmd jobs (stripBackground toks) = BuiltinOutcome.notBuiltin)
    (hpid : 0 < fork_pid) (hwf : WellFormed jobs) (hfree : HasFreeSlot jobs) :
    ∃ (jid : Int) (l1 : List job_t) (e : job_t) (l2 : List job_t) (evs : List Ev),
      jobs = l1 ++ e :: l2 ∧ e.pid = 0 ∧ forkCount evs = 1 ∧
      eval sys jobs cmdline fork_pid =
        EvalOutcome.ret
          (l1 ++ { pid := fork_pid, jid := jid,
                   state := if isBackground toks then BG else FG, cmdline := cmdline } :: l2)
          evs (if isBackground toks then none else some fork_pid) := by
  obtain ⟨jid, l1, e, l2, e1, _, e3, _, _, _, ha⟩ :=
    (addjob_wf hwf fork_pid (if isBackground toks then BG else FG) cmdline).2 (by omega) hfree
  rw [if_pos (parseline_length hparse)] at ha
  refine ⟨jid, l1, e, l2,
    parentTrace (isBackground toks) fork_pid []
      (l1 ++ { pid := fork_pid, jid := jid,
               state := if isBackground toks then BG else FG, cmdline := cmdline } :: l2) cmdline,
    e1, e3, forkCount_parentTrace (isBackground toks) fork_pid [] _ cmdline, ?_⟩
  have h1 : ¬ fork_pid < 0 := by omega
  have h2 : ¬ fork_pid = 0 := by omega
  simp only [eval, hparse, hne, hnb, h1, h2, if_false, ha]

/-- C2, counterexample: the line `ls | | grep x` is rejected by the validation,
and still `eval` forks (pid 100) and the job table, empty before, holds a job
for the line afterwards. -/
theorem rejected_line_counterexample :
    parseline "ls | | grep x\n" = some ["ls", "|", "|", "grep", "x"] ∧
    validate ["ls", "|", "|", "grep", "x"] = some Out.invalidCommandline ∧
    eval sysOk initjobs "ls | | grep x\n" 100 =
      EvalOutcome.ret ([⟨100, 1, FG, "ls | | grep x\n"⟩] ++ List.replicate 15 emptySlot)
        [Ev.blockSignals [Sig.SIGINT, Sig.SIGTSTP], Ev.fork 100, Ev.waitReady,
          Ev.restoreSignals] (some 100) ∧
    [⟨100, 1, FG, "ls | | grep x\n"⟩] ++ List.replicate 15 emptySlot ≠ initjobs := by
  refine ⟨by decide, by decide, by decide, by decide⟩

/-- C2, amended: for every command line that is not a builtin and whose token
sequence is rejected by the operator validation, `eval` forks exactly one
process, the leader, which prints the syntax message and calls `exit(1)`
without creating a pipe or a process and without calling `execve`; the shell
registers a job for the line as for any other line: on a well-formed table
with a free slot, one empty slot receives an entry with the pid of the leader. -/
theorem rejected_line_forks_leader_only (sys : Sys) (jobs : List job_t) (cmdline : String)
    (toks : List String) (msg : Out) (fork_pid : Int)
    (hparse : parseline cmdline = some toks) (hne : toks ≠ [])
    (hnb : builtin_cmd jobs (stripBackground toks) = BuiltinOutcome.notBuiltin)
    (hrej : validate (stripBackground toks) = some msg)
    (hpid : 0 < fork_pid) (hwf : WellFormed jobs) (hfree : HasFreeSlot jobs) :
    eval sys jobs cmdline 0 = EvalOutcome.inChild (ChildOutcome.rejected msg) ∧
    ∃ (jid : Int) (l1 : List job_t) (e : job_t) (l2 : List job_t) (evs : List Ev),
      jobs = l1 ++ e :: l2 ∧ e.pid = 0 ∧ forkCount evs = 1 ∧
      eval sys jobs cmdline fork_pid =
        EvalOutcome.ret
          (l1 ++ { pid := fork_pid, jid := jid,
                   state := if isBackground toks then BG else FG, cmdline := cmdline } :: l2)
          evs (if isBackground toks then none else some fork_pid) := by
  refine ⟨?_, eval_in_parent sys jobs cmdline toks fork_pid hparse hne hnb hpid hwf hfree⟩
  rw [eval_in_child sys jobs cmdline toks hparse hne hnb]
  exact congrArg EvalOutcome.inChild ((evalChild_rejected_iff sys _ _ msg).2 hrej)

/-- C2, amended, at the line `ls | | grep x` on the empty table. -/
theorem rejected_line_forks_leader_only_witness :
    eval sysOk initjobs "ls | | grep x\n" 0 =
      EvalOutcome.inChild (ChildOutcome.rejected Out.invalidCommandline) ∧
    ∃ (jid : Int) (l1 : List job_t) (e : job_t) (l2 : List job_t) (evs : List Ev),
      initjobs = l1 ++ e :: l2 ∧ e.pid = 0 ∧ forkCount evs = 1 ∧
      eval sysOk initjobs "ls | | grep x\n" 100 =
        EvalOutcome.ret
          (l1 ++ { pid := 100, jid := jid,
                   state := if isBackground ["ls", "|", "|", "grep", "x"] then BG else FG,
                   cmdline := "ls | | grep x\n" } :: l2)
          evs (if isBackground ["ls", "|", "|", "grep", "x"] then none else some 100) :=
  rejected_line_forks_leader_only sysOk initjobs "ls | | grep x\n" ["ls", "|", "|", "grep", "x"]
    Out.invalidCommandline 100 (by decide) (by decide) (by decide) (by decide) (by decide)
    (by decide) (by decide)

/-- C10: for every command line that is not empty and not a builtin (whatever
the number of its pipe stages), evaluated on a well-formed job table with a
free slot, `eval` in the shell registers exactly one new job: one empty slot
receives the entry whose pid is the pid of the forked leader, whose state is
`BG` if the last token of the line was `&` and `FG` otherwise, and whose
command text is the line; every other slot is unchanged. -/
theorem eval_registers_one_job (sys : Sys) (jobs : List job_t) (cmdline : String)
    (toks : List String) (fork_pid : Int)
    (hparse : parseline cmdline = some toks) (hne : toks ≠ [])
    (hnb : builtin_cmd jobs (stripBackground toks) = BuiltinOutcome.notBuiltin)
    (hpid : 0 < fork_pid) (hwf : WellFormed jobs) (hfree : HasFreeSlot jobs) :
    ∃ (jid : Int) (l1 : List job_t) (e : job_t) (l2 : List job_t) (evs : List Ev)
      (w : Option Int),
      jobs = l1 ++ e :: l2 ∧ e.pid = 0 ∧
      eval sys jobs cmdline fork_pid =
        EvalOutcome.ret
          (l1 ++ { pid := fork_pid, jid := jid,
                   state := if toks.getLast? = some "&" then BG else FG,
                   cmdline := cmdline } :: l2)
          evs w := by
  obtain ⟨jid, l1, e, l2, evs, e1, e2, _, e4⟩ :=
    eval_in_parent sys jobs cmdline toks fork_pid hparse hne hnb hpid hwf hfree
  refine ⟨jid, l1, e, l2, evs, if isBackground toks then none else some fork_pid, e1, e2, ?_⟩
  rw [e4]
  simp [isBackground]

/-- C10, at the two-stage line `/bin/ls | /bin/grep foo &` on the table that
holds jobs 1, 2, 3. -/
theorem eval_registers_one_job_witness :
    ∃ (jid : Int) (l1 : List job_t) (e : job_t) (l2 : List job_t) (evs : List Ev)
      (w : Option Int),
      jobsOneTwoThree = l1 ++ e :: l2 ∧ e.pid = 0 ∧
      eval sysOk jobsOneTwoThree "/bin/ls | /bin/grep foo &\n" 100 =
        EvalOutcome.ret
          (l1 ++ { pid := 100, jid := jid,
                   state := if ["/bin/ls", "|", "/bin/grep", "foo", "&"].getLast? = some "&"
                     then BG else FG,
                   cmdline := "/bin/ls | /bin/grep foo &\n" } :: l2)
          evs w :=
  eval_registers_one_job sysOk jobsOneTwoThree "/bin/ls | /bin/grep foo &\n"
    ["/bin/ls", "|", "/bin/grep", "foo", "&"] 100 (by decide) (by decide) (by decide)
    (by decide) (by decide) (by decide)

/-! ## The stage loop -/

theorem map_getD_true (f : String → Bool) (argv : List String) (i : Nat)
    (h : (argv.map f).getD i false = true) :
    i < argv.length ∧ f (argv.getD i "") = true := by
  rw [List.getD_eq_getElem?_getD, List.getElem?_map] at h
  rw [List.getD_eq_getElem?_getD]
  by_cases hi : i < argv.length
  · rw [List.getElem?_eq_getElem hi] at h ⊢
    exact ⟨hi, by simpa using h⟩
  · rw [List.getElem?_eq_none (by omega)] at h
    simp at h

theorem map_getD_false (f : String → Bool) (argv : List String) (i : Nat)
    (h : ¬ (argv.map f).getD i false = true) :
    ¬ (i < argv.length ∧ f (argv.getD i "") = true) := by
  rintro ⟨hi, hf⟩
  apply h
  rw [List.getD_eq_getElem?_getD, List.getElem?_map]
  rw [List.getD_eq_getElem?_getD] at hf
  rw [List.getElem?_eq_getElem hi] at hf ⊢
  simpa using hf

theorem count_take_succ (argv : List String) (i : Nat) :
    (argv.take (i + 1)).count "|" =
      (argv.take i).count "|" + (if i < argv.length ∧ argv.getD i "" = "|" then 1 else 0) := by
  rw [List.take_succ, List.count_append, List.getD_eq_getElem?_getD]
  by_cases hi : i < argv.length
  · rw [List.getElem?_eq_getElem hi]
    by_cases hp : argv[i] = "|"
    · simp [hi, hp]
    · have hc : List.count "|" [argv[i]] = 0 :=
        List.count_eq_zero.2 (by simpa using fun h => hp h.symm)
      simp [hi, hp, hc]
  · rw [List.getElem?_eq_none (by omega)]
    simp [hi]

theorem count_take_zero_of_no_pipe (argv : List String) (i : Nat)
    (h : ∀ k, k < i → argv.getD k "" ≠ "|") : (argv.take i).count "|" = 0 := by
  induction i with
  | zero => simp
  | succ n ih =>
    rw [count_take_succ, ih (fun k hk => h k (by omega))]
    have := h n (by omega)
    rw [if_neg (fun hc => this hc.2)]

theorem getElem?_append_singleton {α : Type} (l : List α) (a p : α) (k : Nat)
    (h : (l ++ [a])[k]? = some p) : l[k]? = some p ∨ (k = l.length ∧ p = a) := by
  rw [List.getElem?_append] at h
  split at h
  · exact Or.inl h
  · rename_i hk
    have hk' : k - l.length = 0 := by
      by_contra hne
      have : ([a] : List α)[k - l.length]? = none := List.getElem?_eq_none (by simp; omega)
      rw [this] at h
      cases h
    rw [hk'] at h
    simp at h
    exact Or.inr ⟨by omega, h.symm⟩

/-- One iteration of the stage loop keeps the invariant, and succeeds when no
`pipe` and no `fork` fails. -/
theorem stageStep_inv (sys : Sys) (argv : List String) (i : Nat) (st : Leader)
    (hpipe : ∀ k, sys.pipeFails k = false) (hfork : ∀ k, sys.forkFails k = false)
    (hop : ∀ i, i < argv.length → isOperator (argv.getD i "") = true →
      i + 1 < argv.length ∧ isOperator (argv.getD (i + 1) "") = false)
    (hin : ¬ InputAfterPipe argv) (hinv : StageInv argv i st) :
    ∃ st', stageStep sys (markPipe argv) (markInredir argv) (markOutredir argv) st i =
        Except.ok st' ∧ StageInv argv (i + 1) st' := by
  obtain ⟨h1, h2, h3, h4, h5, h6, h7, h8⟩ := hinv
  unfold stageStep
  by_cases hskip : st.skip_this_iteration = true
  · obtain ⟨hi0, hilt, hiop⟩ := h1 hskip
    have hnext := hop (i - 1) hilt hiop
    have hi1 : i - 1 + 1 = i := by omega
    rw [hi1] at hnext
    have hnp : ¬ (i < argv.length ∧ argv.getD i "" = "|") := by
      rintro ⟨_, hp⟩
      have := hnext.2
      rw [hp] at this
      exact absurd this (by decide)
    have hcount : (argv.take (i + 1)).count "|" = (argv.take i).count "|" := by
      rw [count_take_succ, if_neg hnp]
      rfl
    rw [if_pos hskip]
    split
    · exact ⟨_, rfl, fun h => absurd h (by simp), h2, by rw [hcount]; exact h3, h4, h5, h6, h7, h8⟩
    · exact ⟨_, rfl, fun h => absurd h (by simp), h2, by rw [hcount]; exact h3, h4, h5, h6, h7, h8⟩
  · rw [if_neg hskip]
    by_cases hir : (markInredir argv).getD i false = true
    · rw [if_pos hir]
      obtain ⟨hilt, hf⟩ := map_getD_true _ argv i hir
      have htok : argv.getD i "" = "<" := (of_decide_eq_true hf).2
      have hnopipe : ∀ k, k < i → argv.getD k "" ≠ "|" :=
        fun k hk hp => hin ⟨i, hilt, htok, k, hk, hp⟩
      have hz := count_take_zero_of_no_pipe argv i hnopipe
      have hcount : (argv.take (i + 1)).count "|" = (argv.take i).count "|" := by
        rw [count_take_succ, if_neg (fun hc => by rw [htok] at hc; exact absurd hc.2 (by decide))]
        rfl
      refine ⟨_, rfl, fun _ => ⟨by omega, by simpa using hilt, ?_⟩, h2,
        by rw [hcount]; exact h3, h4, h5, h6, h7, fun k hk => ?_⟩
      · simp only [Nat.add_sub_cancel]
        rw [htok]
        decide
      · have : st.subs.length = k + 1 := hk
        omega
    · rw [if_neg hir]
      by_cases hor : (markOutredir argv).getD i false = true
      · rw [if_pos hor]
        obtain ⟨hilt, hf⟩ := map_getD_true _ argv i hor
        have htok : argv.getD i "" = ">" := (of_decide_eq_true hf).2.2
        have hcount : (argv.take (i + 1)).count "|" = (argv.take i).count "|" := by
          rw [count_take_succ,
            if_neg (fun hc => by rw [htok] at hc; exact absurd hc.2 (by decide))]
          rfl
        refine ⟨_, rfl, fun _ => ⟨by omega, by simpa using hilt, ?_⟩, h2,
          by rw [hcount]; exact h3, h4, h5, h6, h7, h8⟩
        simp only [Nat.add_sub_cancel]
        rw [htok]
        decide
      · rw [if_neg hor]
        by_cases hip : (markPipe argv).getD i false = true
        · rw [if_pos hip]
          obtain ⟨hilt, hf⟩ := map_getD_true _ argv i hip
          have htok : argv.getD i "" = "|" := of_decide_eq_true hf
          have hcount : (argv.take (i + 1)).count "|" = (argv.take i).count "|" + 1 := by
            rw [count_take_succ, if_pos ⟨hilt, htok⟩]
          simp only [hpipe, hfork, Bool.false_eq_true, if_false]
          refine ⟨_, rfl, fun _ => ⟨by omega, by simpa using hilt, ?_⟩, ?_, ?_, h4, ?_, ?_, ?_, ?_⟩
          · simp only [Nat.add_sub_cancel]
            rw [htok]
            decide
          · show (((st.subs ++ [_]).length : Nat) : Int) = st.i_fd + 1 + 1
            rw [List.length_append, List.length_singleton]
            push_cast
            omega
          · show (st.subs ++ [_]).length = _
            rw [List.length_append, List.length_singleton, hcount, h3]
          · intro p hp
            rcases List.mem_append.1 hp with hp | hp
            · exact h5 p hp
            · rw [List.mem_singleton.1 hp]
              exact h4
          · intro k p hk
            rcases getElem?_append_singleton _ _ _ _ hk with hold | ⟨hkl, rfl⟩
            · exact h6 k p hold
            · show Fd.pipeWrite (st.i_fd + 1) = Fd.pipeWrite (k : Int)
              rw [hkl, h2]
          · intro k p hk
            rcases getElem?_append_singleton _ _ _ _ hk with hold | ⟨hkl, rfl⟩
            · exact h7 k p hold
            · exact h8 k hkl.symm
          · intro k hk
            show Fd.pipeRead (st.i_fd + 1) = Fd.pipeRead (k : Int)
            have hlen : (st.subs ++ [execveCall
                { st with skip_this_iteration := true, i_fd := st.i_fd + 1,
                          stdout := Fd.pipeWrite (st.i_fd + 1) }]).length = k + 1 := hk
            rw [List.length_append, List.length_singleton] at hlen
            have : st.subs.length = k := by omega
            rw [← h2, this]
        · rw [if_neg hip]
          have hnp := map_getD_false _ argv i hip
          have hcount : (argv.take (i + 1)).count "|" = (argv.take i).count "|" := by
            rw [count_take_succ, if_neg (fun hc => hnp ⟨hc.1, by simpa using hc.2⟩)]
            rfl
          exact ⟨_, rfl, fun h => absurd h hskip, h2, by rw [hcount]; exact h3, h4, h5, h6, h7, h8⟩

/-- The stage loop, run to its end from a state that has the invariant. -/
theorem stageLoop_inv (sys : Sys) (argv : List String)
    (hpipe : ∀ k, sys.pipeFails k = false) (hfork : ∀ k, sys.forkFails k = false)
    (hop : ∀ i, i < argv.length → isOperator (argv.getD i "") = true →
      i + 1 < argv.length ∧ isOperator (argv.getD (i + 1) "") = false)
    (hin : ¬ InputAfterPipe argv) :
    ∀ (n i : Nat) (st : Leader), StageInv argv i st →
      ∃ st', stageLoop sys (markPipe argv) (markInredir argv) (markOutredir argv) n i st =
          Except.ok st' ∧ StageInv argv (i + n) st' := by
  intro n
  induction n with
  | zero =>
    intro i st hinv
    exact ⟨st, rfl, hinv⟩
  | succ n ih =>
    intro i st hinv
    obtain ⟨st1, hs1, hinv1⟩ := stageStep_inv sys argv i st hpipe hfork hop hin hinv
    obtain ⟨st2, hs2, hinv2⟩ := ih (i + 1) st1 hinv1
    refine ⟨st2, ?_, by rw [show i + (n + 1) = i + 1 + n by omega]; exact hinv2⟩
    unfold stageLoop
    rw [hs1]
    exact hs2

/-- C9: for every validated token sequence with `p` pipe tokens, when no `pipe`
and no `fork` of the leader fails, the child of `eval` ends by calling `execve`
after `p` sub-children were forked and `p` pipes created: with the leader that
makes `p + 1` processes, all in the process group the leader made for itself,
and for every `i` the standard output of the `i`-th process (in the order of
the stages) is the write end of the pipe whose read end is the standard input
of the process after it. -/
theorem pipeline_processes_and_pipes (sys : Sys) (argv : List String) (argc : Nat)
    (hne : argv ≠ []) (hval : validate argv = none) (hargc : argv.length ≤ argc)
    (hpipe : ∀ k, sys.pipeFails k = false) (hfork : ∀ k, sys.forkFails k = false) :
    ∃ (subs : List Proc) (leader : Proc),
      evalChild sys argv argc = ChildOutcome.launched subs leader (pipeCount argv : Int) ∧
      (subs ++ [leader]).length = pipeCount argv + 1 ∧
      (∀ p ∈ subs ++ [leader], p.pgid = PGroup.ofLeader) ∧
      ∀ (i : Nat) (p q : Proc),
        (subs ++ [leader])[i]? = some p → (subs ++ [leader])[i + 1]? = some q →
          p.stdout = Fd.pipeWrite (i : Int) ∧ q.stdin = Fd.pipeRead (i : Int) := by
  have hacc := (validate_none_iff argv hne).1 hval
  have hop := (operator_followed_by_operand argv hne hval)
  have hin : ¬ InputAfterPipe argv := fun h => hacc (Or.inr (Or.inr (Or.inl h)))
  have hinit : StageInv argv 0
      { argv := markArgv argv, skip_this_iteration := false, i_fd := -1,
        pgid := PGroup.ofLeader, stdin := Fd.shellStdin, stdout := Fd.shellStdout, subs := [] } := by
    refine ⟨fun h => absurd h (by simp), by simp, by simp, rfl, fun p hp => by simp at hp,
      fun k p hk => by simp at hk, fun k p hk => by simp at hk, fun k hk => by simp at hk⟩
  obtain ⟨st, hloop, h1, h2, h3, h4, h5, h6, h7, h8⟩ :=
    stageLoop_inv sys argv hpipe hfork hop hin argc 0 _ hinit
  rw [Nat.zero_add, List.take_of_length_le hargc] at h3
  have hlen : st.subs.length = pipeCount argv := h3
  refine ⟨st.subs, execveCall st, ?_, by simp [hlen], fun p hp => ?_, fun i p q hp hq => ?_⟩
  · unfold evalChild
    rw [hval]
    simp only []
    rw [hloop]
    simp only []
    rw [← h2, hlen]
  · rcases List.mem_append.1 hp with hp | hp
    · exact h5 p hp
    · rw [List.mem_singleton.1 hp]
      exact h4
  · rcases getElem?_append_singleton _ _ _ _ hp with hp1 | ⟨hil, _⟩
    · refine ⟨h6 i p hp1, ?_⟩
      rcases getElem?_append_singleton _ _ _ _ hq with hq1 | ⟨hil, rfl⟩
      · exact h7 i q hq1
      · exact h8 i hil.symm
    · have : (st.subs ++ [execveCall st])[i + 1]? = none :=
        List.getElem?_eq_none (by simp; omega)
      rw [this] at hq
      cases hq

/-- C9, at the two-stage sequence `/bin/ls | /bin/grep foo`. -/
theorem pipeline_processes_and_pipes_witness :
    ∃ (subs : List Proc) (leader : Proc),
      evalChild sysOk ["/bin/ls", "|", "/bin/grep", "foo"] 4 =
        ChildOutcome.launched subs leader (pipeCount ["/bin/ls", "|", "/bin/grep", "foo"] : Int) ∧
      (subs ++ [leader]).length = pipeCount ["/bin/ls", "|", "/bin/grep", "foo"] + 1 ∧
      (∀ p ∈ subs ++ [leader], p.pgid = PGroup.ofLeader) ∧
      ∀ (i : Nat) (p q : Proc),
        (subs ++ [leader])[i]? = some p → (subs ++ [leader])[i + 1]? = some q →
          p.stdout = Fd.pipeWrite (i : Int) ∧ q.stdin = Fd.pipeRead (i : Int) :=
  pipeline_processes_and_pipes sysOk ["/bin/ls", "|", "/bin/grep", "foo"] 4 (by decide)
    (by decide) (by decide) (fun _ => rfl) (fun _ => rfl)

/-- C8, the code at `/bin/ls | /bin/grep foo`: the line is tokenized and
accepted, the child runs stage 1 as `/bin/ls` with the arguments `[/bin/ls]`
and stage 2 as `/bin/grep` with the arguments `[/bin/grep]`, where the
segments of the specification give `[/bin/grep, foo]` for stage 2. -/
theorem second_stage_arguments_lost :
    parseline "/bin/ls | /bin/grep foo\n" = some ["/bin/ls", "|", "/bin/grep", "foo"] ∧
    validate ["/bin/ls", "|", "/bin/grep", "foo"] = none ∧
    eval sysOk initjobs "/bin/ls | /bin/grep foo\n" 0 =
      EvalOutcome.inChild (ChildOutcome.launched
        [⟨PGroup.ofLeader, Fd.shellStdin, Fd.pipeWrite 0, some "/bin/ls", ["/bin/ls"]⟩]
        ⟨PGroup.ofLeader, Fd.pipeRead 0, Fd.shellStdout, some "/bin/grep", ["/bin/grep"]⟩ 1) ∧
    (specStages ["/bin/ls", "|", "/bin/grep", "foo"]).map specStageArgs =
      [["/bin/ls"], ["/bin/grep", "foo"]] := by
  refine ⟨by decide, by decide, by decide, by decide⟩

/-! ## eval: failures of the launch -/

theorem eval_of_notBuiltin (sys : Sys) (jobs : List job_t) (cmdline : String)
    (toks : List String) (fork_pid : Int)
    (hparse : parseline cmdline = some toks) (hne : toks ≠ [])
    (hnb : builtin_cmd jobs (stripBackground toks) = BuiltinOutcome.notBuiltin) :
    eval sys jobs cmdline fork_pid =
      if fork_pid < 0 then
        EvalOutcome.exit 1 [Ev.blockSignals [Sig.SIGINT, Sig.SIGTSTP], Ev.fork fork_pid,
          Ev.print Out.perrorFork]
      else if fork_pid = 0 then
        EvalOutcome.inChild (evalChild sys (stripBackground toks) toks.length)
      else
        match addjob jobs fork_pid (if isBackground toks then BG else FG) cmdline with
        | none => EvalOutcome.undefined
        | some (_, jobs', out) =>
          EvalOutcome.ret jobs' (parentTrace (isBackground toks) fork_pid out jobs' cmdline)
            (if isBackground toks then none else some fork_pid) := by
  simp only [eval, hparse, hne, hnb, if_false]

/-- C20, counterexample: when `fork` fails (returns -1) for the line `sleep 5`,
`eval` does not return: the shell calls `exit(1)` after `perror("fork")`. -/
theorem fork_failure_counterexample :
    eval sysOk initjobs "sleep 5\n" (-1) =
      EvalOutcome.exit 1 [Ev.blockSignals [Sig.SIGINT, Sig.SIGTSTP], Ev.fork (-1),
        Ev.print Out.perrorFork] ∧
    ∀ (jobs' : List job_t) (evs : List Ev) (w : Option Int),
      eval sysOk initjobs "sleep 5\n" (-1) ≠ EvalOutcome.ret jobs' evs w := by
  have h : eval sysOk initjobs "sleep 5\n" (-1) =
      EvalOutcome.exit 1 [Ev.blockSignals [Sig.SIGINT, Sig.SIGTSTP], Ev.fork (-1),
        Ev.print Out.perrorFork] := by decide
  refine ⟨h, fun jobs' evs w hret => ?_⟩
  rw [h] at hret
  cases hret

/-- C20, amended: for every command line that is not a builtin, if `fork` fails
in `eval` (returns a negative value), the failure is reported with
`perror("fork")` and the shell process terminates with `exit(1)`; no job-table
operation precedes the exit. -/
theorem fork_failure_exits_shell (sys : Sys) (jobs : List job_t) (cmdline : String)
    (toks : List String) (fork_pid : Int)
    (hparse : parseline cmdline = some toks) (hne : toks ≠ [])
    (hnb : builtin_cmd jobs (stripBackground toks) = BuiltinOutcome.notBuiltin)
    (hfail : fork_pid < 0) :
    eval sys jobs cmdline fork_pid =
      EvalOutcome.exit 1 [Ev.blockSignals [Sig.SIGINT, Sig.SIGTSTP], Ev.fork fork_pid,
        Ev.print Out.perrorFork] := by
  rw [eval_of_notBuiltin sys jobs cmdline toks fork_pid hparse hne hnb, if_pos hfail]

/-- C20, amended, at the line `sleep 5 &` on the table that holds jobs 1, 2, 3. -/
theorem fork_failure_exits_shell_witness :
    eval sysOk jobsOneTwoThree "sleep 5 &\n" (-1) =
      EvalOutcome.exit 1 [Ev.blockSignals [Sig.SIGINT, Sig.SIGTSTP], Ev.fork (-1),
        Ev.print Out.perrorFork] :=
  fork_failure_exits_shell sysOk jobsOneTwoThree "sleep 5 &\n" ["sleep", "5", "&"] (-1)
    (by decide) (by decide) (by decide) (by decide)

theorem killCount_append (a b : List Ev) : killCount (a ++ b) = killCount a + killCount b := by
  induction a with
  | nil => simp [killCount]
  | cons x xs ih =>
    cases x <;> simp [killCount, ih]
    omega

theorem killCount_print (out : List Out) : killCount (out.map Ev.print) = 0 := by
  induction out with
  | nil => rfl
  | cons x xs ih => simpa [killCount] using ih

theorem killCount_parentTrace (bg : Bool) (fork_pid : Int) (out : List Out)
    (jobs' : List job_t) (cmdline : String) :
    killCount (parentTrace bg fork_pid out jobs' cmdline) = 0 := by
  unfold parentTrace
  rw [killCount_append, killCount_append, killCount_print]
  cases bg <;> simp [killCount]

theorem fgpid_of_noFG {jobs : List job_t} (h : ∀ j ∈ jobs, j.state ≠ FG) : fgpid jobs = 0 := by
  induction jobs with
  | nil => rfl
  | cons x xs ih =>
    have hx := h x (List.mem_cons_self _ _)
    simp only [fgpid, hx, if_false]
    exact ih (fun j hj => h j (List.mem_cons_of_mem _ hj))

/-- On a full well-formed table `addjob` prints its message and changes nothing. -/
theorem addjob_full {jobs : List job_t} (hwf : WellFormed jobs) (hfull : ¬ HasFreeSlot jobs)
    (pid state : Int) (cmdline : String) (hpid : 1 ≤ pid) :
    addjob jobs pid state cmdline = some (0, jobs, [Out.tooManyJobs]) := by
  rcases freejid_spec hwf with ⟨_, h0⟩ | ⟨hf, _⟩
  · have hp : ¬ pid < 1 := by omega
    simp [addjob, hp, h0]
  · exact absurd hf hfull

/-- C19, counterexample: with sixteen jobs in the table, the line `sleep 5` is
still forked (pid 200); the child runs the program, the shell prints the
message of `addjob` and sends no signal to the process it forked. -/
theorem full_table_counterexample :
    eval sysOk jobsFull "sleep 5\n" 200 =
      EvalOutcome.ret jobsFull
        [Ev.blockSignals [Sig.SIGINT, Sig.SIGTSTP], Ev.fork 200, Ev.waitReady,
          Ev.print Out.tooManyJobs, Ev.restoreSignals] (some 200) ∧
    eval sysOk jobsFull "sleep 5\n" 0 =
      EvalOutcome.inChild (ChildOutcome.launched []
        ⟨PGroup.ofLeader, Fd.shellStdin, Fd.shellStdout, some "sleep", ["sleep", "5"]⟩ 0) ∧
    killCount (evalTrace (eval sysOk jobsFull "sleep 5\n" 200)) = 0 := by
  refine ⟨by decide, by decide, by decide⟩

/-- C19, amended: for every command line that is not a builtin, evaluated on a
well-formed table whose `MAXJOBS` slots are all occupied (and, as whenever the
main thread calls `eval`, without an entry in state `FG`), `eval` reports the
failure (`addjob` prints `Tried to create too many jobs`), leaves the job table
unchanged and returns without blocking in `waitfg`; the launch is not
abandoned: the leader was forked before `addjob` ran, `eval` sends it no
signal, and in the child the command line is run as on any other table. -/
theorem full_table_launch_not_abandoned (sys : Sys) (jobs : List job_t) (cmdline : String)
    (toks : List String) (fork_pid : Int)
    (hparse : parseline cmdline = some toks) (hne : toks ≠ [])
    (hnb : builtin_cmd jobs (stripBackground toks) = BuiltinOutcome.notBuiltin)
    (hpid : 0 < fork_pid) (hwf : WellFormed jobs) (hfull : ∀ j ∈ jobs, j.pid ≠ 0)
    (hnofg : ∀ j ∈ jobs, j.state ≠ FG) :
    (∃ (evs : List Ev) (w : Option Int),
      eval sys jobs cmdline fork_pid = EvalOutcome.ret jobs evs w ∧
      Ev.print Out.tooManyJobs ∈ evs ∧ forkCount evs = 1 ∧ killCount evs = 0 ∧
      ∀ p, w = some p → waitfgBlocks jobs p = false) ∧
    eval sys jobs cmdline 0 =
      EvalOutcome.inChild (evalChild sys (stripBackground toks) toks.length) := by
  refine ⟨?_, eval_in_child sys jobs cmdline toks hparse hne hnb⟩
  have hfull' : ¬ HasFreeSlot jobs := by
    rintro ⟨j, hj, hp⟩
    exact hfull j hj hp
  have hadd := addjob_full hwf hfull' fork_pid (if isBackground toks then BG else FG) cmdline
    (by omega)
  have h1 : ¬ fork_pid < 0 := by omega
  have h2 : ¬ fork_pid = 0 := by omega
  refine ⟨parentTrace (isBackground toks) fork_pid [Out.tooManyJobs] jobs cmdline,
    if isBackground toks then none else some fork_pid, ?_, ?_, forkCount_parentTrace _ _ _ _ _,
    killCount_parentTrace _ _ _ _ _, fun p hp => ?_⟩
  · rw [eval_of_notBuiltin sys jobs cmdline toks fork_pid hparse hne hnb, if_neg h1, if_neg h2,
      hadd]
  · simp [parentTrace]
  · have hp' : p = fork_pid := by
      split at hp
      · cases hp
      · exact (Option.some.inj hp).symm
    simp only [waitfgBlocks, fgpid_of_noFG hnofg, hp']
    exact decide_eq_false (by omega)

/-- C19, amended, at the line `sleep 5` on the table with sixteen jobs. -/
theorem full_table_launch_not_abandoned_witness :
    (∃ (evs : List Ev) (w : Option Int),
      eval sysOk jobsFull "sleep 5\n" 200 = EvalOutcome.ret jobsFull evs w ∧
      Ev.print Out.tooManyJobs ∈ evs ∧ forkCount evs = 1 ∧ killCount evs = 0 ∧
      ∀ p, w = some p → waitfgBlocks jobsFull p = false) ∧
    eval sysOk jobsFull "sleep 5\n" 0 =
      EvalOutcome.inChild (evalChild sysOk (stripBackground ["sleep", "5"]) ["sleep", "5"].length) :=
  full_table_launch_not_abandoned sysOk jobsFull "sleep 5\n" ["sleep", "5"] 200 (by decide)
    (by decide) (by decide) (by decide) (by decide) (by decide) (by decide)

/-! ## eval: the background marker -/

theorem specBackground_eq (toks : List String) :
    specBackground toks = (stripBackground toks, isBackground toks) := by
  rcases List.eq_nil_or_concat toks with rfl | ⟨l, a, rfl⟩
  · rfl
  · rw [List.concat_eq_append]
    unfold specBackground stripBackground isBackground
    rw [List.reverse_concat, List.getLast?_concat, List.dropLast_concat]
    by_cases ha : a = "&"
    · simp [ha]
    · simp [ha]

/-- C17: for every input line whose token sequence is not empty, if the last
token is exactly `&`, `eval` hands the sequence without it to the builtin
dispatcher and to the launcher (the code of the child) and marks the job as
background (`addjob` is called with `BG`, `waitfg` is not called); otherwise
the token sequence is handed on unchanged and the job is foreground (`addjob`
is called with `FG`, then `waitfg`). -/
theorem background_marker_removed (sys : Sys) (jobs : List job_t) (cmdline : String)
    (toks : List String) (fork_pid : Int)
    (hparse : parseline cmdline = some toks) (hne : toks ≠ []) :
    (toks.getLast? = some "&" → specBackground toks = (toks.dropLast, true)) ∧
    (toks.getLast? ≠ some "&" → specBackground toks = (toks, false)) ∧
    (builtin_cmd jobs (specBackground toks).1 = BuiltinOutcome.crash →
      eval sys jobs cmdline fork_pid = EvalOutcome.crash) ∧
    (builtin_cmd jobs (specBackground toks).1 = BuiltinOutcome.quit →
      eval sys jobs cmdline fork_pid = EvalOutcome.exit 1 []) ∧
    (∀ r, builtin_cmd jobs (specBackground toks).1 = BuiltinOutcome.handled r →
      eval sys jobs cmdline fork_pid = EvalOutcome.ret r.jobs r.evs r.waitfg) ∧
    (builtin_cmd jobs (specBackground toks).1 = BuiltinOutcome.notBuiltin →
      eval sys jobs cmdline 0 =
        EvalOutcome.inChild (evalChild sys (specBackground toks).1 toks.length) ∧
      (0 < fork_pid →
        ∀ r, addjob jobs fork_pid (if (specBackground toks).2 then BG else FG) cmdline = some r →
          eval sys jobs cmdline fork_pid =
            EvalOutcome.ret r.2.1
              (parentTrace (specBackground toks).2 fork_pid r.2.2 r.2.1 cmdline)
              (if (specBackground toks).2 then none else some fork_pid))) := by
  rw [specBackground_eq]
  refine ⟨fun h => ?_, fun h => ?_, fun h => ?_, fun h => ?_, fun r h => ?_, fun h => ⟨?_, ?_⟩⟩
  · simp [stripBackground, isBackground, h]
  · simp [stripBackground, isBackground, h]
  · simp only [eval, hparse, hne, if_false, h]
  · simp only [eval, hparse, hne, if_false, h]
  · simp only [eval, hparse, hne, if_false, h]
  · exact eval_in_child sys jobs cmdline toks hparse hne h
  · intro hpid r hadd
    have h1 : ¬ fork_pid < 0 := by omega
    have h2 : ¬ fork_pid = 0 := by omega
    rw [eval_of_notBuiltin sys jobs cmdline toks fork_pid hparse hne h, if_neg h1, if_neg h2]
    simp only [] at hadd ⊢
    rw [hadd]

/-- C17, at the line `sleep 5 &` on the empty table: the child receives
`sleep 5`, the job is added in state `BG`. -/
theorem background_marker_removed_witness :
    specBackground ["sleep", "5", "&"] = (["sleep", "5"], true) ∧
    eval sysOk initjobs "sleep 5 &\n" 0 =
      EvalOutcome.inChild (evalChild sysOk (specBackground ["sleep", "5", "&"]).1
        ["sleep", "5", "&"].length) ∧
    eval sysOk initjobs "sleep 5 &\n" 100 =
      EvalOutcome.ret jobsSleepBG
        (parentTrace (specBackground ["sleep", "5", "&"]).2 100 [] jobsSleepBG "sleep 5 &\n")
        (if (specBackground ["sleep", "5", "&"]).2 then none else some 100) :=
  ⟨(background_marker_removed sysOk initjobs "sleep 5 &\n" ["sleep", "5", "&"] 100
      (by decide) (by decide)).1 (by decide),
   ((background_marker_removed sysOk initjobs "sleep 5 &\n" ["sleep", "5", "&"] 100
      (by decide) (by decide)).2.2.2.2.2 (by decide)).1,
   ((background_marker_removed sysOk initjobs "sleep 5 &\n" ["sleep", "5", "&"] 100
      (by decide) (by decide)).2.2.2.2.2 (by decide)).2 (by decide) (1, jobsSleepBG, [])
      (by decide)⟩

/-! ## eval: the signal mask -/

theorem blockedSignals_append (a b : List Ev) :
    blockedSignals (a ++ b) = blockedSignals a ++ blockedSignals b := by
  induction a with
  | nil => simp [blockedSignals]
  | cons x xs ih => cases x <;> simp [blockedSignals, ih]

theorem blockedSignals_print (out : List Out) : blockedSignals (out.map Ev.print) = [] := by
  induction out with
  | nil => rfl
  | cons x xs ih => simpa [blockedSignals] using ih

theorem blockedSignals_parentTrace (bg : Bool) (fork_pid : Int) (out : List Out)
    (jobs' : List job_t) (cmdline : String) :
    blockedSignals (parentTrace bg fork_pid out jobs' cmdline) = [Sig.SIGINT, Sig.SIGTSTP] := by
  unfold parentTrace
  rw [blockedSignals_append, blockedSignals_append, blockedSignals_print]
  cases bg <;> simp [blockedSignals]

theorem blockedSignals_bgfgBranch (jobs : List job_t) (cmd : String) (argv : List String) :
    blockedSignals (bgfgBranch jobs cmd argv).evs = [] := by
  unfold bgfgBranch
  simp only []
  split
  · rfl
  · split
    · split
      · rfl
      · split
        · rfl
        · split <;> rfl
    · split
      · rfl
      · split
        · rfl
        · split <;> rfl

theorem blockedSignals_builtin_cmd (jobs : List job_t) (argv : List String) (r : BuiltinResult)
    (h : builtin_cmd jobs argv = BuiltinOutcome.handled r) : blockedSignals r.evs = [] := by
  unfold builtin_cmd at h
  split at h
  · cases h
  · split at h
    · cases h
    · split at h
      · cases h
        exact blockedSignals_print _
      · split at h
        · cases h
          unfold do_bgfg
          split
          · exact blockedSignals_bgfgBranch _ _ _
          · split
            · exact blockedSignals_bgfgBranch _ _ _
            · rfl
        · cases h

/-- The signals `eval` blocks, whatever the line: none, or `SIGINT` and `SIGTSTP`. -/
theorem blockedSignals_eval (sys : Sys) (jobs : List job_t) (cmdline : String) (fork_pid : Int) :
    blockedSignals (evalTrace (eval sys jobs cmdline fork_pid)) = [] ∨
    blockedSignals (evalTrace (eval sys jobs cmdline fork_pid)) = [Sig.SIGINT, Sig.SIGTSTP] := by
  unfold eval
  split
  · exact Or.inl rfl
  · split
    · exact Or.inl rfl
    · simp only []
      split
      · exact Or.inl rfl
      · exact Or.inl rfl
      · rename_i r hr
        exact Or.inl (blockedSignals_builtin_cmd _ _ r hr)
      · split
        · exact Or.inr rfl
        · split
          · exact Or.inl rfl
          · split
            · exact Or.inl rfl
            · exact Or.inr (blockedSignals_parentTrace _ _ _ _ _)

/-- C12, counterexample: for the line `sleep 5` (forked as pid 100) the only
`sigprocmask(SIG_BLOCK, ...)` of `eval` comes before the `fork` and blocks
`SIGINT` and `SIGTSTP`; `SIGCHLD` is not in the set, so it is deliverable
between the `fork` and `addjob`. -/
theorem sigchld_not_blocked_counterexample :
    eval sysOk initjobs "sleep 5\n" 100 =
      EvalOutcome.ret ([⟨100, 1, FG, "sleep 5\n"⟩] ++ List.replicate 15 emptySlot)
        [Ev.blockSignals [Sig.SIGINT, Sig.SIGTSTP], Ev.fork 100, Ev.waitReady,
          Ev.restoreSignals] (some 100) ∧
    blockedSignals (evalTrace (eval sysOk initjobs "sleep 5\n" 100)) =
      [Sig.SIGINT, Sig.SIGTSTP] ∧
    Sig.SIGCHLD ∉ blockedSignals (evalTrace (eval sysOk initjobs "sleep 5\n" 100)) := by
  refine ⟨by decide, by decide, by decide⟩

/-- C12, amended: in `eval` the signals blocked during the window from before
the `fork` to after `addjob` are `SIGINT` and `SIGTSTP` (blocked before the
`fork`, the old mask restored right after `addjob`); `SIGCHLD` is never
blocked by `eval`, so the mask does not keep the child-state handler from
running between the `fork` and the registration of the job. -/
theorem eval_blocks_sigint_sigtstp_only (sys : Sys) (jobs : List job_t) (cmdline : String)
    (fork_pid : Int) :
    Sig.SIGCHLD ∉ blockedSignals (evalTrace (eval sys jobs cmdline fork_pid)) ∧
    ∀ (toks : List String) (r : Int × List job_t × List Out),
      parseline cmdline = some toks → toks ≠ [] →
      builtin_cmd jobs (stripBackground toks) = BuiltinOutcome.notBuiltin → 0 < fork_pid →
      addjob jobs fork_pid (if isBackground toks then BG else FG) cmdline = some r →
      evalTrace (eval sys jobs cmdline fork_pid) =
        [Ev.blockSignals [Sig.SIGINT, Sig.SIGTSTP], Ev.fork fork_pid, Ev.waitReady] ++
          r.2.2.map Ev.print ++
          (Ev.restoreSignals ::
            (if isBackground toks then
              [Ev.print (Out.jobStarted (pid2jid r.2.1 fork_pid) fork_pid cmdline)]
            else [])) := by
  constructor
  · rcases blockedSignals_eval sys jobs cmdline fork_pid with h | h
    · rw [h]
      simp
    · rw [h]
      decide
  · intro toks r hparse hne hnb hpid hadd
    have h1 : ¬ fork_pid < 0 := by omega
    have h2 : ¬ fork_pid = 0 := by omega
    rw [eval_of_notBuiltin sys jobs cmdline toks fork_pid hparse hne hnb, if_neg h1, if_neg h2,
      hadd]
    simp only [evalTrace, parentTrace]
    cases isBackground toks <;> simp

/-- C12, amended, at the line `sleep 5 &` on the empty table. -/
theorem eval_blocks_sigint_sigtstp_only_witness :
    Sig.SIGCHLD ∉ blockedSignals (evalTrace (eval sysOk initjobs "sleep 5 &\n" 100)) ∧
    evalTrace (eval sysOk initjobs "sleep 5 &\n" 100) =
      [Ev.blockSignals [Sig.SIGINT, Sig.SIGTSTP], Ev.fork 100, Ev.waitReady] ++
        ([] : List Out).map Ev.print ++
        (Ev.restoreSignals ::
          (if isBackground ["sleep", "5", "&"] then
            [Ev.print (Out.jobStarted (pid2jid jobsSleepBG 100) 100 "sleep 5 &\n")]
          else [])) :=
  ⟨(eval_blocks_sigint_sigtstp_only sysOk initjobs "sleep 5 &\n" 100).1,
   (eval_blocks_sigint_sigtstp_only sysOk initjobs "sleep 5 &\n" 100).2 ["sleep", "5", "&"]
     (1, jobsSleepBG, []) (by decide) (by decide) (by decide) (by decide) (by decide)⟩

/-! ## The tokenizer: blank lines -/

theorem skipSpaces_replicate (n : Nat) (rest : List Char) :
    skipSpaces (List.replicate n ' ' ++ rest) = skipSpaces rest := by
  induction n with
  | zero => rfl
  | succ n ih => simpa [List.replicate_succ, skipSpaces] using ih

/-- C18, counterexample: the line that consists of one tab and the newline has
the token that consists of the tab; `eval` forks for it and adds a job. -/
theorem tab_line_counterexample :
    parseline (String.mk [tabChar, newlineChar]) = some [String.mk [tabChar]] ∧
    eval sysOk initjobs (String.mk [tabChar, newlineChar]) 100 =
      EvalOutcome.ret
        ([⟨100, 1, FG, String.mk [tabChar, newlineChar]⟩] ++ List.replicate 15 emptySlot)
        [Ev.blockSignals [Sig.SIGINT, Sig.SIGTSTP], Ev.fork 100, Ev.waitReady,
          Ev.restoreSignals] (some 100) := by
  refine ⟨by decide, by decide⟩

/-- C18, amended: for every input line that consists only of spaces followed by
the newline (and fits `MAXLINE`), `parseline` returns the empty token sequence
and `eval` is a no-op: it dispatches no builtin, creates no process and leaves
the job table unchanged. A tab is not skipped: it is a token character. -/
theorem blank_line_is_noop (sys : Sys) (jobs : List job_t) (n : Nat) (fork_pid : Int)
    (hn : n + 1 < MAXLINE) :
    parseline (String.mk (List.replicate n ' ' ++ [newlineChar])) = some [] ∧
    eval sys jobs (String.mk (List.replicate n ' ' ++ [newlineChar])) fork_pid =
      EvalOutcome.ret jobs [] none := by
  have htok : parseTokens (List.replicate n ' ' ++ [newlineChar]) = [] := by
    unfold parseTokens
    rw [List.dropLast_concat, skipSpaces_replicate]
    simp [skipSpaces, parseLoop, findDelim]
  have hlen : (String.mk (List.replicate n ' ' ++ [newlineChar])).length = n + 1 := by
    simp [String.length]
  have hparse : parseline (String.mk (List.replicate n ' ' ++ [newlineChar])) = some [] := by
    unfold parseline
    rw [hlen]
    have h1 : ¬ MAXLINE ≤ n + 1 := by omega
    simp [htok, h1, MAXARGS]
  exact ⟨hparse, by simp [eval, hparse]⟩

/-- C18, amended, at the line of three spaces and the newline. -/
theorem blank_line_is_noop_witness :
    parseline (String.mk (List.replicate 3 ' ' ++ [newlineChar])) = some [] ∧
    eval sysOk jobsOneTwoThree (String.mk (List.replicate 3 ' ' ++ [newlineChar])) 100 =
      EvalOutcome.ret jobsOneTwoThree [] none :=
  blank_line_is_noop sysOk jobsOneTwoThree 3 100 (by decide)

/-! ## The child-state handler against its specification -/

theorem specReapEntry_of_ne (pid : Int) (status : Status) (l : List job_t)
    (h : ∀ j ∈ l, j.pid ≠ pid) : l.map (specReapEntry pid status) = l := by
  induction l with
  | nil => rfl
  | cons x xs ih =>
    have hx := h x (List.mem_cons_self _ _)
    simp only [List.map_cons, specReapEntry, hx, if_false]
    rw [show List.map (specReapEntry pid status) xs = xs from
      ih (fun j hj => h j (List.mem_cons_of_mem _ hj))]

theorem no_pid_after_of_count {l1 l2 : List job_t} {e : job_t} {pid : Int} (he : e.pid = pid)
    (hcount : ((l1 ++ e :: l2).filter (fun j => decide (j.pid = pid))).length ≤ 1) :
    ∀ x ∈ l2, x.pid ≠ pid := by
  intro x hx hxp
  have hlen : (List.filter (fun j => decide (j.pid = pid)) l2).length = 0 := by
    rw [List.filter_append, List.filter_cons] at hcount
    simp only [he, decide_True, if_true, List.length_append, List.length_cons] at hcount
    omega
  have hmem : x ∈ List.filter (fun j => decide (j.pid = pid)) l2 :=
    List.mem_filter.2 ⟨hx, by simpa using hxp⟩
  rw [List.length_eq_zero] at hlen
  rw [hlen] at hmem
  simp at hmem

/-- Where `sigchld_handler` gets through one state change of a pid that at most
one entry holds, the table afterwards is the one the specification describes. -/
theorem sigchldOne_spec (jobs jobs' : List job_t) (pid : Int) (status : Status) (evs : List Ev)
    (hpid : 0 < pid)
    (hcount : (jobs.filter (fun j => decide (j.pid = pid))).length ≤ 1)
    (h : sigchldOne jobs pid status = some (jobs', evs)) :
    jobs' = specReapOne jobs pid status := by
  have hdel : (deletejob jobs pid).2 = jobs.map (fun j => if j.pid = pid then emptySlot else j) := by
    have hp : ¬ pid < 1 := by omega
    simp only [deletejob, hp, if_false]
    rcases deletejobLoop_spec pid jobs with ⟨h1, h2⟩ | ⟨l1, e, l2, e1, e2, e3, e4⟩
    · rw [h1]
      symm
      calc jobs.map (fun j => if j.pid = pid then emptySlot else j)
          = jobs.map (specReapEntry pid (Status.exited 0)) := by
            apply List.map_congr_left
            intro j _
            simp [specReapEntry]
        _ = jobs := specReapEntry_of_ne pid _ jobs h2
    · rw [e4]
      subst e1
      have hl2 := no_pid_after_of_count e3 hcount
      have m1 : l1.map (fun j => if j.pid = pid then emptySlot else j) = l1 := by
        have := specReapEntry_of_ne pid (Status.exited 0) l1 e2
        simpa [specReapEntry] using this
      have m2 : l2.map (fun j => if j.pid = pid then emptySlot else j) = l2 := by
        have := specReapEntry_of_ne pid (Status.exited 0) l2 hl2
        simpa [specReapEntry] using this
      rw [List.map_append, List.map_cons, m1, m2]
      simp [e3, clearjob, emptySlot]
  cases status with
  | exited c =>
    simp only [sigchldOne, Option.some.injEq, Prod.mk.injEq] at h
    rw [← h.1, hdel]
    simp [specReapOne, specReapEntry]
  | signaled sig =>
    simp only [sigchldOne, Option.some.injEq, Prod.mk.injEq] at h
    rw [← h.1, hdel]
    simp [specReapOne, specReapEntry]
  | stopped sig =>
    simp only [sigchldOne] at h
    cases hg : getjobpid jobs pid with
    | none => rw [hg] at h; cases h
    | some idx =>
      rw [hg] at h
      simp only [Option.some.injEq, Prod.mk.injEq] at h
      rw [← h.1]
      unfold getjobpid at hg
      split at hg
      · cases hg
      · obtain ⟨l1, e, l2, e1, e2, e3, e4⟩ := findSlot_some _ jobs idx hg
        subst e1 e2
        have he : e.pid = pid := of_decide_eq_true e3
        have hl1 : ∀ x ∈ l1, x.pid ≠ pid := fun x hx => of_decide_eq_false (e4 x hx)
        have hl2 := no_pid_after_of_count he hcount
        rw [setState_append_cons]
        simp only [specReapOne, List.map_append, List.map_cons,
          specReapEntry_of_ne pid _ l1 hl1, specReapEntry_of_ne pid _ l2 hl2]
        simp [specReapEntry, he]
  | other =>
    simp only [sigchldOne, Option.some.injEq, Prod.mk.injEq] at h
    rw [← h.1]
    have hid : ∀ j, specReapEntry pid Status.other j = j := by
      intro j
      unfold specReapEntry
      split <;> rfl
    have hmap : List.map (specReapEntry pid Status.other) jobs = jobs := by
      rw [show specReapEntry pid Status.other = id from funext hid]
      exact List.map_id jobs
    simp only [specReapOne, hmap]

theorem specReapEntry_pid (pid : Int) (status : Status) (j : job_t) (p : Int) (hp : 0 < p)
    (h : (specReapEntry pid status j).pid = p) : j.pid = p := by
  unfold specReapEntry at h
  split at h
  · cases status with
    | exited c =>
      simp only [emptySlot] at h
      omega
    | signaled sig =>
      simp only [emptySlot] at h
      omega
    | stopped sig => exact h
    | other => exact h
  · exact h

theorem pidsDistinct_specReapOne {jobs : List job_t} (h : PidsDistinct jobs) (pid : Int)
    (status : Status) : PidsDistinct (specReapOne jobs pid status) := by
  intro p hp
  refine le_trans ?_ (h p hp)
  unfold specReapOne
  clear h
  induction jobs with
  | nil => simp
  | cons x xs ih =>
    rw [List.map_cons, List.filter_cons, List.filter_cons]
    by_cases hx : (specReapEntry pid status x).pid = p
    · have hx' := specReapEntry_pid pid status x p hp hx
      simp only [hx, hx', decide_True, if_true, List.length_cons]
      omega
    · simp only [hx, decide_False, Bool.false_eq_true, if_false]
      split
      · simp only [List.length_cons]
        omega
      · exact ih

/-- Where `sigchld_handler` gets through a sequence of state changes on a table
with distinct pids, the table afterwards is the one the specification
describes. -/
theorem sigchld_handler_spec (reaped : List (Int × Status)) :
    ∀ (jobs jobs' : List job_t) (evs : List Ev), PidsDistinct jobs →
      (∀ r ∈ reaped, 0 < r.1) → sigchld_handler jobs reaped = some (jobs', evs) →
      jobs' = specReap jobs reaped := by
  induction reaped with
  | nil =>
    intro jobs jobs' evs _ _ h
    simp only [sigchld_handler, Option.some.injEq, Prod.mk.injEq] at h
    rw [← h.1]
    rfl
  | cons r rest ih =>
    intro jobs jobs' evs hd hpos h
    obtain ⟨job_pid, status⟩ := r
    have hp : 0 < job_pid := hpos (job_pid, status) (List.mem_cons_self _ _)
    simp only [sigchld_handler] at h
    cases h1 : sigchldOne jobs job_pid status with
    | none => rw [h1] at h; cases h
    | some r1 =>
      obtain ⟨jobs1, evs1⟩ := r1
      rw [h1] at h
      simp only [] at h
      cases h2 : sigchld_handler jobs1 rest with
      | none => rw [h2] at h; cases h
      | some r2 =>
        obtain ⟨jobs2, evs2⟩ := r2
        rw [h2] at h
        simp only [Option.some.injEq, Prod.mk.injEq] at h
        have e1 := sigchldOne_spec jobs jobs1 job_pid status evs1 hp (hd job_pid hp) h1
        rw [← h.1, ih jobs1 jobs2 evs2 (by rw [e1]; exact pidsDistinct_specReapOne hd _ _)
          (fun r hr => hpos r (List.mem_cons_of_mem _ hr)) h2, e1]
        rfl

/-- C11, the code at a stopped child that has no entry: on the table with
sixteen jobs the pid 200 (the process forked for a seventeenth line) is held by
no entry, `getjobpid` returns `NULL`, and `sigchld_handler` assigns
`job->state = ST` through it, where the specification leaves the table as it
is. -/
theorem sigchld_stopped_without_entry :
    getjobpid jobsFull 200 = none ∧
    sigchld_handler jobsFull [(200, Status.stopped 19)] = none ∧
    specReap jobsFull [(200, Status.stopped 19)] = jobsFull ∧
    sigchld_handler jobsFull [(200, Status.exited 0)] = some (jobsFull, []) := by
  refine ⟨by decide, by decide, by decide, by decide⟩

/-! ## bg and fg -/

theorem digitsValue_eq_foldl (s : List Char) (h : ∀ c ∈ s, c.isDigit = true) :
    ∀ acc, digitsValue s acc = s.foldl (fun v c => v * 10 + (c.toNat - 48)) acc := by
  induction s with
  | nil => intro acc; rfl
  | cons c cs ih =>
    intro acc
    have hc := h c (List.mem_cons_self _ _)
    simp only [digitsValue, hc, if_true, List.foldl_cons]
    exact ih (fun x hx => h x (List.mem_cons_of_mem _ hx)) _

theorem atol_of_decimal {s : List Char} {n : Nat} (hdec : IsDecimal s n) (hn : n < 2 ^ 31) :
    toInt32 (atol s) = (n : Int) := by
  obtain ⟨_, hdig, hval⟩ := hdec
  have hv : digitsValue s 0 = n := by rw [digitsValue_eq_foldl s hdig, hval]
  unfold toInt32 atol
  rw [hv]
  have h1 : ((n : Int)) < 2 ^ 31 := by exact_mod_cast hn
  have h2 : (0 : Int) ≤ n := Int.natCast_nonneg n
  have h3 : min (n : Int) (2 ^ 63 - 1) = n := by
    apply min_eq_left
    norm_num at h1 ⊢
    omega
  rw [h3]
  norm_num at h1 ⊢
  omega

theorem digit_ne_percent {c : Char} (h : c.isDigit = true) : c ≠ '%' := by
  rintro rfl
  revert h
  decide

theorem findSlot_append_cons (test : job_t → Bool) (l1 l2 : List job_t) (e : job_t)
    (h1 : ∀ x ∈ l1, test x = false) (he : test e = true) :
    findSlot test (l1 ++ e :: l2) = some l1.length := by
  induction l1 with
  | nil => simp [findSlot, he]
  | cons x xs ih =>
    have hx := h1 x (List.mem_cons_self _ _)
    have ih' := ih (fun y hy => h1 y (List.mem_cons_of_mem _ hy))
    show findSlot test (x :: (xs ++ e :: l2)) = some (xs.length + 1)
    simp only [findSlot, hx, Bool.false_eq_true, if_false, ih']
    rfl

/-- The `bg` or `fg` branch with a pid target that `getjobpid` finds in slot `idx`. -/
theorem bgfgBranch_pid_found (jobs : List job_t) (cmd arg : String) (idx : Nat)
    (hnp : arg.data.head? ≠ some '%') (hd : (arg.data.getD 0 (Char.ofNat 0)).isDigit = true)
    (hg : getjobpid jobs (toInt32 (atol arg.data)) = some idx) :
    bgfgBranch jobs cmd [cmd, arg] =
      if cmd = "bg" then
        ⟨setState BG idx jobs,
          [Ev.kill (-(jobs.getD idx (clearjob ⟨0, 0, 0, ""⟩)).pid) Sig.SIGCONT,
            Ev.print (Out.jobStarted (jobs.getD idx (clearjob ⟨0, 0, 0, ""⟩)).jid
              (toInt32 (atol arg.data)) (jobs.getD idx (clearjob ⟨0, 0, 0, ""⟩)).cmdline)],
          none⟩
      else
        ⟨setState FG idx jobs,
          [Ev.kill (-(jobs.getD idx (clearjob ⟨0, 0, 0, ""⟩)).pid) Sig.SIGCONT],
          some (toInt32 (atol arg.data))⟩ := by
  unfold bgfgBranch
  simp only [List.length_cons, List.length_nil, List.getD_cons_succ, List.getD_cons_zero]
  rw [if_neg (by simp), if_neg hnp, if_neg (by rw [hd]; decide), hg]

/-- The `bg` or `fg` branch with a job-id target that `getjobjid` finds in slot `idx`. -/
theorem bgfgBranch_jid_found (jobs : List job_t) (cmd arg : String) (idx : Nat)
    (hp : arg.data.head? = some '%') (hd : (arg.data.getD 1 (Char.ofNat 0)).isDigit = true)
    (hg : getjobjid jobs (toInt32 (atol ((arg.data.drop 1).take (MAXARGS - 1)))) = some idx) :
    bgfgBranch jobs cmd [cmd, arg] =
      if cmd = "bg" then
        ⟨setState BG idx jobs,
          [Ev.kill (-(jobs.getD idx (clearjob ⟨0, 0, 0, ""⟩)).pid) Sig.SIGCONT,
            Ev.print (Out.jobStarted (toInt32 (atol ((arg.data.drop 1).take (MAXARGS - 1))))
              (jobs.getD idx (clearjob ⟨0, 0, 0, ""⟩)).pid
              (jobs.getD idx (clearjob ⟨0, 0, 0, ""⟩)).cmdline)],
          none⟩
      else
        ⟨setState FG idx jobs,
          [Ev.kill (-(jobs.getD idx (clearjob ⟨0, 0, 0, ""⟩)).pid) Sig.SIGCONT],
          some (jobs.getD idx (clearjob ⟨0, 0, 0, ""⟩)).pid⟩ := by
  unfold bgfgBranch
  simp only [List.length_cons, List.length_nil, List.getD_cons_succ, List.getD_cons_zero]
  rw [if_neg (by simp), if_pos hp, if_neg (by rw [hd]; decide), hg]

theorem do_bgfg_eq_branch (jobs : List job_t) (cmd arg : String)
    (hcmd : cmd = "bg" ∨ cmd = "fg") :
    do_bgfg jobs [cmd, arg] = bgfgBranch jobs cmd [cmd, arg] := by
  rcases hcmd with rfl | rfl
  · simp [do_bgfg]
  · have : ¬ ("fg" = "bg") := by decide
    simp [do_bgfg, this]

/-- C13: for every job table and every `bg <target>` or `fg <target>` with one
target that resolves to a job `j` of the table (the decimal numeral of the pid
of `j`, or `%` followed by the decimal numeral of the job id of `j`, `j` being
the first entry with that pid or job id), `do_bgfg` sends `SIGCONT` to the
process group `-pid` of `j` and to nothing else, and sets the state of `j` to
`BG` (for `bg`) or `FG` (for `fg`); the pid, job id and command text of `j`
and every other entry of the table are unchanged. After `fg` the shell waits
for the pid of `j` in `waitfg`. -/
theorem do_bgfg_resumes_job (l1 l2 : List job_t) (j : job_t) (cmd : String) (state : Int)
    (digits : List Char) (n : Nat)
    (hcmd : (cmd = "bg" ∧ state = BG) ∨ (cmd = "fg" ∧ state = FG))
    (hdec : IsDecimal digits n) (hn : 1 ≤ n ∧ n < 2 ^ 31) :
    ((n : Int) = j.pid → (∀ x ∈ l1, x.pid ≠ j.pid) →
      (do_bgfg (l1 ++ j :: l2) [cmd, String.mk digits]).jobs =
          l1 ++ { j with state := state } :: l2 ∧
        killsOf (do_bgfg (l1 ++ j :: l2) [cmd, String.mk digits]).evs =
          [(-j.pid, Sig.SIGCONT)] ∧
        (do_bgfg (l1 ++ j :: l2) [cmd, String.mk digits]).waitfg =
          if cmd = "fg" then some j.pid else none) ∧
    ((n : Int) = j.jid → (∀ x ∈ l1, x.jid ≠ j.jid) → digits.length < MAXARGS →
      (do_bgfg (l1 ++ j :: l2) [cmd, String.mk ('%' :: digits)]).jobs =
          l1 ++ { j with state := state } :: l2 ∧
        killsOf (do_bgfg (l1 ++ j :: l2) [cmd, String.mk ('%' :: digits)]).evs =
          [(-j.pid, Sig.SIGCONT)] ∧
        (do_bgfg (l1 ++ j :: l2) [cmd, String.mk ('%' :: digits)]).waitfg =
          if cmd = "fg" then some j.pid else none) := by
  have hcmd' : cmd = "bg" ∨ cmd = "fg" := hcmd.imp And.left And.left
  have hval := atol_of_decimal hdec hn.2
  obtain ⟨hne, hdig, _⟩ := hdec
  obtain ⟨c, cs, rfl⟩ := List.exists_cons_of_ne_nil hne
  have hc : c.isDigit = true := hdig c (List.mem_cons_self _ _)
  have hn1 : (1 : Int) ≤ (n : Int) := by exact_mod_cast hn.1
  constructor
  · intro hpid hfirst
    have hg : getjobpid (l1 ++ j :: l2) (toInt32 (atol (String.mk (c :: cs)).data)) =
        some l1.length := by
      show getjobpid (l1 ++ j :: l2) (toInt32 (atol (c :: cs))) = some l1.length
      rw [hval, hpid]
      unfold getjobpid
      rw [if_neg (by omega)]
      exact findSlot_append_cons _ l1 l2 j (fun x hx => decide_eq_false (hfirst x hx))
        (decide_eq_true rfl)
    rw [do_bgfg_eq_branch _ _ _ hcmd',
      bgfgBranch_pid_found _ cmd _ l1.length
        (by
          show (c :: cs).head? ≠ some '%'
          simp only [List.head?_cons, ne_eq, Option.some.injEq]
          exact digit_ne_percent hc)
        (by
          show ((c :: cs).getD 0 (Char.ofNat 0)).isDigit = true
          simpa using hc) hg]
    have hv : toInt32 (atol (String.mk (c :: cs)).data) = j.pid := by
      show toInt32 (atol (c :: cs)) = j.pid
      rw [hval, hpid]
    rcases hcmd with ⟨rfl, rfl⟩ | ⟨rfl, rfl⟩
    · rw [if_pos rfl]
      refine ⟨?_, ?_, ?_⟩
      · simp only [setState_append_cons]
      · simp only [getD_append_cons, killsOf]
      · rw [if_neg (by decide)]
    · rw [if_neg (by decide)]
      refine ⟨?_, ?_, ?_⟩
      · simp only [setState_append_cons]
      · simp only [getD_append_cons, killsOf]
      · rw [if_pos rfl]
        simp only [hv]
  · intro hjid hfirst hlen
    have htake : (((String.mk ('%' :: c :: cs)).data.drop 1).take (MAXARGS - 1)) = c :: cs := by
      show ((c :: cs).take (MAXARGS - 1)) = c :: cs
      exact List.take_of_length_le (by omega)
    have hg : getjobjid (l1 ++ j :: l2)
        (toInt32 (atol (((String.mk ('%' :: c :: cs)).data.drop 1).take (MAXARGS - 1)))) =
        some l1.length := by
      rw [htake, hval, hjid]
      unfold getjobjid
      rw [if_neg (by omega)]
      exact findSlot_append_cons _ l1 l2 j (fun x hx => decide_eq_false (hfirst x hx))
        (decide_eq_true rfl)
    rw [do_bgfg_eq_branch _ _ _ hcmd',
      bgfgBranch_jid_found _ cmd _ l1.length
        (by
          show ('%' :: c :: cs).head? = some '%'
          rfl)
        (by
          show (('%' :: c :: cs).getD 1 (Char.ofNat 0)).isDigit = true
          simpa using hc) hg]
    rcases hcmd with ⟨rfl, rfl⟩ | ⟨rfl, rfl⟩
    · rw [if_pos rfl]
      refine ⟨?_, ?_, ?_⟩
      · simp only [setState_append_cons]
      · simp only [getD_append_cons, killsOf]
      · rw [if_neg (by decide)]
    · rw [if_neg (by decide)]
      refine ⟨?_, ?_, ?_⟩
      · simp only [setState_append_cons]
      · simp only [getD_append_cons, killsOf]
      · rw [if_pos rfl]
        simp only [getD_append_cons]

/-- C13, at the table with the stopped job (pid 12, job id 1): `bg 12` and
`fg %1` both resume it. -/
theorem do_bgfg_resumes_job_witness :
    ((do_bgfg ([] ++ (⟨12, 1, ST, "sleep 100\n"⟩ : job_t) :: List.replicate 15 emptySlot)
        ["bg", String.mk ['1', '2']]).jobs =
        [] ++ { (⟨12, 1, ST, "sleep 100\n"⟩ : job_t) with state := BG } ::
          List.replicate 15 emptySlot ∧
      killsOf (do_bgfg ([] ++ (⟨12, 1, ST, "sleep 100\n"⟩ : job_t) ::
          List.replicate 15 emptySlot) ["bg", String.mk ['1', '2']]).evs =
        [(-(⟨12, 1, ST, "sleep 100\n"⟩ : job_t).pid, Sig.SIGCONT)] ∧
      (do_bgfg ([] ++ (⟨12, 1, ST, "sleep 100\n"⟩ : job_t) :: List.replicate 15 emptySlot)
        ["bg", String.mk ['1', '2']]).waitfg =
        if "bg" = "fg" then some (⟨12, 1, ST, "sleep 100\n"⟩ : job_t).pid else none) ∧
    ((do_bgfg ([] ++ (⟨12, 1, ST, "sleep 100\n"⟩ : job_t) :: List.replicate 15 emptySlot)
        ["fg", String.mk ('%' :: ['1'])]).jobs =
        [] ++ { (⟨12, 1, ST, "sleep 100\n"⟩ : job_t) with state := FG } ::
          List.replicate 15 emptySlot ∧
      killsOf (do_bgfg ([] ++ (⟨12, 1, ST, "sleep 100\n"⟩ : job_t) ::
          List.replicate 15 emptySlot) ["fg", String.mk ('%' :: ['1'])]).evs =
        [(-(⟨12, 1, ST, "sleep 100\n"⟩ : job_t).pid, Sig.SIGCONT)] ∧
      (do_bgfg ([] ++ (⟨12, 1, ST, "sleep 100\n"⟩ : job_t) :: List.replicate 15 emptySlot)
        ["fg", String.mk ('%' :: ['1'])]).waitfg =
        if "fg" = "fg" then some (⟨12, 1, ST, "sleep 100\n"⟩ : job_t).pid else none) :=
  ⟨(do_bgfg_resumes_job [] (List.replicate 15 emptySlot) ⟨12, 1, ST, "sleep 100\n"⟩ "bg" BG
      ['1', '2'] 12 (Or.inl ⟨rfl, rfl⟩) (by decide) (by decide)).1 (by decide) (by decide),
   (do_bgfg_resumes_job [] (List.replicate 15 emptySlot) ⟨12, 1, ST, "sleep 100\n"⟩ "fg" FG
      ['1'] 1 (Or.inr ⟨rfl, rfl⟩) (by decide) (by decide)).2 (by decide) (by decide)
      (by decide)⟩

theorem skipSpaces_length_le (l : List Char) : (skipSpaces l).length ≤ l.length := by
  induction l with
  | nil => simp [skipSpaces]
  | cons x xs ih =>
    unfold skipSpaces
    split
    · simp only [List.length_cons]
      omega
    · exact le_refl _

theorem strchr_length (c : Char) (l : List Char) :
    ∀ tok rest, strchr c l = some (tok, rest) → rest.length < l.length := by
  induction l with
  | nil =>
    intro tok rest h
    simp [strchr] at h
  | cons x xs ih =>
    intro tok rest h
    unfold strchr at h
    split at h
    · cases h
      simp
    · cases hs : strchr c xs with
      | none =>
        rw [hs] at h
        cases h
      | some r =>
        obtain ⟨t, r'⟩ := r
        rw [hs] at h
        simp only [Option.map_some', Option.some.injEq, Prod.mk.injEq] at h
        have := ih t r' hs
        rw [← h.2]
        simp only [List.length_cons]
        omega

theorem findDelim_length (l : List Char) :
    ∀ tok rest, findDelim l = some (tok, rest) → rest.length < l.length := by
  intro tok rest h
  cases l with
  | nil => simp [findDelim] at h
  | cons x xs =>
    simp only [findDelim] at h
    split at h
    · have := strchr_length _ xs tok rest h
      simp only [List.length_cons]
      omega
    · exact strchr_length _ (x :: xs) tok rest h

theorem parseLoop_succ_some (n : Nat) (buf tok rest : List Char)
    (h : findDelim buf = some (tok, rest)) :
    parseLoop (n + 1) buf = String.mk tok :: parseLoop n (skipSpaces rest) := by
  simp only [parseLoop, h]

/-- The loop of `parseline` gives the same tokens with any bound that is at
least the length of the buffer. -/
theorem parseLoop_fuel (n : Nat) :
    ∀ (m : Nat) (buf : List Char), buf.length ≤ n → buf.length ≤ m →
      parseLoop n buf = parseLoop m buf := by
  induction n with
  | zero =>
    intro m buf hn _
    have hb : buf = [] := List.length_eq_zero.1 (by omega)
    subst hb
    cases m <;> simp [parseLoop, findDelim]
  | succ n ih =>
    intro m buf hn hm
    cases m with
    | zero =>
      have hb : buf = [] := List.length_eq_zero.1 (by omega)
      subst hb
      simp [parseLoop, findDelim]
    | succ m =>
      unfold parseLoop
      cases hf : findDelim buf with
      | none => rfl
      | some r =>
        obtain ⟨tok, rest⟩ := r
        simp only []
        have h1 := findDelim_length buf tok rest hf
        have h2 := skipSpaces_length_le rest
        rw [ih m (skipSpaces rest) (by omega) (by omega)]

theorem tokensFrom_eq (n : Nat) (buf : List Char) (h : buf.length ≤ n) :
    parseLoop n (skipSpaces buf) = tokensFrom buf := by
  have := skipSpaces_length_le buf
  exact parseLoop_fuel n buf.length (skipSpaces buf) (by omega) (by omega)

theorem strchr_append (c : Char) (w rest : List Char) (h : c ∉ w) :
    strchr c (w ++ c :: rest) = some (w, rest) := by
  induction w with
  | nil => simp [strchr]
  | cons x xs ih =>
    have hx : x ≠ c := fun e => h (by simp [e])
    have hxs : c ∉ xs := fun e => h (by simp [e])
    simp [strchr, hx, ih hxs]

theorem tokensFrom_nil : tokensFrom [] = [] := rfl

theorem tokensFrom_space (buf : List Char) : tokensFrom (' ' :: buf) = tokensFrom buf := by
  unfold tokensFrom
  have h : skipSpaces (' ' :: buf) = skipSpaces buf := by simp [skipSpaces]
  rw [h]
  have := skipSpaces_length_le buf
  exact parseLoop_fuel _ _ _ (by simp only [List.length_cons]; omega) (by omega)

theorem tokensFrom_word (w buf : List Char) (hw : PlainWord w) :
    tokensFrom (w ++ ' ' :: buf) = String.mk w :: tokensFrom buf := by
  obtain ⟨hne, hsp, hq⟩ := hw
  obtain ⟨c, cs, rfl⟩ := List.exists_cons_of_ne_nil hne
  have hc : c ≠ ' ' := fun e => hsp (by simp [e])
  have hcq : c ≠ quoteChar := by simpa using hq
  have hskip : skipSpaces (c :: cs ++ ' ' :: buf) = c :: cs ++ ' ' :: buf := by
    simp [skipSpaces, hc]
  have hlen : (c :: cs ++ ' ' :: buf).length = (cs.length + buf.length + 1) + 1 := by
    simp only [List.cons_append, List.length_cons, List.length_append]
    omega
  have hfd : findDelim (c :: cs ++ ' ' :: buf) = some (c :: cs, buf) := by
    show findDelim (c :: (cs ++ ' ' :: buf)) = some (c :: cs, buf)
    simp only [findDelim]
    rw [if_neg hcq]
    exact strchr_append ' ' (c :: cs) buf hsp
  have hstart : tokensFrom (c :: cs ++ ' ' :: buf) =
      parseLoop ((cs.length + buf.length + 1) + 1) (c :: cs ++ ' ' :: buf) := by
    unfold tokensFrom
    rw [hskip, hlen]
  rw [hstart, parseLoop_succ_some _ _ _ _ hfd, tokensFrom_eq _ buf (by omega)]

theorem tokensFrom_quoted (q buf : List Char) (hq : quoteChar ∉ q) :
    tokensFrom (quoteChar :: q ++ quoteChar :: buf) = String.mk q :: tokensFrom buf := by
  have hskip : skipSpaces (quoteChar :: q ++ quoteChar :: buf) =
      quoteChar :: q ++ quoteChar :: buf := by
    show skipSpaces (quoteChar :: (q ++ quoteChar :: buf)) = _
    simp only [skipSpaces]
    rw [if_neg (by decide)]
    rfl
  have hlen : (quoteChar :: q ++ quoteChar :: buf).length = (q.length + buf.length + 1) + 1 := by
    simp only [List.cons_append, List.length_cons, List.length_append]
    omega
  have hfd : findDelim (quoteChar :: q ++ quoteChar :: buf) = some (q, buf) := by
    show findDelim (quoteChar :: (q ++ quoteChar :: buf)) = some (q, buf)
    simp only [findDelim]
    rw [if_pos trivial]
    exact strchr_append quoteChar q buf hq
  have hstart : tokensFrom (quoteChar :: q ++ quoteChar :: buf) =
      parseLoop ((q.length + buf.length + 1) + 1) (quoteChar :: q ++ quoteChar :: buf) := by
    unfold tokensFrom
    rw [hskip, hlen]
  rw [hstart, parseLoop_succ_some _ _ _ _ hfd, tokensFrom_eq _ buf (by omega)]

/-- After a prefix that ends at a token boundary the tokenizer has produced the
tokens of the prefix and goes on with the rest of the buffer. -/
theorem tokensFrom_aligned {pre : List Char} {toks : List String} (h : Aligned pre toks) :
    ∀ buf, tokensFrom (pre ++ buf) = toks ++ tokensFrom buf := by
  induction h with
  | start => intro buf; rfl
  | space pre toks _ ih =>
    intro buf
    rw [List.append_assoc, ih, List.singleton_append, tokensFrom_space]
  | word pre toks w _ hw ih =>
    intro buf
    rw [List.append_assoc, List.append_assoc, ih, List.singleton_append, tokensFrom_word w buf hw]
    simp
  | quoted pre toks q _ hq ih =>
    intro buf
    have e : pre ++ quoteChar :: q ++ [quoteChar] ++ buf =
        pre ++ (quoteChar :: q ++ quoteChar :: buf) := by simp
    rw [e, ih, tokensFrom_quoted q buf hq]
    simp

theorem parseTokens_eq_tokensFrom (body : List Char) (last : Char) :
    parseTokens (body ++ [last]) = tokensFrom (body ++ [' ']) := by
  unfold parseTokens
  rw [List.dropLast_concat]
  exact tokensFrom_eq _ _ (by simp)

theorem parseline_tokens {cmdline : String} {toks : List String}
    (h : parseline cmdline = some toks) : toks = parseTokens cmdline.data := by
  unfold parseline at h
  split at h
  · cases h
  · split at h
    · cases h
    · split at h
      · cases h
      · exact (Option.some.inj h).symm

/-- A quoted span that begins at a token boundary is one token, which consists
of the characters between its quotes. -/
theorem quoted_span_is_token (pre rest : List Char) (toks all : List String) (q : List Char)
    (hal : Aligned pre toks) (hq : quoteChar ∉ q)
    (hparse : parseline
      (String.mk (pre ++ quoteChar :: q ++ quoteChar :: rest ++ [newlineChar])) = some all) :
    all = toks ++ String.mk q :: tokensFrom (rest ++ [' ']) := by
  rw [parseline_tokens hparse]
  show parseTokens (pre ++ quoteChar :: q ++ quoteChar :: rest ++ [newlineChar]) = _
  rw [parseTokens_eq_tokensFrom]
  have e : pre ++ quoteChar :: q ++ quoteChar :: rest ++ [' '] =
      pre ++ (quoteChar :: q ++ quoteChar :: (rest ++ [' '])) := by simp
  rw [e, tokensFrom_aligned hal, tokensFrom_quoted q _ hq]

/-- C16, the code at `echo x'a b'`: the line has the quoted span `'a b'`, and
the tokens are `echo`, `x'a` and `b'`; no token is `a b`. -/
theorem quoted_span_inside_word_split :
    parseline (String.mk ("echo x".data ++ quoteChar :: "a b".data ++ [quoteChar, newlineChar])) =
      some ["echo", String.mk ("x".data ++ quoteChar :: "a".data),
        String.mk ("b".data ++ [quoteChar])] ∧
    "a b" ∉ ["echo", String.mk ("x".data ++ quoteChar :: "a".data),
      String.mk ("b".data ++ [quoteChar])] := by
  refine ⟨by decide, by decide⟩

/-! ## eval: the first token handed to the builtin dispatcher -/

/-- The sequence `eval` hands to `builtin_cmd` is empty only for a token
sequence that is the single token `&`. -/
theorem stripBackground_eq_nil_iff (toks : List String) (hne : toks ≠ []) :
    stripBackground toks = [] ↔ toks = ["&"] := by
  rcases List.eq_nil_or_concat toks with rfl | ⟨l, a, rfl⟩
  · exact absurd rfl hne
  · rw [List.concat_eq_append]
    unfold stripBackground isBackground
    rw [List.getLast?_concat, List.dropLast_concat]
    by_cases ha : a = "&"
    · subst ha
      simp
    · have : ¬ (l ++ [a] = ["&"]) := by
        intro h
        have h2 := congrArg List.getLast? h
        simp at h2
        exact ha h2
      simp [ha, this]

/-- The builtin dispatcher reads a missing first token exactly when the token
sequence of the line is the single token `&`. -/
theorem builtin_cmd_crash_iff (jobs : List job_t) (toks : List String) (hne : toks ≠ []) :
    builtin_cmd jobs (stripBackground toks) = BuiltinOutcome.crash ↔ toks = ["&"] := by
  rw [← stripBackground_eq_nil_iff toks hne]
  cases h : stripBackground toks with
  | nil => simp [builtin_cmd]
  | cons a rest =>
    simp only [builtin_cmd, List.head?_cons]
    constructor
    · intro hc
      split_ifs at hc
    · intro hc
      cases hc

/-- C22, the code at the line `&`: the tokens are the single token `&`, which
is not `NULL`, so the guard `argv[0] == NULL` of `eval` lets the line through;
the token is then replaced by `NULL`, `builtin_cmd` is called with `argv[0]`
equal to `NULL` and compares it (`strcmp(argv[0], "quit")`): a crash, for every
job table and whatever `fork` would return. -/
theorem lone_ampersand_reaches_builtin_cmd :
    parseline "&\n" = some ["&"] ∧
    stripBackground ["&"] = [] ∧
    (∀ jobs, builtin_cmd jobs (stripBackground ["&"]) = BuiltinOutcome.crash) ∧
    ∀ sys jobs fork_pid, eval sys jobs "&\n" fork_pid = EvalOutcome.crash := by
  have hp : parseline "&\n" = some ["&"] := by decide
  refine ⟨hp, by decide, fun jobs => rfl, fun sys jobs fork_pid => ?_⟩
  unfold eval
  rw [hp]
  rfl

/-! ## Validation: redirections and stages -/

theorem specStages_ne_nil (l : List String) : specStages l ≠ [] := by
  cases l with
  | nil => simp [specStages]
  | cons a rest =>
    unfold specStages
    split
    · simp
    · split <;> simp

theorem specStages_cons_pipe (rest : List String) :
    specStages ("|" :: rest) = [] :: specStages rest := by
  rw [specStages, if_pos rfl]

theorem specStages_cons_of_ne (a : String) (rest : List String) (ha : a ≠ "|") :
    ∃ seg segs, specStages rest = seg :: segs ∧ specStages (a :: rest) = (a :: seg) :: segs := by
  cases h : specStages rest with
  | nil => exact absurd h (specStages_ne_nil rest)
  | cons seg segs =>
    refine ⟨seg, segs, rfl, ?_⟩
    rw [specStages, if_neg ha, h]

/-- A `<` token in a stage after the first one is a `<` after a `|`. -/
theorem input_in_later_stage (l : List String) :
    ∀ (flag : Bool) (k : Nat) (seg : List String), (specStages l)[k]? = some seg → "<" ∈ seg →
      (0 < k ∨ flag = true) → OccursAfter "|" "<" flag l := by
  induction l with
  | nil =>
    intro flag k seg hk hmem _
    cases k with
    | zero =>
      simp [specStages] at hk
      subst hk
      cases hmem
    | succ k => simp [specStages] at hk
  | cons a rest ih =>
    intro flag k seg hk hmem hor
    rw [occursAfter_cons]
    by_cases ha : a = "|"
    · subst ha
      rw [specStages_cons_pipe] at hk
      cases k with
      | zero =>
        simp at hk
        subst hk
        cases hmem
      | succ k =>
        right
        rw [List.getElem?_cons_succ] at hk
        exact ih _ k seg hk hmem (Or.inr (by simp))
    · obtain ⟨seg0, segs, h0, h1⟩ := specStages_cons_of_ne a rest ha
      rw [h1] at hk
      cases k with
      | zero =>
        have hflag : flag = true := by
          rcases hor with h | h
          · omega
          · exact h
        simp at hk
        subst hk
        rcases List.mem_cons.1 hmem with h | h
        · exact Or.inl ⟨h.symm, hflag⟩
        · right
          exact ih _ 0 seg0 (by rw [h0]; simp) h (Or.inr (by simp [hflag]))
      | succ k =>
        right
        rw [List.getElem?_cons_succ] at hk
        exact ih _ (k + 1) seg (by rw [h0, List.getElem?_cons_succ]; exact hk) hmem
          (Or.inl (by omega))

/-- A `>` token in a stage before the last one is a `>` before a `|`. -/
theorem output_in_earlier_stage (l : List String) :
    ∀ (flag : Bool),
      ((flag = true ∧ 2 ≤ (specStages l).length) ∨
        ∃ (k : Nat) (seg : List String), (specStages l)[k]? = some seg ∧ ">" ∈ seg ∧
          k + 1 < (specStages l).length) →
      OccursAfter ">" "|" flag l := by
  induction l with
  | nil =>
    intro flag h
    rcases h with ⟨_, h⟩ | ⟨k, seg, _, _, h⟩
    · simp [specStages] at h
    · simp [specStages] at h
  | cons a rest ih =>
    intro flag h
    rw [occursAfter_cons]
    by_cases ha : a = "|"
    · subst ha
      rw [specStages_cons_pipe] at h
      rcases h with ⟨hflag, _⟩ | ⟨k, seg, hk, hmem, hlt⟩
      · exact Or.inl ⟨rfl, hflag⟩
      · cases k with
        | zero =>
          simp at hk
          subst hk
          cases hmem
        | succ k =>
          right
          rw [List.getElem?_cons_succ] at hk
          rw [List.length_cons] at hlt
          have hf : (flag || decide ("|" = ">")) = flag := by simp
          rw [hf]
          exact ih flag (Or.inr ⟨k, seg, hk, hmem, by omega⟩)
    · obtain ⟨seg0, segs, h0, h1⟩ := specStages_cons_of_ne a rest ha
      rw [h1] at h
      have hlen : (specStages rest).length = ((a :: seg0) :: segs).length := by
        rw [h0]
        rfl
      right
      rcases h with ⟨hflag, h2⟩ | ⟨k, seg, hk, hmem, hlt⟩
      · exact ih _ (Or.inl ⟨by simp [hflag], by rw [hlen]; exact h2⟩)
      · cases k with
        | zero =>
          simp at hk
          subst hk
          rcases List.mem_cons.1 hmem with h | h
          · exact ih _ (Or.inl ⟨by simp [h], by rw [hlen]; omega⟩)
          · by_cases hflag : (flag || decide (a = ">")) = true
            · exact ih _ (Or.inl ⟨hflag, by rw [hlen]; omega⟩)
            · exact ih _ (Or.inr ⟨0, seg0, by rw [h0]; simp, h, by rw [hlen]; exact hlt⟩)
        | succ k =>
          rw [List.getElem?_cons_succ] at hk
          exact ih _ (Or.inr ⟨k + 1, seg, by rw [h0, List.getElem?_cons_succ]; exact hk, hmem,
            by rw [hlen]; exact hlt⟩)

/-- C21: in every token sequence accepted by the validation loop, every `<`
token lies in the first `|`-delimited stage and every `>` token lies in the
last `|`-delimited stage: a stage that holds a `<` is stage number 0 of the
segments, and a stage that holds a `>` is the last of the segments. -/
theorem redirections_in_first_and_last_stage (argv : List String)
    (hval : validate argv = none) :
    (∀ (k : Nat) (seg : List String), (specStages argv)[k]? = some seg → "<" ∈ seg → k = 0) ∧
    (∀ (k : Nat) (seg : List String), (specStages argv)[k]? = some seg → ">" ∈ seg →
      k + 1 = (specStages argv).length) := by
  by_cases hne : argv = []
  · subst hne
    have hnil : ∀ (k : Nat) (seg : List String) (x : String),
        (specStages [])[k]? = some seg → x ∈ seg → False := by
      intro k seg x hk hmem
      cases k with
      | zero =>
        simp [specStages] at hk
        subst hk
        cases hmem
      | succ k => simp [specStages] at hk
    exact ⟨fun k seg hk hmem => (hnil k seg _ hk hmem).elim,
      fun k seg hk hmem => (hnil k seg _ hk hmem).elim⟩
  have hacc := (validate_none_iff argv hne).1 hval
  have h1 : ∀ y x, OccursAfter y x false argv ↔
      ∃ j, j < argv.length ∧ argv.getD j "" = x ∧ ∃ i, i < j ∧ argv.getD i "" = y := by
    intro y x
    simp [OccursAfter]
  constructor
  · intro k seg hk hmem
    by_contra hk0
    have := input_in_later_stage argv false k seg hk hmem (Or.inl (by omega))
    exact hacc (Or.inr (Or.inr (Or.inl ((h1 _ _).1 this))))
  · intro k seg hk hmem
    by_contra hlast
    have hklt : k < (specStages argv).length := by
      by_contra hge
      rw [List.getElem?_eq_none (by omega)] at hk
      cases hk
    have := output_in_earlier_stage argv false (Or.inr ⟨k, seg, hk, hmem, by omega⟩)
    exact hacc (Or.inr (Or.inr (Or.inr ((h1 _ _).1 this))))

/-- C21, at the accepted sequence `a < in | b | c > out`: the `<` is in stage
0, the `>` is in the last of the three stages. -/
theorem redirections_in_first_and_last_stage_witness :
    (∀ (k : Nat) (seg : List String),
      (specStages ["a", "<", "in", "|", "b", "|", "c", ">", "out"])[k]? = some seg →
        "<" ∈ seg → k = 0) ∧
    (∀ (k : Nat) (seg : List String),
      (specStages ["a", "<", "in", "|", "b", "|", "c", ">", "out"])[k]? = some seg →
        ">" ∈ seg →
        k + 1 = (specStages ["a", "<", "in", "|", "b", "|", "c", ">", "out"]).length) :=
  redirections_in_first_and_last_stage ["a", "<", "in", "|", "b", "|", "c", ">", "out"]
    (by decide)

/-! ## The job table: add, look up, delete -/

/-- In every table reached from `initjobs` by `addjob` and `deletejob`, the
empty slots are as `clearjob` leaves them. -/
theorem emptySlotsClear_of_reachable {jobs : List job_t} (h : TableReachable jobs) :
    EmptySlotsClear jobs := by
  induction h with
  | init =>
    intro e he _
    exact List.eq_of_mem_replicate he
  | add jobs pid state cmdline r hr hadd ih =>
    have hwf := wellFormed_of_reachable hr
    by_cases hc : pid < 1 ∨ ¬ HasFreeSlot jobs
    · obtain ⟨out, ho⟩ := (addjob_wf hwf pid state cmdline).1 hc
      rw [ho] at hadd
      cases hadd
      exact ih
    · have hp : 1 ≤ pid := by
        by_contra h1
        exact hc (Or.inl (by omega))
      have hf : HasFreeSlot jobs := by
        by_contra h1
        exact hc (Or.inr h1)
      obtain ⟨jid, l1, e, l2, e1, _, _, _, _, _, e7⟩ := (addjob_wf hwf pid state cmdline).2 hp hf
      rw [e7] at hadd
      split at hadd
      · cases hadd
        intro x hx hx0
        apply ih x ?_ hx0
        rw [e1]
        simp only [List.mem_append, List.mem_cons] at hx ⊢
        rcases hx with hx | hx | hx
        · exact Or.inl hx
        · rw [hx] at hx0
          simp only at hx0
          omega
        · exact Or.inr (Or.inr hx)
      · cases hadd
  | delete jobs pid hr ih =>
    unfold deletejob
    split
    · exact ih
    · rcases deletejobLoop_spec pid jobs with ⟨h1, _⟩ | ⟨l1, e, l2, e1, _, _, e4⟩
      · rw [h1]
        exact ih
      · rw [e4]
        intro x hx hx0
        simp only [List.mem_append, List.mem_cons] at hx
        rcases hx with hx | hx | hx
        · exact ih x (by rw [e1]; simp [hx]) hx0
        · rw [hx]
          rfl
        · exact ih x (by rw [e1]; simp [hx]) hx0

theorem modifyHead_nil_append (l : List (List Char)) :
    l.modifyHead (fun x => [] ++ x) = l := by
  cases l <;> rfl

theorem splitOn_nil_char : ([] : List Char).splitOn ' ' = [[]] := rfl

theorem splitOn_cons_space (cs : List Char) :
    (' ' :: cs).splitOn ' ' = [] :: cs.splitOn ' ' := by
  unfold List.splitOn
  rw [List.splitOnP_cons]
  simp

theorem splitOn_cons_of_ne (c : Char) (cs : List Char) (hc : c ≠ ' ') :
    (c :: cs).splitOn ' ' = (cs.splitOn ' ').modifyHead (List.cons c) := by
  unfold List.splitOn
  rw [List.splitOnP_cons]
  simp [hc]

/-- No piece between spaces holds a space. -/
theorem splitOn_no_space (l : List Char) : ∀ w ∈ l.splitOn ' ', ' ' ∉ w := by
  induction l with
  | nil =>
    intro w hw
    rw [splitOn_nil_char] at hw
    simp at hw
    subst hw
    simp
  | cons c cs ih =>
    intro w hw
    by_cases hc : c = ' '
    · subst hc
      rw [splitOn_cons_space] at hw
      rcases List.mem_cons.1 hw with h | h
      · subst h
        simp
      · exact ih w h
    · rw [splitOn_cons_of_ne c cs hc] at hw
      cases hs : cs.splitOn ' ' with
      | nil =>
        rw [hs] at hw
        simp at hw
      | cons seg segs =>
        rw [hs] at hw ih
        simp only [List.modifyHead_cons, List.mem_cons] at hw
        rcases hw with h | h
        · subst h
          intro hmem
          rcases List.mem_cons.1 hmem with h1 | h1
          · exact hc h1.symm
          · exact ih seg (List.mem_cons_self _ _) h1
        · exact ih w (List.mem_cons_of_mem _ h)

/-- The tokens of a buffer without quotes that ends in a space, after the
characters `cur` of a word that has begun. -/
theorem tokensFrom_plain (s : List Char) :
    ∀ cur : List Char, ' ' ∉ cur → quoteChar ∉ cur → quoteChar ∉ s →
      tokensFrom (cur ++ s ++ [' ']) =
        (((s.splitOn ' ').modifyHead (fun x => cur ++ x)).filter
          (fun w => decide (w ≠ []))).map String.mk := by
  induction s with
  | nil =>
    intro cur hsp hq _
    rw [splitOn_nil_char]
    by_cases hcur : cur = []
    · subst hcur
      show tokensFrom [' '] = _
      rw [tokensFrom_space, tokensFrom_nil]
      rfl
    · have hw : PlainWord cur := by
        refine ⟨hcur, hsp, ?_⟩
        intro h
        obtain ⟨c, cs, rfl⟩ := List.exists_cons_of_ne_nil hcur
        simp at h
        exact hq (by simp [h])
      rw [List.append_nil, tokensFrom_word cur [] hw, tokensFrom_nil]
      simp [List.modifyHead, hcur]
  | cons c cs ih =>
    intro cur hsp hq hqs
    have hqcs : quoteChar ∉ cs := fun h => hqs (List.mem_cons_of_mem _ h)
    by_cases hc : c = ' '
    · subst hc
      rw [splitOn_cons_space]
      have hrest := ih [] (by simp) (by simp) hqcs
      rw [modifyHead_nil_append] at hrest
      simp only [List.nil_append] at hrest
      by_cases hcur : cur = []
      · subst hcur
        show tokensFrom (' ' :: (cs ++ [' '])) = _
        rw [tokensFrom_space, hrest]
        simp [List.modifyHead]
      · have hw : PlainWord cur := by
          refine ⟨hcur, hsp, ?_⟩
          intro h
          obtain ⟨d, ds, rfl⟩ := List.exists_cons_of_ne_nil hcur
          simp at h
          exact hq (by simp [h])
        have e : cur ++ ' ' :: cs ++ [' '] = cur ++ ' ' :: (cs ++ [' ']) := by simp
        rw [e, tokensFrom_word cur _ hw, hrest]
        simp [List.modifyHead, hcur]
    · have hcq : c ≠ quoteChar := fun h => hqs (by simp [h])
      rw [splitOn_cons_of_ne c cs hc, List.modifyHead_modifyHead]
      have e : cur ++ c :: cs ++ [' '] = (cur ++ [c]) ++ cs ++ [' '] := by simp
      have hf : ((fun x => cur ++ x) ∘ List.cons c) = (fun x => (cur ++ [c]) ++ x) := by
        funext x
        simp
      rw [e, hf]
      apply ih (cur ++ [c]) _ _ hqcs
      · intro h
        rcases List.mem_append.1 h with h | h
        · exact hsp h
        · exact hc (List.mem_singleton.1 h).symm
      · intro h
        rcases List.mem_append.1 h with h | h
        · exact hq h
        · exact hcq (List.mem_singleton.1 h).symm

/-- C24: for every newline-terminated input line that contains no single-quote
character and fits `MAXLINE` and `MAXARGS`, `parseline` returns, in order,
exactly the maximal runs of non-space characters of the line without its final
newline; the count it returns (the length of the sequence, where `argv` has its
`NULL`) is the number of those runs, and no token is empty or contains a
space. -/
theorem parseline_plain_line (body : List Char) (hq : quoteChar ∉ body)
    (hlen : (body ++ [newlineChar]).length < MAXLINE)
    (hargs : (specWords body).length < MAXARGS) :
    parseline (String.mk (body ++ [newlineChar])) = some ((specWords body).map String.mk) ∧
    ((specWords body).map String.mk).length = (specWords body).length ∧
    ∀ t ∈ (specWords body).map String.mk, t ≠ "" ∧ ' ' ∉ t.data := by
  have htok : parseTokens (body ++ [newlineChar]) = (specWords body).map String.mk := by
    rw [parseTokens_eq_tokensFrom]
    have := tokensFrom_plain body [] (by simp) (by simp) hq
    rw [modifyHead_nil_append] at this
    exact this
  refine ⟨?_, List.length_map _ _, ?_⟩
  · unfold parseline
    have h1 : (String.mk (body ++ [newlineChar])).data ≠ [] := by simp
    have h2 : ¬ MAXLINE ≤ (String.mk (body ++ [newlineChar])).length := by
      show ¬ MAXLINE ≤ (body ++ [newlineChar]).length
      omega
    have h3 : ¬ MAXARGS ≤ (parseTokens (String.mk (body ++ [newlineChar])).data).length := by
      show ¬ MAXARGS ≤ (parseTokens (body ++ [newlineChar])).length
      rw [htok, List.length_map]
      omega
    rw [if_neg h1, if_neg h2, if_neg h3]
    exact congrArg some htok
  · intro t ht
    obtain ⟨w, hw, rfl⟩ := List.mem_map.1 ht
    unfold specWords at hw
    obtain ⟨hw1, hw2⟩ := List.mem_filter.1 hw
    have hne : w ≠ [] := of_decide_eq_true hw2
    refine ⟨?_, splitOn_no_space body w hw1⟩
    intro h
    apply hne
    have := congrArg String.data h
    simpa using this

/-- C24, at the line `ls  -l /tmp ` (two spaces after `ls`, one at the end). -/
theorem parseline_plain_line_witness :
    parseline (String.mk ("ls  -l /tmp ".data ++ [newlineChar])) =
      some ((specWords "ls  -l /tmp ".data).map String.mk) ∧
    ((specWords "ls  -l /tmp ".data).map String.mk).length = (specWords "ls  -l /tmp ".data).length ∧
    ∀ t ∈ (specWords "ls  -l /tmp ".data).map String.mk, t ≠ "" ∧ ' ' ∉ t.data :=
  parseline_plain_line "ls  -l /tmp ".data (by decide) (by decide) (by decide)

/-! ## The stage loop: program paths -/

theorem set_zero_headD (l : List (Option String)) (x : Option String) (h : l ≠ []) :
    (l.set 0 x).headD none = x := by
  cases l with
  | nil => exact absurd rfl h
  | cons a t => rfl

theorem set_zero_getD (l : List (Option String)) (x : Option String) (j : Nat) (h : 1 ≤ j) :
    (l.set 0 x).getD j none = l.getD j none := by
  cases l with
  | nil => rfl
  | cons a t =>
    cases j with
    | zero => omega
    | succ j => rfl

theorem markPipe_getD_true (argv : List String) (i : Nat) (hi : i < argv.length)
    (h : argv.getD i "" = "|") : (markPipe argv).getD i false = true := by
  unfold markPipe
  by_contra hc
  exact map_getD_false _ argv i hc ⟨hi, by simpa using h⟩

theorem markArgv_getD (argv : List String) (i : Nat) (hi : i < argv.length)
    (h : isOperator (argv.getD i "") = false) :
    (markArgv argv).getD i none = some (argv.getD i "") := by
  unfold markArgv
  rw [List.getD_eq_getElem?_getD, List.getElem?_map]
  rw [List.getD_eq_getElem?_getD] at h ⊢
  rw [List.getElem?_eq_getElem hi] at h ⊢
  simp only [Option.getD_some, Option.map_some'] at h ⊢
  unfold isOperator at h
  simp only [Bool.or_eq_false_iff, decide_eq_false_iff_not] at h
  rw [if_neg h.2, if_neg h.1.1, if_neg h.1.2]

theorem drop_eq_getD_cons (argv : List String) (i : Nat) (hi : i < argv.length) :
    argv.drop i = argv.getD i "" :: argv.drop (i + 1) := by
  rw [List.getD_eq_getElem?_getD, List.getElem?_eq_getElem hi]
  exact List.drop_eq_getElem_cons hi

theorem specStages_drop_of_ne (argv : List String) (i : Nat) (hi : i < argv.length)
    (ha : argv.getD i "" ≠ "|") :
    ((specStages (argv.drop i)).headD []).head? = some (argv.getD i "") ∧
    (specStages (argv.drop (i + 1))).tail = (specStages (argv.drop i)).tail := by
  rw [drop_eq_getD_cons argv i hi]
  obtain ⟨seg, segs, h0, h1⟩ := specStages_cons_of_ne _ (argv.drop (i + 1)) ha
  rw [h1, h0]
  exact ⟨rfl, rfl⟩

theorem specStages_drop_pipe (argv : List String) (i : Nat) (hi : i < argv.length)
    (ha : argv.getD i "" = "|") :
    specStages (argv.drop i) = [] :: specStages (argv.drop (i + 1)) := by
  rw [drop_eq_getD_cons argv i hi, ha, specStages_cons_pipe]

theorem map_head?_eq (S : List (List String)) (h : S ≠ []) :
    S.map List.head? = (S.headD []).head? :: S.tail.map List.head? := by
  cases S with
  | nil => exact absurd rfl h
  | cons a t => rfl

/-- One iteration of the stage loop keeps the invariant of the program paths. -/
theorem stageStep_paths (sys : Sys) (argv : List String) (i : Nat) (st st' : Leader)
    (hne : argv ≠ [])
    (hop : ∀ i, i < argv.length → isOperator (argv.getD i "") = true →
      i + 1 < argv.length ∧ isOperator (argv.getD (i + 1) "") = false)
    (hinv : StageInv argv i st) (hpath : PathInv argv i st)
    (hstep : stageStep sys (markPipe argv) (markInredir argv) (markOutredir argv) st i =
      Except.ok st') :
    PathInv argv (i + 1) st' := by
  obtain ⟨h1, _⟩ := hinv
  obtain ⟨p1, p2, p3⟩ := hpath
  have hargv : st.argv ≠ [] := by
    intro h
    rw [h] at p1
    exact hne (List.length_eq_zero.1 p1.symm)
  unfold stageStep at hstep
  by_cases hskip : st.skip_this_iteration = true
  · rw [if_pos hskip] at hstep
    obtain ⟨hi0, hilt, hiop⟩ := h1 hskip
    have hnext := hop (i - 1) hilt hiop
    have hi1 : i - 1 + 1 = i := by omega
    rw [hi1] at hnext
    have ha : argv.getD i "" ≠ "|" := by
      intro h
      have := hnext.2
      rw [h] at this
      exact absurd this (by decide)
    obtain ⟨s1, s2⟩ := specStages_drop_of_ne argv i hnext.1 ha
    by_cases hp : argv.getD (i - 1) "" = "|"
    · have hm := markPipe_getD_true argv (i - 1) hilt hp
      rw [if_pos hm] at hstep
      cases hstep
      refine ⟨?_, ?_, ?_⟩
      · show (st.argv.set 0 _).length = argv.length
        rw [List.length_set]
        exact p1
      · intro j hj
        show (st.argv.set 0 _).getD j none = _
        rw [set_zero_getD _ _ _ hj]
        exact p2 j hj
      · unfold stagePaths at p3 ⊢
        rw [if_pos ⟨hskip, hp⟩] at p3
        rw [if_neg (fun h => absurd h.1 (by simp))]
        show st.subs.map Proc.path ++ (st.argv.set 0 (st.argv.getD i none)).headD none :: _ = _
        rw [set_zero_headD _ _ hargv, p2 i (by omega), markArgv_getD argv i hnext.1 hnext.2, s2,
          ← s1]
        exact p3
    · have hm : ¬ (markPipe argv).getD (i - 1) false = true :=
        fun h => hp (of_decide_eq_true (map_getD_true _ argv (i - 1) h).2)
      rw [if_neg hm] at hstep
      cases hstep
      refine ⟨p1, p2, ?_⟩
      unfold stagePaths at p3 ⊢
      rw [if_neg (fun h => hp h.2)] at p3
      rw [if_neg (fun h => absurd h.1 (by simp)), s2]
      exact p3
  · rw [if_neg hskip] at hstep
    have hcond : ¬ (st.skip_this_iteration = true ∧ argv.getD (i - 1) "" = "|") :=
      fun h => hskip h.1
    unfold stagePaths at p3
    rw [if_neg hcond] at p3
    by_cases hir : (markInredir argv).getD i false = true
    · rw [if_pos hir] at hstep
      obtain ⟨hilt, hf⟩ := map_getD_true _ argv i hir
      have htok : argv.getD i "" = "<" := (of_decide_eq_true hf).2
      have ha : argv.getD i "" ≠ "|" := by
        rw [htok]
        decide
      obtain ⟨_, s2⟩ := specStages_drop_of_ne argv i hilt ha
      cases hstep
      refine ⟨p1, p2, ?_⟩
      unfold stagePaths
      rw [if_neg (fun h => ha (by simpa using h.2)), s2]
      exact p3
    · rw [if_neg hir] at hstep
      by_cases hor : (markOutredir argv).getD i false = true
      · rw [if_pos hor] at hstep
        obtain ⟨hilt, hf⟩ := map_getD_true _ argv i hor
        have htok : argv.getD i "" = ">" := (of_decide_eq_true hf).2.2
        have ha : argv.getD i "" ≠ "|" := by
          rw [htok]
          decide
        obtain ⟨_, s2⟩ := specStages_drop_of_ne argv i hilt ha
        cases hstep
        refine ⟨p1, p2, ?_⟩
        unfold stagePaths
        rw [if_neg (fun h => ha (by simpa using h.2)), s2]
        exact p3
      · rw [if_neg hor] at hstep
        by_cases hip : (markPipe argv).getD i false = true
        · rw [if_pos hip] at hstep
          obtain ⟨hilt, hf⟩ := map_getD_true _ argv i hip
          have htok : argv.getD i "" = "|" := of_decide_eq_true hf
          have sp := specStages_drop_pipe argv i hilt htok
          rw [sp] at p3
          simp only [] at hstep
          split at hstep
          · cases hstep
          · split at hstep
            · cases hstep
            · cases hstep
              refine ⟨p1, p2, ?_⟩
              unfold stagePaths
              rw [if_pos ⟨rfl, by simpa using htok⟩, ← p3, List.tail_cons,
                map_head?_eq (specStages (argv.drop (i + 1)))
                  (specStages_ne_nil (argv.drop (i + 1)))]
              simp [execveCall]
        · rw [if_neg hip] at hstep
          cases hstep
          refine ⟨p1, p2, ?_⟩
          unfold stagePaths
          rw [if_neg (fun h => hskip h.1)]
          by_cases hilt : i < argv.length
          · have ha : argv.getD i "" ≠ "|" := by
              intro h
              exact hip (markPipe_getD_true argv i hilt h)
            obtain ⟨_, s2⟩ := specStages_drop_of_ne argv i hilt ha
            rw [s2]
            exact p3
          · rw [List.drop_eq_nil_of_le (by omega)] at p3 ⊢
            exact p3

/-- The stage loop, run to its end, keeps both invariants. -/
theorem stageLoop_paths (sys : Sys) (argv : List String) (hne : argv ≠ [])
    (hpipe : ∀ k, sys.pipeFails k = false) (hfork : ∀ k, sys.forkFails k = false)
    (hop : ∀ i, i < argv.length → isOperator (argv.getD i "") = true →
      i + 1 < argv.length ∧ isOperator (argv.getD (i + 1) "") = false)
    (hin : ¬ InputAfterPipe argv) :
    ∀ (n i : Nat) (st : Leader), StageInv argv i st → PathInv argv i st →
      ∃ st', stageLoop sys (markPipe argv) (markInredir argv) (markOutredir argv) n i st =
          Except.ok st' ∧ StageInv argv (i + n) st' ∧ PathInv argv (i + n) st' := by
  intro n
  induction n with
  | zero =>
    intro i st hinv hpath
    exact ⟨st, rfl, hinv, hpath⟩
  | succ n ih =>
    intro i st hinv hpath
    obtain ⟨st1, hs1, hinv1⟩ := stageStep_inv sys argv i st hpipe hfork hop hin hinv
    have hpath1 := stageStep_paths sys argv i st st1 hne hop hinv hpath hs1
    obtain ⟨st2, hs2, hinv2, hpath2⟩ := ih (i + 1) st1 hinv1 hpath1
    have e : i + (n + 1) = i + 1 + n := by omega
    refine ⟨st2, ?_, by rw [e]; exact hinv2, by rw [e]; exact hpath2⟩
    unfold stageLoop
    rw [hs1]
    exact hs2

/-- In a sequence where every `|` is followed by a token that is not `|`, no
segment after the first is empty, and the first is not empty when the sequence
begins with a token that is not `|`. -/
theorem specStages_segments (l : List String) :
    (∀ i, i < l.length → l.getD i "" = "|" → i + 1 < l.length ∧ l.getD (i + 1) "" ≠ "|") →
    (∀ seg ∈ (specStages l).tail, seg ≠ []) ∧
    (l ≠ [] → l.getD 0 "" ≠ "|" → (specStages l).headD [] ≠ []) := by
  induction l with
  | nil =>
    intro _
    exact ⟨fun seg hseg => by simp [specStages] at hseg, fun h => absurd rfl h⟩
  | cons a rest ih =>
    intro h
    have hrest : ∀ i, i < rest.length → rest.getD i "" = "|" →
        i + 1 < rest.length ∧ rest.getD (i + 1) "" ≠ "|" := by
      intro i hi hp
      have := h (i + 1) (by simp only [List.length_cons]; omega) (by simpa using hp)
      simp only [List.length_cons, List.getD_cons_succ] at this
      exact ⟨by omega, this.2⟩
    obtain ⟨ih1, ih2⟩ := ih hrest
    by_cases ha : a = "|"
    · subst ha
      rw [specStages_cons_pipe]
      refine ⟨fun seg hseg => ?_, fun _ h0 => absurd (by simp) h0⟩
      have h0 := h 0 (by simp) (by simp)
      simp only [List.length_cons, List.getD_cons_succ] at h0
      have hrne : rest ≠ [] := by
        intro hr
        rw [hr] at h0
        simp at h0
      have hhead := ih2 hrne h0.2
      simp only [List.tail_cons] at hseg
      cases hS : specStages rest with
      | nil => exact absurd hS (specStages_ne_nil rest)
      | cons s ss =>
        rw [hS] at hseg hhead ih1
        rcases List.mem_cons.1 hseg with hs | hs
        · rw [hs]
          exact hhead
        · exact ih1 seg hs
    · obtain ⟨seg0, segs, h0, h1⟩ := specStages_cons_of_ne a rest ha
      rw [h1]
      rw [h0] at ih1
      exact ⟨fun seg hseg => ih1 seg hseg, fun _ _ => by simp⟩

/-- C23: for every accepted (non-empty) token sequence, with any number of
stages, when no `pipe` and no `fork` of the leader fails, the child of `eval`
ends with one process per `|`-delimited segment (the sub-children in the order
they were forked, then the leader), and for every `k` the program path that
the process running stage `k` passes to `execve` as first argument
(`argv_ptr[0]`) is the first token of the `k`-th segment. -/
theorem stage_path_is_first_token (sys : Sys) (argv : List String) (argc : Nat)
    (hne : argv ≠ []) (hval : validate argv = none) (hargc : argv.length ≤ argc)
    (hpipe : ∀ k, sys.pipeFails k = false) (hfork : ∀ k, sys.forkFails k = false) :
    ∃ (subs : List Proc) (leader : Proc) (pipes : Int),
      evalChild sys argv argc = ChildOutcome.launched subs leader pipes ∧
      (subs ++ [leader]).length = (specStages argv).length ∧
      ∀ (k : Nat) (p : Proc), (subs ++ [leader])[k]? = some p →
        ∃ (first : String) (rest : List String),
          (specStages argv)[k]? = some (first :: rest) ∧ p.path = some first := by
  have hacc := (validate_none_iff argv hne).1 hval
  have hop := (operator_followed_by_operand argv hne hval)
  have hin : ¬ InputAfterPipe argv := fun h => hacc (Or.inr (Or.inr (Or.inl h)))
  have hfirst : isOperator (argv.getD 0 "") = false := by
    by_contra h
    exact hacc (Or.inl ⟨hne, by simpa using h⟩)
  have hlen0 : 0 < argv.length := List.length_pos.2 hne
  have hfirstp : argv.getD 0 "" ≠ "|" := by
    intro h
    rw [h] at hfirst
    exact absurd hfirst (by decide)
  have hinit : StageInv argv 0
      { argv := markArgv argv, skip_this_iteration := false, i_fd := -1,
        pgid := PGroup.ofLeader, stdin := Fd.shellStdin, stdout := Fd.shellStdout, subs := [] } := by
    refine ⟨fun h => absurd h (by simp), by simp, by simp, rfl, fun p hp => by simp at hp,
      fun k p hk => by simp at hk, fun k p hk => by simp at hk, fun k hk => by simp at hk⟩
  have hpinit : PathInv argv 0
      { argv := markArgv argv, skip_this_iteration := false, i_fd := -1,
        pgid := PGroup.ofLeader, stdin := Fd.shellStdin, stdout := Fd.shellStdout, subs := [] } := by
    refine ⟨by simp [markArgv], fun j _ => rfl, ?_⟩
    unfold stagePaths
    rw [if_neg (fun h => absurd h.1 (by simp))]
    have h0 := markArgv_getD argv 0 hlen0 hfirst
    have hhd : (markArgv argv).headD none = (markArgv argv).getD 0 none := by
      cases markArgv argv <;> rfl
    show [] ++ (markArgv argv).headD none :: _ = _
    rw [hhd, h0, ← (specStages_drop_of_ne argv 0 hlen0 hfirstp).1, List.drop_zero,
      List.nil_append]
    exact (map_head?_eq _ (specStages_ne_nil argv)).symm
  obtain ⟨st, hloop, hst, q1, q2, q3⟩ :=
    stageLoop_paths sys argv hne hpipe hfork hop hin argc 0 _ hinit hpinit
  rw [Nat.zero_add] at hst q3
  have hskip : ¬ st.skip_this_iteration = true := by
    intro h
    obtain ⟨_, h2, h3⟩ := hst.1 h
    have := (hop (argc - 1) h2 h3).1
    omega
  unfold stagePaths at q3
  rw [if_neg (fun h => hskip h.1), List.drop_eq_nil_of_le hargc] at q3
  have hmap : (st.subs ++ [execveCall st]).map Proc.path = (specStages argv).map List.head? := by
    rw [← q3]
    simp [specStages, execveCall]
  have hsegs : ∀ seg ∈ specStages argv, seg ≠ [] := by
    have hpp : ∀ i, i < argv.length → argv.getD i "" = "|" →
        i + 1 < argv.length ∧ argv.getD (i + 1) "" ≠ "|" := by
      intro i hi hp
      have := hop i hi (by rw [hp]; decide)
      refine ⟨this.1, fun h => ?_⟩
      have h2 := this.2
      rw [h] at h2
      exact absurd h2 (by decide)
    obtain ⟨t1, t2⟩ := specStages_segments argv hpp
    have t3 := t2 hne hfirstp
    intro seg hseg
    cases hS : specStages argv with
    | nil => exact absurd hS (specStages_ne_nil argv)
    | cons s ss =>
      rw [hS] at hseg t1 t3
      rcases List.mem_cons.1 hseg with hs | hs
      · rw [hs]
        exact t3
      · exact t1 seg hs
  refine ⟨st.subs, execveCall st, st.i_fd + 1, ?_, ?_, fun k p hk => ?_⟩
  · unfold evalChild
    rw [hval]
    simp only []
    rw [hloop]
  · have := congrArg List.length hmap
    simpa using this
  · have hk2 : ((st.subs ++ [execveCall st]).map Proc.path)[k]? = some p.path := by
      rw [List.getElem?_map, hk]
      rfl
    rw [hmap, List.getElem?_map] at hk2
    cases hseg : (specStages argv)[k]? with
    | none =>
      rw [hseg] at hk2
      cases hk2
    | some seg =>
      rw [hseg] at hk2
      have hmem : seg ∈ specStages argv := by
        obtain ⟨hk1, hk3⟩ := List.getElem?_eq_some.1 hseg
        rw [← hk3]
        exact List.getElem_mem _
      cases seg with
      | nil => exact absurd rfl (hsegs [] hmem)
      | cons first rest =>
        refine ⟨first, rest, rfl, ?_⟩
        simpa using hk2.symm

/-- C23, at the three-stage sequence `/bin/ls | /bin/grep e | /bin/grep drive`. -/
theorem stage_path_is_first_token_witness :
    ∃ (subs : List Proc) (leader : Proc) (pipes : Int),
      evalChild sysOk ["/bin/ls", "|", "/bin/grep", "e", "|", "/bin/grep", "drive"] 7 =
        ChildOutcome.launched subs leader pipes ∧
      (subs ++ [leader]).length =
        (specStages ["/bin/ls", "|", "/bin/grep", "e", "|", "/bin/grep", "drive"]).length ∧
      ∀ (k : Nat) (p : Proc), (subs ++ [leader])[k]? = some p →
        ∃ (first : String) (rest : List String),
          (specStages ["/bin/ls", "|", "/bin/grep", "e", "|", "/bin/grep", "drive"])[k]? =
            some (first :: rest) ∧ p.path = some first :=
  stage_path_is_first_token sysOk ["/bin/ls", "|", "/bin/grep", "e", "|", "/bin/grep", "drive"] 7
    (by decide) (by decide) (by decide) (fun _ => rfl) (fun _ => rfl)

end Tsh
